import Mathlib

/-!
# Streamline mapping: voxelisation and track-wise factors

A shallow embedding of `src/dwi/tractography/mapping/mapper.cpp`
(`TrackMapperBase::voxelise`, `TrackMapperTWI::set_factor`,
`TrackMapperTWI::load_factors`) and proofs about it.

## Floating point

The C++ works on `float`.  A value is modelled by `FVal`: NaN, the two
infinities, or a finite value carried as an exact rational.  Every arithmetic
operation computes the exact rational result and hands it to the rounding
function `P.rnd` of the platform `P`, which returns the nearest value of the
format, or an infinity on overflow.  The special values follow IEEE 754.
The two zeros are identified: they compare equal, and nothing in this file
tells them apart but the sign of a quotient by zero, which is discarded by the
finiteness test that follows.

Theorems are stated for every platform.  The code is evaluated on concrete inputs
on `binary32`, the IEEE 754 single-precision platform, and on `unrounded`, the same
platform with rounding switched off.
-/

namespace MR.DWI.Tractography.Mapping

/-! ## Floating-point values -/

/-- A floating-point value: NaN, an infinity, or a finite number. -/
inductive FVal where
  | nan
  | pinf
  | ninf
  | fin (q : ℚ)
deriving DecidableEq, Repr

namespace FVal

instance : Inhabited FVal := ⟨fin 0⟩

/-- The C++ `std::isfinite`. -/
def isfinite : FVal → Bool
  | fin _ => true
  | _ => false

/-- Conversion of a float to `bool` in a condition: true unless the value is zero
(NaN and the infinities are non-zero). -/
def toBool : FVal → Bool
  | fin q => decide (q ≠ 0)
  | _ => true

/-- The C++ `a < b` on floats: false whenever an operand is NaN. -/
def lt : FVal → FVal → Bool
  | nan, _ => false
  | _, nan => false
  | pinf, _ => false
  | _, ninf => false
  | ninf, _ => true
  | fin _, pinf => true
  | fin a, fin b => decide (a < b)

/-- The C++ `a > b` on floats. -/
def gt (a b : FVal) : Bool := lt b a

/-- The C++ `a <= b` on floats: false whenever an operand is NaN. -/
def le : FVal → FVal → Bool
  | nan, _ => false
  | _, nan => false
  | ninf, _ => true
  | _, pinf => true
  | pinf, _ => false
  | fin _, ninf => false
  | fin a, fin b => decide (a ≤ b)

/-- The C++ `a >= b` on floats. -/
def ge (a b : FVal) : Bool := le b a

/-- Unary minus. -/
def neg : FVal → FVal
  | nan => nan
  | pinf => ninf
  | ninf => pinf
  | fin q => fin (-q)

/-- The C++ `std::abs` on a float. -/
def abs : FVal → FVal
  | nan => nan
  | pinf => pinf
  | ninf => pinf
  | fin q => fin |q|

/-- The C++ `std::min (a, b)`: `(b < a) ? b : a`. -/
def min (a b : FVal) : FVal := if lt b a then b else a

/-- The C++ `std::max (a, b)`: `(a < b) ? b : a`. -/
def max (a b : FVal) : FVal := if lt a b then b else a

end FVal

open FVal

/-- What the code is compiled and run on: the float format (through its rounding
function, applied to the exact result of an operation), the library functions
`sqrt`, `exp`, `log`, `acos` on finite arguments, and whether `assert` is compiled
out (`NDEBUG`). -/
structure Platform where
  rnd : ℚ → FVal
  sqrt : ℚ → FVal
  exp : ℚ → FVal
  log : ℚ → FVal
  acos : ℚ → FVal
  ndebug : Bool

/-- Float addition. -/
def fadd (P : Platform) : FVal → FVal → FVal
  | nan, _ => nan
  | _, nan => nan
  | pinf, ninf => nan
  | ninf, pinf => nan
  | pinf, _ => pinf
  | _, pinf => pinf
  | ninf, _ => ninf
  | _, ninf => ninf
  | fin a, fin b => P.rnd (a + b)

/-- Float subtraction. -/
def fsub (P : Platform) (a b : FVal) : FVal := fadd P a (neg b)

/-- Float multiplication. -/
def fmul (P : Platform) : FVal → FVal → FVal
  | nan, _ => nan
  | _, nan => nan
  | fin a, fin b => P.rnd (a * b)
  | fin a, pinf => if a = 0 then nan else if 0 < a then pinf else ninf
  | fin a, ninf => if a = 0 then nan else if 0 < a then ninf else pinf
  | pinf, fin b => if b = 0 then nan else if 0 < b then pinf else ninf
  | ninf, fin b => if b = 0 then nan else if 0 < b then ninf else pinf
  | pinf, pinf => pinf
  | ninf, ninf => pinf
  | pinf, ninf => ninf
  | ninf, pinf => ninf

/-- Float division. -/
def fdiv (P : Platform) : FVal → FVal → FVal
  | nan, _ => nan
  | _, nan => nan
  | fin a, fin b =>
    if b = 0 then (if a = 0 then nan else if 0 < a then pinf else ninf)
    else P.rnd (a / b)
  | fin _, pinf => fin 0
  | fin _, ninf => fin 0
  | pinf, fin b => if 0 ≤ b then pinf else ninf
  | ninf, fin b => if 0 ≤ b then ninf else pinf
  | pinf, pinf => nan
  | pinf, ninf => nan
  | ninf, pinf => nan
  | ninf, ninf => nan

/-- Float square root. -/
def fsqrt (P : Platform) : FVal → FVal
  | nan => nan
  | pinf => pinf
  | ninf => nan
  | fin q => if q < 0 then nan else P.sqrt q

/-- Float exponential. -/
def fexp (P : Platform) : FVal → FVal
  | nan => nan
  | pinf => pinf
  | ninf => fin 0
  | fin q => P.exp q

/-- Float natural logarithm. -/
def flog (P : Platform) : FVal → FVal
  | nan => nan
  | pinf => pinf
  | ninf => nan
  | fin q => if q < 0 then nan else if q = 0 then ninf else P.log q

/-- Float arc cosine: NaN outside `[-1, 1]`. -/
def facos (P : Platform) : FVal → FVal
  | fin q => if q < -1 ∨ 1 < q then nan else P.acos q
  | _ => nan

/-- Conversion of a `size_t` to the float format, as in `float(count)`. -/
def ofNat (P : Platform) (n : Nat) : FVal := P.rnd n

/-! ## The single-precision platform -/

/-- The number of binary digits of `n`; the first argument bounds the number of
steps and is `n` itself in every use. -/
def bitlen : Nat → Nat → Nat
  | 0, _ => 0
  | fuel + 1, n => if n = 0 then 0 else bitlen fuel (n / 2) + 1

/-- The power `2 ^ s` for an integer exponent. -/
def pow2 (s : Int) : ℚ :=
  if 0 ≤ s then ((2 ^ s.toNat : Nat) : ℚ) else 1 / ((2 ^ (-s).toNat : Nat) : ℚ)

/-- The integer `e` with `2 ^ e ≤ |q| < 2 ^ (e + 1)`, for `q ≠ 0`. -/
def ilog2 (q : ℚ) : Int :=
  let e : Int := (bitlen q.num.natAbs q.num.natAbs : Int) - (bitlen q.den q.den : Int)
  if pow2 e ≤ |q| then e else e - 1

/-- Numerator and denominator of `|q| / 2 ^ s`. -/
def scaled (q : ℚ) (s : Int) : Nat × Nat :=
  if 0 ≤ s then (q.num.natAbs, q.den * 2 ^ s.toNat) else (q.num.natAbs * 2 ^ (-s).toNat, q.den)

/-- The integer nearest to `N / D`, ties to even. -/
def roundHalfEven (N D : Nat) : Nat :=
  let k := N / D
  let r := N % D
  if 2 * r < D then k else if D < 2 * r then k + 1 else if k % 2 = 0 then k else k + 1

/-- Rounding to nearest, ties to even, in the binary format with `p` digits of
precision and exponents from `emin` to `emax`; a result of magnitude
`2 ^ (emax + 1)` or more is an infinity. -/
def rndBinary (p : Nat) (emin emax : Int) (q : ℚ) : FVal :=
  if q = 0 then fin 0 else
  let e := Max.max (ilog2 q) emin
  let s := e - ((p : Int) - 1)
  let m := roundHalfEven (scaled q s).1 (scaled q s).2
  let r : ℚ := (m : ℚ) * pow2 s
  if pow2 (emax + 1) ≤ r then (if q < 0 then ninf else pinf)
  else fin (if q < 0 then -r else r)

/-- The integer square root, one binary digit at a time from bit `b` down. -/
def isqrtAux (n : Nat) : Nat → Nat → Nat
  | 0, r => if (r + 1) * (r + 1) ≤ n then r + 1 else r
  | b + 1, r =>
    isqrtAux n b (if (r + 2 ^ (b + 1)) * (r + 2 ^ (b + 1)) ≤ n then r + 2 ^ (b + 1) else r)

/-- The integer square root: the largest `r` with `r * r ≤ n`. -/
def isqrt (n : Nat) : Nat := isqrtAux n (bitlen n n / 2 + 1) 0

/-- The correctly rounded square root of `q ≥ 0` in the binary format with `p`
digits of precision and exponents from `emin` to `emax`. -/
def sqrtBinary (p : Nat) (emin emax : Int) (q : ℚ) : FVal :=
  if q ≤ 0 then fin 0 else
  let e := Max.max (ilog2 q / 2) emin
  let s := e - ((p : Int) - 1)
  let N := (scaled q (2 * s)).1
  let D := (scaled q (2 * s)).2
  let k := isqrt (N / D)
  let m := if 4 * N < (2 * k + 1) * (2 * k + 1) * D then k
    else if (2 * k + 1) * (2 * k + 1) * D < 4 * N then k + 1
    else if k % 2 = 0 then k else k + 1
  let r : ℚ := (m : ℚ) * pow2 s
  if pow2 (emax + 1) ≤ r then pinf else fin r

/-- Truncation of a rational to a multiple of `2 ^ (-96)`, the working precision
of the library functions below. -/
def chop (q : ℚ) : ℚ := ((q * pow2 96).floor : ℚ) / pow2 96

/-- The sum of `t ^ i / i!` for `i < n`, from the term `term` of index `i` on. -/
def expSeries (t : ℚ) : Nat → Nat → ℚ → ℚ
  | 0, _, _ => 0
  | n + 1, i, term => term + expSeries t n (i + 1) (chop (term * t / (i + 1)))

/-- The value `y ^ (2 ^ k)` by repeated squaring in the working precision. -/
def sqIter : Nat → ℚ → ℚ
  | 0, y => y
  | k + 1, y => sqIter k (chop (y * y))

/-- The exponential in the working precision, for `0 ≤ q ≤ 128`. -/
def expQ (q : ℚ) : ℚ :=
  sqIter 9 (expSeries (chop (q / 512)) 24 0 1)

/-- The sum of `z ^ (2 i + 1) / (2 i + 1)` for the `n` indices from `i` on, `pw`
being `z ^ (2 i + 1)`: the series of the inverse hyperbolic tangent. -/
def atanhSeries (z2 : ℚ) : Nat → Nat → ℚ → ℚ
  | 0, _, _ => 0
  | n + 1, i, pw => pw / (2 * i + 1) + atanhSeries z2 n (i + 1) (chop (pw * z2))

/-- The natural logarithm of `m` in the working precision, for `1 ≤ m ≤ 2`. -/
def logMant (m : ℚ) : ℚ :=
  2 * atanhSeries (chop (((m - 1) / (m + 1)) * ((m - 1) / (m + 1)))) 64 0 (chop ((m - 1) / (m + 1)))

/-- The natural logarithm in the working precision, for `q > 0`. -/
def logQ (q : ℚ) : ℚ :=
  (ilog2 q : ℚ) * logMant 2 + logMant (q / pow2 (ilog2 q))

/-- The sum of `(-1) ^ i t ^ (2 i + 1) / (2 i + 1)` for the `n` indices from `i`
on, `pw` being `(-1) ^ i t ^ (2 i + 1)`: the series of the arc tangent. -/
def atanSeries (t2 : ℚ) : Nat → Nat → ℚ → ℚ
  | 0, _, _ => 0
  | n + 1, i, pw => pw / (2 * i + 1) + atanSeries t2 n (i + 1) (chop (-(pw * t2)))

/-- The arc tangent of a small argument in the working precision. -/
def atanSmall (t : ℚ) : ℚ := atanSeries (chop (t * t)) 64 0 t

/-- The number pi in the working precision, by the formula of Machin. -/
def piQ : ℚ := 16 * atanSmall (1 / 5) - 4 * atanSmall (1 / 239)

/-- The square root in the working precision. -/
def sqrtQ (q : ℚ) : ℚ := (isqrt (q * pow2 192).floor.toNat : ℚ) / pow2 96

/-- The arc tangent in the working precision, for `0 ≤ t ≤ 1`, after two halvings
of the angle. -/
def atanQ (t : ℚ) : ℚ :=
  let t1 := chop (t / (1 + sqrtQ (1 + t * t)))
  let t2 := chop (t1 / (1 + sqrtQ (1 + t1 * t1)))
  4 * atanSmall t2

/-- The arc cosine in the working precision, for `-1 ≤ q ≤ 1`. -/
def acosQ (q : ℚ) : ℚ :=
  if q = -1 then piQ
  else if 0 ≤ q then 2 * atanQ (sqrtQ ((1 - q) / (1 + q)))
  else piQ - 2 * atanQ (sqrtQ ((1 + q) / (1 - q)))

/-- The IEEE 754 single-precision platform with assertions compiled in.  Rounding
and the square root are exact to the format; `exp`, `log` and `acos` are computed
to about 90 binary digits and then rounded, which is what a correctly rounding
library returns except for arguments whose result lies that close to the midpoint of
two floats. -/
def binary32 : Platform where
  rnd := rndBinary 24 (-126) 127
  sqrt := sqrtBinary 24 (-126) 127
  exp := fun q =>
    if 128 < q then pinf else if q < -128 then fin 0
    else rndBinary 24 (-126) 127 (if 0 ≤ q then expQ q else 1 / expQ (-q))
  log := fun q => rndBinary 24 (-126) 127 (logQ q)
  acos := fun q => rndBinary 24 (-126) 127 (acosQ q)
  ndebug := false

/-- The largest finite single-precision value, `FLT_MAX`. -/
def FLT_MAX : ℚ := (2 ^ 24 - 1) * 2 ^ 104

/-! ## Vectors (the operations of `Eigen::Vector3f` that the code uses) -/

/-- A 3-vector of floats (`Eigen::Vector3f`). -/
structure Vec3 where
  x : FVal
  y : FVal
  z : FVal
deriving DecidableEq, Repr

namespace Vec3

/-- The vector `{ 0.0, 0.0, 0.0 }`. -/
def zero : Vec3 := ⟨fin 0, fin 0, fin 0⟩

instance : Inhabited Vec3 := ⟨zero⟩

/-- Coefficient-wise difference `a - b`. -/
def sub (P : Platform) (a b : Vec3) : Vec3 :=
  ⟨fsub P a.x b.x, fsub P a.y b.y, fsub P a.z b.z⟩

/-- Coefficient-wise sum `a + b`. -/
def add (P : Platform) (a b : Vec3) : Vec3 :=
  ⟨fadd P a.x b.x, fadd P a.y b.y, fadd P a.z b.z⟩

/-- Product `v * w` of a vector by a scalar. -/
def scale (P : Platform) (v : Vec3) (w : FVal) : Vec3 :=
  ⟨fmul P v.x w, fmul P v.y w, fmul P v.z w⟩

/-- Quotient `v / w` of a vector by a scalar. -/
def divs (P : Platform) (v : Vec3) (w : FVal) : Vec3 :=
  ⟨fdiv P v.x w, fdiv P v.y w, fdiv P v.z w⟩

/-- The dot product, summed the way the fixed-size reduction does it:
`x*x' + (y*y' + z*z')`. -/
def dot (P : Platform) (a b : Vec3) : FVal :=
  fadd P (fmul P a.x b.x) (fadd P (fmul P a.y b.y) (fmul P a.z b.z))

/-- The Euclidean norm `v.norm()`. -/
def norm (P : Platform) (v : Vec3) : FVal := fsqrt P (dot P v v)

/-- The vector divided by its norm, `v.normalized()`; a zero vector gives NaN
coefficients, which is what the `allFinite` test of `load_factors` catches. -/
def normalized (P : Platform) (v : Vec3) : Vec3 := divs P v (norm P v)

/-- Whether all coefficients are finite, `v.allFinite()`. -/
def allFinite (v : Vec3) : Bool := v.x.isfinite && v.y.isfinite && v.z.isfinite

/-- The default precision of `isZero` for `float`, `1e-5`. -/
def dummy_precision (P : Platform) : FVal := P.rnd (1 / 100000)

/-- Whether every coefficient is negligible against 1, `v.isZero()`:
`abs(c) <= abs(1) * dummy_precision`. -/
def isZero (P : Platform) (v : Vec3) : Bool :=
  FVal.le v.x.abs (fmul P (fin 1) (dummy_precision P)) &&
  FVal.le v.y.abs (fmul P (fin 1) (dummy_precision P)) &&
  FVal.le v.z.abs (fmul P (fin 1) (dummy_precision P))

end Vec3

/-! ## Data model -/

/-- A streamline: the ordered sequence of its vertices. -/
abbrev Streamline := List Vec3

/-- An integer grid coordinate. -/
abbrev Voxel := Int × Int × Int

/-- The set of voxels of one streamline (`std::set<Voxel>`). -/
abbrev SetVoxel := Finset Voxel

/-- The contrast mechanisms; `other` stands for any further value of the
enumeration, which the code sends to its `default` branch. -/
inductive contrast_t where
  | TDI
  | LENGTH
  | INVLENGTH
  | SCALAR_MAP
  | SCALAR_MAP_COUNT
  | FOD_AMP
  | CURVATURE
  | other (n : Nat)
deriving DecidableEq, Repr

/-- The track-wise statistics; `other` stands for any further value of the
enumeration, which the code sends to its `default` branch. -/
inductive tck_stat_t where
  | T_SUM
  | T_MIN
  | T_MEAN
  | T_MAX
  | T_MEDIAN
  | T_MEAN_NONZERO
  | GAUSSIAN
  | ENDS_MIN
  | ENDS_MEAN
  | ENDS_MAX
  | ENDS_PROD
  | other (n : Nat)
deriving DecidableEq, Repr

/-- How a call can fail. -/
inductive Err where
  /-- The exception thrown for the Gaussian statistic. -/
  | gaussian_statistic
  /-- The exception thrown for an undefined or unsupported statistic. -/
  | unsupported_statistic
  /-- The exception thrown for an undefined or unsupported contrast. -/
  | unsupported_contrast
  /-- The exception thrown when a second image is added to a mapper. -/
  | multiple_images
  /-- The exception thrown when a scalar image is added and the contrast does not
  depend on it. -/
  | scalar_image_contrast
  /-- The exception thrown when an FOD image is added and the contrast is not
  `FOD_AMP`. -/
  | fod_image_contrast
  /-- An exception thrown by the constructor of a plugin, such as an image that cannot
  be opened. -/
  | image
  /-- A failed `assert` (assertions compiled in). -/
  | assertion
  /-- Undefined behaviour: an index out of range or a null plugin dereferenced. -/
  | undefined
  /-- A loop of the model ran out of steps. -/
  | fuel
deriving DecidableEq, Repr

/-- What `voxelise` reads, all of it declared outside the source tree and taken as
given: the transform `scanner2voxel` (applied as `scanner2voxel * p`), the helper
`round` that turns a voxel-space position into integer coordinates, and the bounds
test `check (vox, info)` of the image `info` of the mapper. -/
structure TrackMapperBase where
  scanner2voxel : Vec3 → Vec3
  round : Vec3 → Voxel
  check : Voxel → Bool

/-- The members of `TrackMapperTWI` that `set_factor` and `load_factors` use.
`image_plugin` is the attached plugin, if any, given by what its `load_factors`
does to the array it is handed; `factors` is the mutable scratch array;
`fwhm` is the constant `CURVATURE_TRACK_SMOOTHING_FWHM`. -/
structure TrackMapperTWI where
  contrast : contrast_t
  track_statistic : tck_stat_t
  image_plugin : Option (Streamline → List FVal → List FVal)
  factors : List FVal
  fwhm : FVal

/-- Modelled from the spec: `Streamline::calc_length`, declared in a header that is
not in the source tree: the arc length, the sum of the norms of the consecutive
segments, accumulated from the first segment on. -/
def calc_length (P : Platform) (tck : Streamline) : FVal :=
  (tck.zip tck.tail).foldl (fun len s => fadd P len (Vec3.norm P (Vec3.sub P s.2 s.1))) (fin 0)

/-! ## `TrackMapperBase::voxelise` -/

/-- The function `TrackMapperBase::voxelise`: every vertex is transformed, rounded,
and inserted in the set if it passes `check`. -/
def voxelise (m : TrackMapperBase) (tck : Streamline) (voxels : SetVoxel) : SetVoxel :=
  tck.foldl (fun voxels i =>
    let vox := m.round (m.scanner2voxel i)
    if m.check vox then insert vox voxels else voxels) voxels

/-! ## `TrackMapperTWI::load_factors` -/

deriving instance DecidableEq for Except

/-- Element `i` of a vector; an index out of range is undefined behaviour. -/
def idx {α : Type} (xs : List α) (i : Nat) : Except Err α :=
  match xs[i]? with
  | some a => pure a
  | none => throw Err.undefined

/-- An `assert (cond)`: aborts when the condition fails, unless assertions are
compiled out. -/
def cassert (P : Platform) (cond : Bool) : Except Err Unit :=
  if P.ndebug || cond then pure () else throw Err.assertion

/-- The first loop of the curvature branch: the raw tangent of every vertex (the
zero vector when the normalised difference is not finite) and the length of every
step. -/
def raw_tangents (P : Platform) (tck : Streamline) : Except Err (List Vec3 × List FVal) :=
  (List.range tck.length).foldlM (fun (st : List Vec3 × List FVal) i => do
    let this_tangent ←
      if i = 0 then do
        let a ← idx tck 1
        let b ← idx tck 0
        pure (Vec3.normalized P (Vec3.sub P a b))
      else if i = tck.length - 1 then do
        let a ← idx tck i
        let b ← idx tck (i - 1)
        pure (Vec3.normalized P (Vec3.sub P a b))
      else do
        let a ← idx tck (i + 1)
        let b ← idx tck (i - 1)
        pure (Vec3.normalized P (Vec3.sub P a b))
    let tangents := st.1 ++ [if this_tangent.allFinite then this_tangent else Vec3.zero]
    if i ≠ 0 then do
      let a ← idx tck i
      let b ← idx tck (i - 1)
      pure (tangents, st.2 ++ [Vec3.norm P (Vec3.sub P a b)])
    else
      pure (tangents, st.2)) ([], [])

/-- The scan `for (j = ...; (j < tck.size() - 1) && !tangents[j].isZero(); ++j);`
from the given `j`, with `n = tck.size()`: the index it stops at. -/
def scan_j (P : Platform) (tangents : List Vec3) (n : Nat) : Nat → Nat → Except Err Nat
  | 0, _ => throw Err.fuel
  | fuel + 1, j =>
    if j < n - 1 then do
      let t ← idx tangents j
      if !Vec3.isZero P t then scan_j P tangents n fuel (j + 1) else pure j
    else pure j

/-- The scan `for (k = ...; k && !tangents[k].isZero(); --k);` from the given `k`:
the index it stops at. -/
def scan_k (P : Platform) (tangents : List Vec3) : Nat → Except Err Nat
  | 0 => pure 0
  | k + 1 => do
    let t ← idx tangents (k + 1)
    if !Vec3.isZero P t then scan_k P tangents k else pure (k + 1)

/-- The second loop of the curvature branch: every tangent that is zero is
overwritten, in place and in index order, from the tangents the scans stop at. -/
def repair_tangents (P : Platform) (n : Nat) (tangents : List Vec3) : Except Err (List Vec3) :=
  (List.range tangents.length).foldlM (fun (tangents : List Vec3) i => do
    let t ← idx tangents i
    if Vec3.isZero P t then
      if i = 0 then do
        let j ← scan_j P tangents n (n + 1) 1
        let tj ← idx tangents j
        pure (tangents.set i tj)
      else if i = tangents.length - 1 then do
        let k ← scan_k P tangents (i - 1)
        let tk ← idx tangents k
        pure (tangents.set i tk)
      else do
        let j ← scan_j P tangents n (n + 1) 1
        let k ← scan_k P tangents (i - 1)
        let tj ← idx tangents j
        let tk ← idx tangents k
        pure (tangents.set i (Vec3.normalized P (Vec3.add P tj tk)))
    else pure tangents) tangents

/-- A dense matrix of floats (`Eigen::MatrixXf`), as the list of its rows. -/
abbrev MatrixXf := List (List FVal)

/-- The `n` by `n` matrix of zeros. -/
def MatrixXf.zero (n : Nat) : MatrixXf := List.replicate n (List.replicate n (fin 0))

/-- The coefficient `m (r, c)`. -/
def MatrixXf.coeff (m : MatrixXf) (r c : Nat) : Except Err FVal := do
  let row ← idx m r
  idx row c

/-- The update `m (r, c) += v`. -/
def MatrixXf.addAt (P : Platform) (m : MatrixXf) (r c : Nat) (v : FVal) : Except Err MatrixXf := do
  let row ← idx m r
  let old ← idx row c
  pure (m.set r (row.set c (fadd P old v)))

/-- The third loop of the curvature branch: the matrix of spline distances. -/
def spline_distances (P : Platform) (n : Nat) (step_sizes : List FVal) : Except Err MatrixXf :=
  (List.range n).foldlM (fun (m : MatrixXf) i =>
    (List.range (i + 1)).foldlM (fun (m : MatrixXf) j =>
      (List.range' (i + 1) (n - (i + 1))).foldlM (fun (m : MatrixXf) k => do
        let s ← idx step_sizes i
        let m ← MatrixXf.addAt P m j k s
        let s ← idx step_sizes i
        MatrixXf.addAt P m k j s) m) m) (MatrixXf.zero n)

/-- The constant `gaussian_theta`: `FWHM / (2.0 * sqrt (2.0 * log (2.0)))`. -/
def gaussian_theta (P : Platform) (fwhm : FVal) : FVal :=
  fdiv P fwhm (fmul P (fin 2) (fsqrt P (fmul P (fin 2) (flog P (fin 2)))))

/-- The constant `gaussian_denominator`: `2.0 * gaussian_theta * gaussian_theta`. -/
def gaussian_denominator (P : Platform) (fwhm : FVal) : FVal :=
  fmul P (fmul P (fin 2) (gaussian_theta P fwhm)) (gaussian_theta P fwhm)

/-- The fourth loop of the curvature branch: every tangent replaced by the
normalised Gaussian-weighted sum of all tangents. -/
def smooth_tangents (P : Platform) (fwhm : FVal) (n : Nat) (tangents : List Vec3)
    (sd : MatrixXf) : Except Err (List Vec3) :=
  (List.range n).foldlM (fun (smoothed_tangents : List Vec3) i => do
    let this_tangent ← (List.range n).foldlM (fun (this_tangent : Vec3) j => do
      let distance ← sd.coeff i j
      let this_weight :=
        fexp P (fdiv P (fmul P (neg distance) distance) (gaussian_denominator P fwhm))
      let tj ← idx tangents j
      pure (Vec3.add P this_tangent (Vec3.scale P tj this_weight))) Vec3.zero
    pure (smoothed_tangents ++ [Vec3.normalized P this_tangent])) []

/-- The last loop of the curvature branch: one curvature value per vertex, pushed
onto `factors`. -/
def curvature_factors (P : Platform) (n : Nat) (smoothed_tangents : List Vec3)
    (sd : MatrixXf) (factors : List FVal) : Except Err (List FVal) :=
  (List.range n).foldlM (fun (factors : List FVal) i => do
    let (tangent_dot_product, length) ←
      if i = 0 then do
        let a ← idx smoothed_tangents 1
        let b ← idx smoothed_tangents 0
        let l ← sd.coeff 0 1
        pure (Vec3.dot P a b, l)
      else if i = n - 1 then do
        let a ← idx smoothed_tangents i
        let b ← idx smoothed_tangents (i - 1)
        let l ← sd.coeff i (i - 1)
        pure (Vec3.dot P a b, l)
      else do
        let a ← idx smoothed_tangents (i + 1)
        let b ← idx smoothed_tangents (i - 1)
        let l ← sd.coeff (i + 1) (i - 1)
        pure (Vec3.dot P a b, l)
    if FVal.ge tangent_dot_product (fin 1) then
      pure (factors ++ [fin 0])
    else
      pure (factors ++ [fdiv P (facos P tangent_dot_product) length])) factors

/-- The function `TrackMapperTWI::load_factors`; the result is the new content of
the scratch array `factors`. -/
def load_factors (P : Platform) (m : TrackMapperTWI) (tck : Streamline) :
    Except Err (List FVal) :=
  if m.contrast = .SCALAR_MAP ∨ m.contrast = .SCALAR_MAP_COUNT then do
    cassert P m.image_plugin.isSome
    match m.image_plugin with
    | some plugin => pure (plugin tck m.factors)
    | none => throw Err.undefined
  else if m.contrast = .FOD_AMP then do
    cassert P m.image_plugin.isSome
    match m.image_plugin with
    | some plugin => pure (plugin tck m.factors)
    | none => throw Err.undefined
  else if m.contrast ≠ .CURVATURE then
    throw Err.unsupported_contrast
  else do
    let (tangents, step_sizes) ← raw_tangents P tck
    let tangents ← repair_tangents P tck.length tangents
    let sd ← spline_distances P tck.length step_sizes
    let smoothed_tangents ← smooth_tangents P m.fwhm tck.length tangents sd
    curvature_factors P tck.length smoothed_tangents sd m.factors

/-! ## `TrackMapperTWI::set_factor` -/

/-- The library call `nth_element (first, first + nth, last)` with the default
comparison `<`: it permutes the array so that position `nth` holds the element a
sort would put there, with no element before it greater and none after it smaller.
The library may return any such permutation; the model returns the sorted one.
What the theorems say of the array after the call is therefore only that it is a
permutation of the array before. -/
def nth_element (xs : List FVal) (_nth : Nat) : List FVal :=
  xs.insertionSort (fun a b => FVal.lt b a = false)

/-- The loop of `T_SUM`: every finite value is added to the running sum. -/
def sum_finite (P : Platform) (factors : List FVal) : FVal :=
  factors.foldl (fun factor i => if i.isfinite then fadd P factor i else factor) (fin 0)

/-- The loop of `T_MIN`. -/
def min_finite (factors : List FVal) : FVal :=
  factors.foldl (fun factor i => if i.isfinite then FVal.min factor i else factor) pinf

/-- The loop of `T_MAX`. -/
def max_finite (factors : List FVal) : FVal :=
  factors.foldl (fun factor i => if i.isfinite then FVal.max factor i else factor) ninf

/-- The loop of `T_MEAN`: the running sum and the count of the finite values. -/
def sum_count_finite (P : Platform) (factors : List FVal) : FVal × Nat :=
  factors.foldl (fun (st : FVal × Nat) i =>
    if i.isfinite then (fadd P st.1 i, st.2 + 1) else st) (fin 0, 0)

/-- The loop of `T_MEAN_NONZERO`: the running sum and the count of the values that
are finite and non-zero. -/
def sum_count_nonzero (P : Platform) (factors : List FVal) : FVal × Nat :=
  factors.foldl (fun (st : FVal × Nat) i =>
    if i.isfinite && i.toBool then (fadd P st.1 i, st.2 + 1) else st) (fin 0, 0)

/-- The inner `switch (track_statistic)` of `set_factor`: the factor it assigns,
and the scratch array as it leaves it. -/
def statistic_factor (P : Platform) (track_statistic : tck_stat_t) (factors : List FVal) :
    Except Err (FVal × List FVal) :=
  match track_statistic with
  | .T_SUM => pure (sum_finite P factors, factors)
  | .T_MIN => pure (min_finite factors, factors)
  | .T_MEAN =>
    let (factor, count) := sum_count_finite P factors
    pure (if count ≠ 0 then fdiv P factor (ofNat P count) else fin 0, factors)
  | .T_MAX => pure (max_finite factors, factors)
  | .T_MEDIAN =>
    if factors.isEmpty then pure (fin 0, factors)
    else do
      let factors := nth_element factors (factors.length / 2)
      let factor ← idx factors (factors.length / 2)
      pure (factor, factors)
  | .T_MEAN_NONZERO =>
    let (factor, count) := sum_count_nonzero P factors
    pure (if count ≠ 0 then fdiv P factor (ofNat P count) else fin 0, factors)
  | .GAUSSIAN => throw Err.gaussian_statistic
  | .ENDS_MIN => do
    cassert P (factors.length == 2)
    let f0 ← idx factors 0
    let f1 ← idx factors 1
    pure (if FVal.lt f0.abs f1.abs then f0 else f1, factors)
  | .ENDS_MEAN => do
    cassert P (factors.length == 2)
    let f0 ← idx factors 0
    let f1 ← idx factors 1
    pure (fmul P (fin (1 / 2)) (fadd P f0 f1), factors)
  | .ENDS_MAX => do
    cassert P (factors.length == 2)
    let f0 ← idx factors 0
    let f1 ← idx factors 1
    pure (if FVal.gt f0.abs f1.abs then f0 else f1, factors)
  | .ENDS_PROD => do
    cassert P (factors.length == 2)
    let f0 ← idx factors 0
    let f1 ← idx factors 1
    if (FVal.lt f0 (fin 0) && FVal.lt f1 (fin 0)) || (FVal.gt f0 (fin 0) && FVal.gt f1 (fin 0)) then
      pure (fmul P f0 f1, factors)
    else
      pure (fin 0, factors)
  | .other _ => throw Err.unsupported_statistic

/-- The tail of `set_factor`: a factor of the contrast `SCALAR_MAP_COUNT` is
replaced by `1.0` when it is non-zero and by `0.0` otherwise; then a factor that is
not finite is replaced by `0.0`. -/
def finalise (contrast : contrast_t) (factor : FVal) : FVal :=
  let factor := if contrast = .SCALAR_MAP_COUNT then (if factor.toBool then fin 1 else fin 0) else factor
  if !factor.isfinite then fin 0 else factor

/-- The outer `switch (contrast)` of `set_factor`: the factor it assigns, and the
scratch array as it leaves it. -/
def contrast_factor (P : Platform) (m : TrackMapperTWI) (tck : Streamline) :
    Except Err (FVal × List FVal) :=
  match m.contrast with
  | .TDI => pure (fin 1, m.factors)
  | .LENGTH => pure (calc_length P tck, m.factors)
  | .INVLENGTH => pure (fdiv P (fin 1) (calc_length P tck), m.factors)
  | .SCALAR_MAP | .SCALAR_MAP_COUNT | .FOD_AMP | .CURVATURE => do
    let factors ← load_factors P { m with factors := [] } tck
    statistic_factor P m.track_statistic factors
  | .other _ => throw Err.unsupported_contrast

/-- The function `TrackMapperTWI::set_factor`: the value it stores in `out.factor`
and the scratch array `factors` as the call leaves it. -/
def set_factor (P : Platform) (m : TrackMapperTWI) (tck : Streamline) :
    Except Err (FVal × List FVal) := do
  let (factor, factors) ← contrast_factor P m tck
  pure (finalise m.contrast factor, factors)

/-! ## `TrackMapperTWI::add_scalar_image` and `TrackMapperTWI::add_fod_image` -/

/-- The function `TrackMapperTWI::add_scalar_image`: the outcome of the call and the
mapper as the call leaves it.  `new_plugin` stands for the constructor of the scalar
image plugin applied to the path, which receives the statistic of the mapper; it is
library code that may itself throw. -/
def add_scalar_image (m : TrackMapperTWI)
    (new_plugin : tck_stat_t → Except Err (Streamline → List FVal → List FVal)) :
    Except Err Unit × TrackMapperTWI :=
  if m.image_plugin.isSome then
    (throw Err.multiple_images, m)
  else if m.contrast ≠ .SCALAR_MAP ∧ m.contrast ≠ .SCALAR_MAP_COUNT then
    (throw Err.scalar_image_contrast, m)
  else
    match new_plugin m.track_statistic with
    | .ok plugin => (pure (), { m with image_plugin := some plugin })
    | .error e => (throw e, m)

/-- The function `TrackMapperTWI::add_fod_image`: the outcome of the call and the
mapper as the call leaves it.  `new_plugin` stands for the constructor of the FOD
image plugin applied to the path; it is library code that may itself throw. -/
def add_fod_image (m : TrackMapperTWI)
    (new_plugin : Except Err (Streamline → List FVal → List FVal)) :
    Except Err Unit × TrackMapperTWI :=
  if m.image_plugin.isSome then
    (throw Err.multiple_images, m)
  else if m.contrast ≠ .FOD_AMP then
    (throw Err.fod_image_contrast, m)
  else
    match new_plugin with
    | .ok plugin => (pure (), { m with image_plugin := some plugin })
    | .error e => (throw e, m)

/-! ## Concrete configurations used to evaluate the code -/

/-- The single-precision platform with assertions compiled out (`NDEBUG`). -/
def binary32_ndebug : Platform := { binary32 with ndebug := true }

/-- A mapper with no plugin attached and an empty scratch array. -/
def mapper_bare (c : contrast_t) (s : tck_stat_t) : TrackMapperTWI where
  contrast := c
  track_statistic := s
  image_plugin := none
  factors := []
  fwhm := fin 10

/-- A mapper whose plugin pushes the given values onto the array it is handed. -/
def mapper_with (c : contrast_t) (s : tck_stat_t) (vals : List FVal) : TrackMapperTWI where
  contrast := c
  track_statistic := s
  image_plugin := some (fun _ fs => fs ++ vals)
  factors := []
  fwhm := fin 10

/-- The streamline of two vertices from the origin to `(k, 0, 0)`. -/
def segment (k : ℚ) : Streamline := [⟨fin 0, fin 0, fin 0⟩, ⟨fin k, fin 0, fin 0⟩]

/-- An image of 4 x 4 x 4 voxels of one millimetre, aligned with the scanner axes;
`round` is exact on the integer coordinates it is used on. -/
def grid4 : TrackMapperBase where
  scanner2voxel := fun p => p
  round := fun p =>
    (match p.x with | fin q => q.num / q.den | _ => 0,
     match p.y with | fin q => q.num / q.den | _ => 0,
     match p.z with | fin q => q.num / q.den | _ => 0)
  check := fun vox =>
    decide (0 ≤ vox.1 ∧ vox.1 < 4 ∧ 0 ≤ vox.2.1 ∧ vox.2.1 < 4 ∧ 0 ≤ vox.2.2 ∧ vox.2.2 < 4)

/-- The vertex with the given integer coordinates. -/
def vertex (x y z : Int) : Vec3 := ⟨fin x, fin y, fin z⟩

/-! ## Notions the claims are stated with -/

/-- The float sum of an array: its entries added one by one, from the first on, to
`0.0`. -/
def fsum (P : Platform) (xs : List FVal) : FVal := xs.foldl (fadd P) (fin 0)

/-- The numbers carried by the finite entries of an array, in order. -/
def finite_values (xs : List FVal) : List ℚ :=
  xs.filterMap (fun x => match x with | fin q => some q | _ => none)

/-- A platform on which this value is computed without rounding error. -/
def Exact (P : Platform) : Prop := ∀ q, P.rnd q = fin q

/-- The single-precision platform with rounding switched off: every rational is
kept as it is. -/
def unrounded : Platform := { binary32 with rnd := fin }

/-- The per-vertex contrasts other than `SCALAR_MAP_COUNT`. -/
def PerVertex (c : contrast_t) : Prop := c = .SCALAR_MAP ∨ c = .FOD_AMP ∨ c = .CURVATURE

/-- The Gaussian weight that the smoothing loop gives to a vertex at the given
spline distance: `exp (-distance * distance / gaussian_denominator)`. -/
def gaussian_weight (P : Platform) (fwhm distance : FVal) : FVal :=
  fexp P (fdiv P (fmul P (neg distance) distance) (gaussian_denominator P fwhm))

/-- The square root of a rational that is the square of a rational, exactly; the
single-precision square root of any other. -/
def sqrtExact (q : ℚ) : FVal :=
  if isqrt q.num.natAbs * isqrt q.num.natAbs = q.num.natAbs ∧ isqrt q.den * isqrt q.den = q.den
  then fin ((isqrt q.num.natAbs : ℚ) / (isqrt q.den : ℚ)) else binary32.sqrt q

/-- A platform of exact arithmetic: nothing is rounded, the square root of a square
is exact, and the exponential of a number that is not positive is the
single-precision one kept within `[0, 1]`, where the exponential lies. -/
def ideal : Platform where
  rnd := fin
  sqrt := sqrtExact
  exp := fun q =>
    if 0 < q then binary32.exp q
    else match binary32.exp q with
      | fin w => fin (Max.max 0 (Min.min w 1))
      | _ => fin 0
  log := binary32.log
  acos := binary32.acos
  ndebug := false

/-- The vector `u` scaled by `c`. -/
def scaleOf (ux uy uz c : ℚ) : Vec3 := ⟨fin (c * ux), fin (c * uy), fin (c * uz)⟩

/-- The numbers carried by the entries of an array that are finite and non-zero, in
order. -/
def nonzero_values (xs : List FVal) : List ℚ := (finite_values xs).filter (fun q => q ≠ 0)

/-! ## The loops of the curvature estimator, one iteration at a time -/

/-- The coefficient `(r, c)` of a matrix as a value, 0 where the matrix has none. -/
def MatrixXf.entry (m : MatrixXf) (r c : Nat) : FVal := ((m.getD r []).getD c (fin 0))

/-- A matrix of `n` rows of `n` coefficients each. -/
def Square (n : Nat) (m : MatrixXf) : Prop := m.length = n ∧ ∀ row ∈ m, row.length = n

/-- The vector with every coefficient negated. -/
def Vec3.neg (v : Vec3) : Vec3 := ⟨FVal.neg v.x, FVal.neg v.y, FVal.neg v.z⟩

/-- The lengths of the segments of a streamline: entry `i` is the norm of the
difference of the vertices `i + 1` and `i`, as the first loop of the curvature
branch computes it. -/
def segment_lengths (P : Platform) (tck : Streamline) : List FVal :=
  (List.range (tck.length - 1)).map (fun i =>
    Vec3.norm P (Vec3.sub P (tck.getD (i + 1) Vec3.zero) (tck.getD i Vec3.zero)))

/-- The length along the polyline from vertex `j` to vertex `k`, for `j ≤ k`: the
float sum of the lengths of the segments `j`, ..., `k - 1`, added to 0 one by one in
this order. -/
def arc_length (P : Platform) (tck : Streamline) (j k : Nat) : FVal :=
  fsum P (((segment_lengths P tck).take k).drop j)

/-- The raw tangent of vertex `i`, as one iteration of the first loop of the
curvature branch computes it. -/
def raw_tangent (P : Platform) (tck : Streamline) (i : Nat) : Vec3 :=
  let this_tangent :=
    if i = 0 then
      Vec3.normalized P (Vec3.sub P (tck.getD 1 Vec3.zero) (tck.getD 0 Vec3.zero))
    else if i = tck.length - 1 then
      Vec3.normalized P (Vec3.sub P (tck.getD i Vec3.zero) (tck.getD (i - 1) Vec3.zero))
    else
      Vec3.normalized P (Vec3.sub P (tck.getD (i + 1) Vec3.zero) (tck.getD (i - 1) Vec3.zero))
  if this_tangent.allFinite then this_tangent else Vec3.zero

/-- The smoothed tangent of vertex `i`, as one iteration of the fourth loop of the
curvature branch computes it: the normalised sum, over all vertices `j` in index
order, of tangent `j` times the Gaussian weight at the spline distance `(i, j)`. -/
def smoothed_tangent (P : Platform) (fwhm : FVal) (tangents : List Vec3) (sd : MatrixXf)
    (i : Nat) : Vec3 :=
  Vec3.normalized P ((List.range tangents.length).foldl (fun this_tangent j =>
    Vec3.add P this_tangent
      (Vec3.scale P (tangents.getD j Vec3.zero) (gaussian_weight P fwhm (sd.entry i j))))
    Vec3.zero)

/-- The curvature value of vertex `i`, as one iteration of the last loop of the
curvature branch computes it from the `n` smoothed tangents and the spline
distances. -/
def curvature_value (P : Platform) (n : Nat) (smoothed_tangents : List Vec3) (sd : MatrixXf)
    (i : Nat) : FVal :=
  let tangent_dot_product :=
    if i = 0 then
      Vec3.dot P (smoothed_tangents.getD 1 Vec3.zero) (smoothed_tangents.getD 0 Vec3.zero)
    else if i = n - 1 then
      Vec3.dot P (smoothed_tangents.getD i Vec3.zero) (smoothed_tangents.getD (i - 1) Vec3.zero)
    else
      Vec3.dot P (smoothed_tangents.getD (i + 1) Vec3.zero)
        (smoothed_tangents.getD (i - 1) Vec3.zero)
  let length :=
    if i = 0 then sd.entry 0 1
    else if i = n - 1 then sd.entry i (i - 1)
    else sd.entry (i + 1) (i - 1)
  if FVal.ge tangent_dot_product (fin 1) then fin 0
  else fdiv P (facos P tangent_dot_product) length

/-- The state of the matrix of spline distances in the course of its loop: a square
matrix with a zero diagonal in which the coefficients `(a, b)` and `(b, a)`, for
`a < b`, hold the float sum of the steps `a`, ..., `min b (t a b) - 1`. -/
def ArcMatrix (P : Platform) (steps : List FVal) (n : Nat) (t : Nat → Nat → Nat)
    (m : MatrixXf) : Prop :=
  Square n m ∧ (∀ a, a < n → m.entry a a = fin 0) ∧
    ∀ a b, a < b → b < n →
      m.entry a b = fsum P ((steps.take (Min.min b (t a b))).drop a) ∧
      m.entry b a = fsum P ((steps.take (Min.min b (t a b))).drop a)

/-! ## Lemmas -/

/-- The tail of `set_factor` always produces a finite value. -/
theorem finalise_finite (c : contrast_t) (f : FVal) : ∃ q, finalise c f = fin q := by
  unfold finalise
  by_cases hc : c = .SCALAR_MAP_COUNT
  · by_cases hb : f.toBool = true <;> simp [hc, hb, FVal.isfinite]
  · cases f <;> simp [hc, FVal.isfinite]

/-- On a contrast other than `SCALAR_MAP_COUNT` the tail of `set_factor` keeps a
finite value. -/
theorem finalise_fin (c : contrast_t) (hc : c ≠ .SCALAR_MAP_COUNT) (q : ℚ) :
    finalise c (fin q) = fin q := by
  simp [finalise, hc, FVal.isfinite]

/-- On a contrast other than `SCALAR_MAP_COUNT` the tail of `set_factor` replaces a
value that is not finite by zero. -/
theorem finalise_not_finite (c : contrast_t) (hc : c ≠ .SCALAR_MAP_COUNT) (f : FVal)
    (hf : f.isfinite = false) : finalise c f = fin 0 := by
  simp [finalise, hc, hf]

/-- On a contrast other than `SCALAR_MAP_COUNT` the tail of `set_factor` is the
finiteness test alone. -/
theorem finalise_eq (c : contrast_t) (hc : c ≠ .SCALAR_MAP_COUNT) (f : FVal) :
    finalise c f = if f.isfinite then f else fin 0 := by
  cases f <;> simp [finalise, hc, FVal.isfinite]

/-- A per-vertex contrast other than `SCALAR_MAP_COUNT` is not `SCALAR_MAP_COUNT`. -/
theorem PerVertex.ne_count {c : contrast_t} (h : PerVertex c) : c ≠ .SCALAR_MAP_COUNT := by
  rcases h with h | h | h <;> simp [h]

/-- A per-vertex contrast other than `SCALAR_MAP_COUNT` is one of the four
per-vertex contrasts. -/
theorem PerVertex.four {c : contrast_t} (h : PerVertex c) :
    c = .SCALAR_MAP ∨ c = .SCALAR_MAP_COUNT ∨ c = .FOD_AMP ∨ c = .CURVATURE := by
  rcases h with h | h | h <;> simp [h]

/-- The result of `set_factor` in terms of the result of the contrast switch. -/
theorem set_factor_of_contrast_factor (P : Platform) (m : TrackMapperTWI) (tck : Streamline)
    (f : FVal) (fs : List FVal) (h : contrast_factor P m tck = .ok (f, fs)) :
    set_factor P m tck = .ok (finalise m.contrast f, fs) := by
  simp [set_factor, h, bind, Except.bind, pure, Except.pure]

/-- A normal return of `set_factor` comes from a normal return of the contrast
switch. -/
theorem set_factor_ok_inv (P : Platform) (m : TrackMapperTWI) (tck : Streamline)
    (r : FVal × List FVal) (h : set_factor P m tck = .ok r) :
    ∃ f, contrast_factor P m tck = .ok (f, r.2) ∧ r.1 = finalise m.contrast f := by
  unfold set_factor at h
  cases hc : contrast_factor P m tck with
  | error e => simp [hc, bind, Except.bind] at h
  | ok v =>
    obtain ⟨f, fs⟩ := v
    simp [hc, bind, Except.bind, pure, Except.pure] at h
    exact ⟨f, by rw [← h], by rw [← h]⟩

/-- The contrast switch on a per-vertex contrast, given the array that
`load_factors` produces from the cleared scratch array. -/
theorem contrast_factor_per_vertex (P : Platform) (m : TrackMapperTWI) (tck : Streamline)
    (xs : List FVal)
    (hc : m.contrast = .SCALAR_MAP ∨ m.contrast = .SCALAR_MAP_COUNT ∨ m.contrast = .FOD_AMP ∨
      m.contrast = .CURVATURE)
    (hl : load_factors P { m with factors := [] } tck = .ok xs) :
    contrast_factor P m tck = statistic_factor P m.track_statistic xs := by
  unfold contrast_factor
  rcases hc with hc | hc | hc | hc <;>
    (simp only [hc] at hl ⊢; simp [hl, bind, Except.bind])

/-- Membership in the result of `voxelise`: the voxels already in the set, and the
in-bounds rounded voxels of the vertices. -/
theorem mem_voxelise (m : TrackMapperBase) (tck : Streamline) (voxels : SetVoxel) (v : Voxel) :
    v ∈ voxelise m tck voxels ↔
      v ∈ voxels ∨ ∃ p ∈ tck, m.round (m.scanner2voxel p) = v ∧ m.check v = true := by
  unfold voxelise
  induction tck generalizing voxels with
  | nil => simp
  | cons p ps ih =>
    rw [List.foldl_cons, ih]
    by_cases hp : m.check (m.round (m.scanner2voxel p)) = true
    · simp only [hp, if_true, Finset.mem_insert, List.mem_cons, exists_eq_or_imp]
      constructor
      · rintro ((h | h) | h)
        · subst h; exact Or.inr (Or.inl ⟨rfl, hp⟩)
        · exact Or.inl h
        · exact Or.inr (Or.inr h)
      · rintro (h | ⟨h, _⟩ | h)
        · exact Or.inl (Or.inr h)
        · exact Or.inl (Or.inl h.symm)
        · exact Or.inr h
    · simp only [hp, List.mem_cons, exists_eq_or_imp]
      constructor
      · rintro (h | h)
        · exact Or.inl h
        · exact Or.inr (Or.inr h)
      · rintro (h | ⟨h, hc⟩ | h)
        · exact Or.inl h
        · subst h; exact absurd hc hp
        · exact Or.inr h

/-! ## Theorems -/

/-- C1: whenever `set_factor` returns normally, the factor it stores is a finite
number: it is not NaN, not plus infinity and not minus infinity. -/
theorem set_factor_finite (P : Platform) (m : TrackMapperTWI) (tck : Streamline)
    (r : FVal × List FVal) (h : set_factor P m tck = .ok r) :
    (∃ q, r.1 = fin q) ∧ r.1 ≠ nan ∧ r.1 ≠ pinf ∧ r.1 ≠ ninf := by
  obtain ⟨f, _, hr⟩ := set_factor_ok_inv P m tck r h
  obtain ⟨q, hq⟩ := finalise_finite m.contrast f
  rw [hr, hq]
  exact ⟨⟨q, rfl⟩, by simp, by simp, by simp⟩

/-- Witness of C1: the sum statistic over two values of `FLT_MAX`, whose running sum
overflows to infinity, returns normally. -/
theorem set_factor_finite_witness :
    set_factor binary32 (mapper_with .SCALAR_MAP .T_SUM [fin FLT_MAX, fin FLT_MAX]) [] =
        .ok (fin 0, [fin FLT_MAX, fin FLT_MAX]) ∧
      ((∃ q, (fin 0, [fin FLT_MAX, fin FLT_MAX]).1 = fin q) ∧
        (fin 0, [fin FLT_MAX, fin FLT_MAX]).1 ≠ nan ∧
        (fin 0, [fin FLT_MAX, fin FLT_MAX]).1 ≠ pinf ∧
        (fin 0, [fin FLT_MAX, fin FLT_MAX]).1 ≠ ninf) :=
  ⟨by decide!, set_factor_finite binary32
    (mapper_with .SCALAR_MAP .T_SUM [fin FLT_MAX, fin FLT_MAX]) [] _ (by decide!)⟩

/-- C2: `voxelise` applied to the empty set yields exactly the voxels `v` such that
some vertex `p` has `round (scanner2voxel * p) = v` and `v` passes the bounds test;
a vertex whose voxel is out of bounds adds nothing, and a streamline entirely out of
bounds yields the empty set.  The function is total: no input makes it fail. -/
theorem voxelise_empty_spec (m : TrackMapperBase) (tck : Streamline) :
    (∀ v, v ∈ voxelise m tck ∅ ↔
      ∃ p ∈ tck, m.round (m.scanner2voxel p) = v ∧ m.check v = true) ∧
    (∀ p, m.check (m.round (m.scanner2voxel p)) = false →
      ∀ S, voxelise m [p] S = S) ∧
    ((∀ p ∈ tck, m.check (m.round (m.scanner2voxel p)) = false) → voxelise m tck ∅ = ∅) := by
  refine ⟨fun v => by simp [mem_voxelise], fun p hp S => by simp [voxelise, hp], fun h => ?_⟩
  ext v
  simp only [mem_voxelise, Finset.not_mem_empty, false_or, iff_false, not_exists, not_and]
  intro p hp hv
  rw [← hv, h p hp]
  simp

/-- Witness of C2: a streamline with two vertices in the same voxel, one in another
and one outside the image yields the two voxels inside; a streamline wholly outside
yields the empty set. -/
theorem voxelise_empty_spec_witness :
    voxelise grid4 [vertex 1 2 3, vertex 1 2 3, vertex 9 0 0, vertex 0 0 0] ∅ =
        {(1, 2, 3), (0, 0, 0)} ∧
      voxelise grid4 [vertex 9 0 0, vertex 0 (-1) 0] ∅ = ∅ ∧
      ((1, 2, 3) ∈ voxelise grid4 [vertex 1 2 3, vertex 1 2 3, vertex 9 0 0, vertex 0 0 0] ∅ ↔
        ∃ p ∈ [vertex 1 2 3, vertex 1 2 3, vertex 9 0 0, vertex 0 0 0],
          grid4.round (grid4.scanner2voxel p) = (1, 2, 3) ∧ grid4.check (1, 2, 3) = true) :=
  ⟨by decide!, by decide!,
    (voxelise_empty_spec grid4 [vertex 1 2 3, vertex 1 2 3, vertex 9 0 0, vertex 0 0 0]).1 _⟩

/-- C3: voxelisation is idempotent and independent of the vertex order.  The result
is a function of the mapper, the streamline and the initial set alone, so two runs
from the empty set agree; voxelising the streamline again into its own voxel set
changes nothing; and the reversed streamline has the same voxel set. -/
theorem voxelise_idempotent_reverse (m : TrackMapperBase) (tck : Streamline) :
    (∀ S₁ S₂ : SetVoxel, S₁ = voxelise m tck ∅ → S₂ = voxelise m tck ∅ → S₁ = S₂) ∧
    voxelise m tck (voxelise m tck ∅) = voxelise m tck ∅ ∧
    voxelise m tck.reverse ∅ = voxelise m tck ∅ := by
  refine ⟨fun S₁ S₂ h₁ h₂ => h₁.trans h₂.symm, ?_, ?_⟩
  · ext v
    simp only [mem_voxelise, Finset.not_mem_empty, false_or, or_self]
  · ext v
    simp only [mem_voxelise, List.mem_reverse]

/-- Witness of C3: a streamline of three vertices and its reversal. -/
theorem voxelise_idempotent_reverse_witness :
    voxelise grid4 [vertex 3 3 3, vertex 9 0 0, vertex 0 1 0] ∅ = {(0, 1, 0), (3, 3, 3)} ∧
      voxelise grid4 [vertex 3 3 3, vertex 9 0 0, vertex 0 1 0].reverse ∅ =
        voxelise grid4 [vertex 3 3 3, vertex 9 0 0, vertex 0 1 0] ∅ :=
  ⟨by decide!, (voxelise_idempotent_reverse grid4 [vertex 3 3 3, vertex 9 0 0, vertex 0 1 0]).2.2⟩

/-- C4: with the contrast `TDI`, `set_factor` returns normally with the factor 1.0
for every streamline, statistic, plugin and platform, and leaves the scratch array
alone. -/
theorem set_factor_tdi (P : Platform) (m : TrackMapperTWI) (tck : Streamline)
    (hc : m.contrast = .TDI) : set_factor P m tck = .ok (fin 1, m.factors) := by
  have h : contrast_factor P m tck = .ok (fin 1, m.factors) := by
    simp [contrast_factor, hc, pure, Except.pure]
  rw [set_factor_of_contrast_factor P m tck _ _ h, hc]
  rfl

/-- Witness of C4: a streamline with a NaN vertex and one at a huge distance, with
the Gaussian statistic selected. -/
theorem set_factor_tdi_witness :
    set_factor binary32 (mapper_with .TDI .GAUSSIAN [])
        [⟨nan, fin 0, fin 0⟩, ⟨fin FLT_MAX, fin 0, fin 0⟩] = .ok (fin 1, []) :=
  set_factor_tdi binary32 (mapper_with .TDI .GAUSSIAN []) _ rfl

/-- The result of `set_factor` on a per-vertex contrast other than
`SCALAR_MAP_COUNT`, from the result of the statistic switch. -/
theorem set_factor_per_vertex (P : Platform) (m : TrackMapperTWI) (tck : Streamline)
    (xs : List FVal) (f : FVal) (fs : List FVal) (hc : PerVertex m.contrast)
    (hl : load_factors P { m with factors := [] } tck = .ok xs)
    (hs : statistic_factor P m.track_statistic xs = .ok (f, fs)) :
    set_factor P m tck = .ok (if f.isfinite then f else fin 0, fs) := by
  have h : contrast_factor P m tck = .ok (f, fs) := by
    rw [contrast_factor_per_vertex P m tck xs hc.four hl, hs]
  rw [set_factor_of_contrast_factor P m tck f fs h, finalise_eq _ hc.ne_count]

/-- The loop of `T_SUM` from any starting value adds up the finite entries. -/
theorem foldl_sum_finite (P : Platform) (xs : List FVal) (a : FVal) :
    xs.foldl (fun factor i => if i.isfinite then fadd P factor i else factor) a =
      (xs.filter FVal.isfinite).foldl (fadd P) a := by
  induction xs generalizing a with
  | nil => rfl
  | cons x xs ih =>
    by_cases hx : x.isfinite = true
    · simp [List.filter_cons, hx, ih]
    · simp [List.filter_cons, hx, ih]

/-- The loop of `T_SUM` computes the float sum of the finite entries. -/
theorem sum_finite_eq (P : Platform) (xs : List FVal) :
    sum_finite P xs = fsum P (xs.filter FVal.isfinite) :=
  foldl_sum_finite P xs (fin 0)

/-- Without rounding, the float sum of the finite entries from a finite starting
value is the exact sum. -/
theorem foldl_fadd_exact (P : Platform) (hP : Exact P) (xs : List FVal) (a : ℚ) :
    (xs.filter FVal.isfinite).foldl (fadd P) (fin a) = fin (a + (finite_values xs).sum) := by
  induction xs generalizing a with
  | nil => simp [finite_values]
  | cons x xs ih =>
    cases x with
    | fin q =>
      have : fadd P (fin a) (fin q) = fin (a + q) := hP _
      simp [List.filter_cons, FVal.isfinite, finite_values, this] at ih ⊢
      rw [ih, add_assoc]
    | nan => simpa [List.filter_cons, FVal.isfinite, finite_values] using ih a
    | pinf => simpa [List.filter_cons, FVal.isfinite, finite_values] using ih a
    | ninf => simpa [List.filter_cons, FVal.isfinite, finite_values] using ih a

/-- An array without a finite entry has no finite values. -/
theorem filter_isfinite_eq_nil (xs : List FVal) (h : ∀ x ∈ xs, x.isfinite = false) :
    xs.filter FVal.isfinite = [] := by
  rw [List.filter_eq_nil_iff]
  intro x hx
  simp [h x hx]

/-- The counterexample that refutes C6: on single precision the sum statistic of the array
`[FLT_MAX, FLT_MAX]`, whose two entries are finite, is 0, although the sum of the
entries is `2 * FLT_MAX` exactly and plus infinity as a float sum. -/
theorem sum_overflow_gives_zero :
    load_factors binary32
      { mapper_with .SCALAR_MAP .T_SUM [fin FLT_MAX, fin FLT_MAX] with factors := [] } [] =
        .ok [fin FLT_MAX, fin FLT_MAX] ∧
    set_factor binary32 (mapper_with .SCALAR_MAP .T_SUM [fin FLT_MAX, fin FLT_MAX]) [] =
      .ok (fin 0, [fin FLT_MAX, fin FLT_MAX]) ∧
    (finite_values [fin FLT_MAX, fin FLT_MAX]).sum = 2 * FLT_MAX ∧
    (2 * FLT_MAX ≠ 0) ∧
    fsum binary32 ([fin FLT_MAX, fin FLT_MAX].filter FVal.isfinite) = pinf := by
  refine ⟨by decide!, by decide!, by decide!, by decide!, by decide!⟩

/-- C6, amended: with a per-vertex contrast other than `SCALAR_MAP_COUNT` and the
statistic `T_SUM`, the factor is the float sum of exactly the finite entries of the
value array (NaN and infinite entries are skipped) if that sum is finite, and 0 if
it has overflowed; an array with no finite entry gives 0; and where no rounding
occurs the factor is the exact sum of the finite entries. -/
theorem set_factor_sum (P : Platform) (m : TrackMapperTWI) (tck : Streamline) (xs : List FVal)
    (hc : PerVertex m.contrast) (hs : m.track_statistic = .T_SUM)
    (hl : load_factors P { m with factors := [] } tck = .ok xs) :
    set_factor P m tck =
      .ok (if (fsum P (xs.filter FVal.isfinite)).isfinite
        then fsum P (xs.filter FVal.isfinite) else fin 0, xs) ∧
    ((∀ x ∈ xs, x.isfinite = false) → set_factor P m tck = .ok (fin 0, xs)) ∧
    (Exact P → set_factor P m tck = .ok (fin (finite_values xs).sum, xs)) := by
  have h : set_factor P m tck =
      .ok (if (fsum P (xs.filter FVal.isfinite)).isfinite
        then fsum P (xs.filter FVal.isfinite) else fin 0, xs) := by
    rw [set_factor_per_vertex P m tck xs (sum_finite P xs) xs hc hl
      (by rw [hs]; rfl), sum_finite_eq]
  refine ⟨h, fun hn => ?_, fun hP => ?_⟩
  · rw [h, filter_isfinite_eq_nil xs hn]; rfl
  · rw [h, fsum, foldl_fadd_exact P hP xs 0]; simp [FVal.isfinite]

/-- Witness of C6: the array `[1.5, NaN, 2.25, +inf, -4]` sums to -0.25, and an
array of NaN and infinities to 0. -/
theorem set_factor_sum_witness :
    set_factor binary32
        (mapper_with .FOD_AMP .T_SUM [fin (3 / 2), nan, fin (9 / 4), pinf, fin (-4)]) [] =
      .ok (fin (-1 / 4), [fin (3 / 2), nan, fin (9 / 4), pinf, fin (-4)]) ∧
    set_factor binary32 (mapper_with .FOD_AMP .T_SUM [nan, ninf, pinf]) [] =
      .ok (fin 0, [nan, ninf, pinf]) ∧
    set_factor unrounded
        (mapper_with .FOD_AMP .T_SUM [fin (3 / 2), nan, fin (9 / 4), pinf, fin (-4)]) [] =
      .ok (fin (finite_values [fin (3 / 2), nan, fin (9 / 4), pinf, fin (-4)]).sum,
        [fin (3 / 2), nan, fin (9 / 4), pinf, fin (-4)]) :=
  ⟨by decide!,
    (set_factor_sum binary32 (mapper_with .FOD_AMP .T_SUM [nan, ninf, pinf]) [] [nan, ninf, pinf]
      (Or.inr (Or.inl rfl)) rfl (by decide!)).2.1 (by decide),
    (set_factor_sum unrounded
      (mapper_with .FOD_AMP .T_SUM [fin (3 / 2), nan, fin (9 / 4), pinf, fin (-4)]) []
      [fin (3 / 2), nan, fin (9 / 4), pinf, fin (-4)]
      (Or.inr (Or.inl rfl)) rfl (by decide!)).2.2 (fun _ => rfl)⟩

/-- The loop of `T_MIN` from a finite running value: the result is finite, is the
starting value or an entry, and is below the starting value and every finite
entry. -/
theorem foldl_min_fin (xs : List FVal) (a : ℚ) :
    ∃ q, xs.foldl (fun factor i => if i.isfinite then FVal.min factor i else factor) (fin a) =
        fin q ∧ (q = a ∨ fin q ∈ xs) ∧ q ≤ a ∧ ∀ r, fin r ∈ xs → q ≤ r := by
  induction xs generalizing a with
  | nil => exact ⟨a, rfl, Or.inl rfl, le_refl a, by simp⟩
  | cons x xs ih =>
    cases x with
    | fin b =>
      by_cases hlt : b < a
      · obtain ⟨q, hq, hmem, hle, hall⟩ := ih b
        refine ⟨q, by simpa [FVal.isfinite, FVal.min, FVal.lt, hlt] using hq, ?_, by linarith, ?_⟩
        · rcases hmem with h | h
          · exact Or.inr (by simp [h])
          · exact Or.inr (List.mem_cons_of_mem _ h)
        · intro r hr
          rcases List.mem_cons.mp hr with h | h
          · cases h; exact hle
          · exact hall r h
      · obtain ⟨q, hq, hmem, hle, hall⟩ := ih a
        refine ⟨q, by simpa [FVal.isfinite, FVal.min, FVal.lt, hlt] using hq, ?_, hle, ?_⟩
        · rcases hmem with h | h
          · exact Or.inl h
          · exact Or.inr (List.mem_cons_of_mem _ h)
        · intro r hr
          rcases List.mem_cons.mp hr with h | h
          · cases h; linarith
          · exact hall r h
    | nan =>
      obtain ⟨q, hq, hmem, hle, hall⟩ := ih a
      exact ⟨q, by simpa [FVal.isfinite] using hq, by simpa using hmem, hle, by simpa using hall⟩
    | pinf =>
      obtain ⟨q, hq, hmem, hle, hall⟩ := ih a
      exact ⟨q, by simpa [FVal.isfinite] using hq, by simpa using hmem, hle, by simpa using hall⟩
    | ninf =>
      obtain ⟨q, hq, hmem, hle, hall⟩ := ih a
      exact ⟨q, by simpa [FVal.isfinite] using hq, by simpa using hmem, hle, by simpa using hall⟩

/-- The loop of `T_MAX` from a finite running value: the result is finite, is the
starting value or an entry, and is above the starting value and every finite
entry. -/
theorem foldl_max_fin (xs : List FVal) (a : ℚ) :
    ∃ q, xs.foldl (fun factor i => if i.isfinite then FVal.max factor i else factor) (fin a) =
        fin q ∧ (q = a ∨ fin q ∈ xs) ∧ a ≤ q ∧ ∀ r, fin r ∈ xs → r ≤ q := by
  induction xs generalizing a with
  | nil => exact ⟨a, rfl, Or.inl rfl, le_refl a, by simp⟩
  | cons x xs ih =>
    cases x with
    | fin b =>
      by_cases hlt : a < b
      · obtain ⟨q, hq, hmem, hle, hall⟩ := ih b
        refine ⟨q, by simpa [FVal.isfinite, FVal.max, FVal.lt, hlt] using hq, ?_, by linarith, ?_⟩
        · rcases hmem with h | h
          · exact Or.inr (by simp [h])
          · exact Or.inr (List.mem_cons_of_mem _ h)
        · intro r hr
          rcases List.mem_cons.mp hr with h | h
          · cases h; exact hle
          · exact hall r h
      · obtain ⟨q, hq, hmem, hle, hall⟩ := ih a
        refine ⟨q, by simpa [FVal.isfinite, FVal.max, FVal.lt, hlt] using hq, ?_, hle, ?_⟩
        · rcases hmem with h | h
          · exact Or.inl h
          · exact Or.inr (List.mem_cons_of_mem _ h)
        · intro r hr
          rcases List.mem_cons.mp hr with h | h
          · cases h; linarith
          · exact hall r h
    | nan =>
      obtain ⟨q, hq, hmem, hle, hall⟩ := ih a
      exact ⟨q, by simpa [FVal.isfinite] using hq, by simpa using hmem, hle, by simpa using hall⟩
    | pinf =>
      obtain ⟨q, hq, hmem, hle, hall⟩ := ih a
      exact ⟨q, by simpa [FVal.isfinite] using hq, by simpa using hmem, hle, by simpa using hall⟩
    | ninf =>
      obtain ⟨q, hq, hmem, hle, hall⟩ := ih a
      exact ⟨q, by simpa [FVal.isfinite] using hq, by simpa using hmem, hle, by simpa using hall⟩

/-- The loop of `T_MIN` on an array with a finite entry returns the smallest finite
entry. -/
theorem min_finite_spec (xs : List FVal) (h : ∃ x ∈ xs, x.isfinite = true) :
    ∃ q, min_finite xs = fin q ∧ fin q ∈ xs ∧ ∀ r, fin r ∈ xs → q ≤ r := by
  unfold min_finite
  induction xs with
  | nil => simp at h
  | cons x xs ih =>
    cases x with
    | fin b =>
      obtain ⟨q, hq, hmem, hle, hall⟩ := foldl_min_fin xs b
      refine ⟨q, by simpa [FVal.isfinite, FVal.min, FVal.lt] using hq, ?_, ?_⟩
      · rcases hmem with h | h
        · simp [h]
        · exact List.mem_cons_of_mem _ h
      · intro r hr
        rcases List.mem_cons.mp hr with h | h
        · cases h; exact hle
        · exact hall r h
    | nan =>
      obtain ⟨q, hq, hmem, hall⟩ := ih (by simpa [FVal.isfinite] using h)
      exact ⟨q, by simpa [FVal.isfinite] using hq, List.mem_cons_of_mem _ hmem, by simpa using hall⟩
    | pinf =>
      obtain ⟨q, hq, hmem, hall⟩ := ih (by simpa [FVal.isfinite] using h)
      exact ⟨q, by simpa [FVal.isfinite] using hq, List.mem_cons_of_mem _ hmem, by simpa using hall⟩
    | ninf =>
      obtain ⟨q, hq, hmem, hall⟩ := ih (by simpa [FVal.isfinite] using h)
      exact ⟨q, by simpa [FVal.isfinite] using hq, List.mem_cons_of_mem _ hmem, by simpa using hall⟩

/-- The loop of `T_MAX` on an array with a finite entry returns the largest finite
entry. -/
theorem max_finite_spec (xs : List FVal) (h : ∃ x ∈ xs, x.isfinite = true) :
    ∃ q, max_finite xs = fin q ∧ fin q ∈ xs ∧ ∀ r, fin r ∈ xs → r ≤ q := by
  unfold max_finite
  induction xs with
  | nil => simp at h
  | cons x xs ih =>
    cases x with
    | fin b =>
      obtain ⟨q, hq, hmem, hle, hall⟩ := foldl_max_fin xs b
      refine ⟨q, by simpa [FVal.isfinite, FVal.max, FVal.lt] using hq, ?_, ?_⟩
      · rcases hmem with h | h
        · simp [h]
        · exact List.mem_cons_of_mem _ h
      · intro r hr
        rcases List.mem_cons.mp hr with h | h
        · cases h; exact hle
        · exact hall r h
    | nan =>
      obtain ⟨q, hq, hmem, hall⟩ := ih (by simpa [FVal.isfinite] using h)
      exact ⟨q, by simpa [FVal.isfinite] using hq, List.mem_cons_of_mem _ hmem, by simpa using hall⟩
    | pinf =>
      obtain ⟨q, hq, hmem, hall⟩ := ih (by simpa [FVal.isfinite] using h)
      exact ⟨q, by simpa [FVal.isfinite] using hq, List.mem_cons_of_mem _ hmem, by simpa using hall⟩
    | ninf =>
      obtain ⟨q, hq, hmem, hall⟩ := ih (by simpa [FVal.isfinite] using h)
      exact ⟨q, by simpa [FVal.isfinite] using hq, List.mem_cons_of_mem _ hmem, by simpa using hall⟩

/-- The loops of `T_MIN` and `T_MAX` skip the entries that are not finite: they
return the same value on the array and on its finite entries alone. -/
theorem min_max_finite_filter (xs : List FVal) :
    min_finite xs = min_finite (xs.filter FVal.isfinite) ∧
    max_finite xs = max_finite (xs.filter FVal.isfinite) := by
  have key : ∀ (g : FVal → FVal → FVal) (ys : List FVal) (a : FVal),
      ys.foldl (fun factor i => if i.isfinite then g factor i else factor) a =
        (ys.filter FVal.isfinite).foldl
          (fun factor i => if i.isfinite then g factor i else factor) a := by
    intro g ys
    induction ys with
    | nil => intro a; rfl
    | cons y ys ih =>
      intro a
      by_cases hy : y.isfinite = true
      · simp [List.filter_cons, hy, ih]
      · simp [List.filter_cons, hy, ih]
  exact ⟨key FVal.min xs pinf, key FVal.max xs ninf⟩

/-- C7: with a per-vertex contrast other than `SCALAR_MAP_COUNT` and a value array
that has a finite entry, the statistic `T_MIN` gives the smallest finite entry and
`T_MAX` the largest: the factor is an entry of the array and bounds every finite
entry.  The entries that are not finite have no influence: the loops return the same
value on the array and on its finite entries alone. -/
theorem set_factor_min_max (P : Platform) (m : TrackMapperTWI) (tck : Streamline)
    (xs : List FVal) (hc : PerVertex m.contrast)
    (hl : load_factors P { m with factors := [] } tck = .ok xs)
    (hf : ∃ x ∈ xs, x.isfinite = true) :
    (m.track_statistic = .T_MIN →
      ∃ q, set_factor P m tck = .ok (fin q, xs) ∧ fin q ∈ xs ∧ ∀ r, fin r ∈ xs → q ≤ r) ∧
    (m.track_statistic = .T_MAX →
      ∃ q, set_factor P m tck = .ok (fin q, xs) ∧ fin q ∈ xs ∧ ∀ r, fin r ∈ xs → r ≤ q) ∧
    min_finite xs = min_finite (xs.filter FVal.isfinite) ∧
    max_finite xs = max_finite (xs.filter FVal.isfinite) := by
  refine ⟨fun hs => ?_, fun hs => ?_, min_max_finite_filter xs⟩
  · obtain ⟨q, hq, hmem, hall⟩ := min_finite_spec xs hf
    refine ⟨q, ?_, hmem, hall⟩
    rw [set_factor_per_vertex P m tck xs (min_finite xs) xs hc hl (by rw [hs]; rfl), hq]
    simp [FVal.isfinite]
  · obtain ⟨q, hq, hmem, hall⟩ := max_finite_spec xs hf
    refine ⟨q, ?_, hmem, hall⟩
    rw [set_factor_per_vertex P m tck xs (max_finite xs) xs hc hl (by rw [hs]; rfl), hq]
    simp [FVal.isfinite]

/-- Witness of C7: on `[NaN, 2, -inf, -3.5, 7, +inf]` the minimum is -3.5 and the
maximum is 7. -/
theorem set_factor_min_max_witness :
    set_factor binary32
        (mapper_with .SCALAR_MAP .T_MIN [nan, fin 2, ninf, fin (-7 / 2), fin 7, pinf]) [] =
      .ok (fin (-7 / 2), [nan, fin 2, ninf, fin (-7 / 2), fin 7, pinf]) ∧
    set_factor binary32
        (mapper_with .SCALAR_MAP .T_MAX [nan, fin 2, ninf, fin (-7 / 2), fin 7, pinf]) [] =
      .ok (fin 7, [nan, fin 2, ninf, fin (-7 / 2), fin 7, pinf]) ∧
    ∃ q, set_factor binary32
        (mapper_with .SCALAR_MAP .T_MIN [nan, fin 2, ninf, fin (-7 / 2), fin 7, pinf]) [] =
        .ok (fin q, [nan, fin 2, ninf, fin (-7 / 2), fin 7, pinf]) ∧
      fin q ∈ [nan, fin 2, ninf, fin (-7 / 2), fin 7, pinf] ∧
      ∀ r, fin r ∈ [nan, fin 2, ninf, fin (-7 / 2), fin 7, pinf] → q ≤ r :=
  ⟨by decide!, by decide!,
    (set_factor_min_max binary32
      (mapper_with .SCALAR_MAP .T_MIN [nan, fin 2, ninf, fin (-7 / 2), fin 7, pinf]) []
      [nan, fin 2, ninf, fin (-7 / 2), fin 7, pinf] (Or.inl rfl) (by decide!)
      ⟨fin 2, by simp, rfl⟩).1 rfl⟩

/-- The loops of `T_MIN` and `T_MAX` on an array without a finite entry leave the
initial infinity. -/
theorem min_max_no_finite (xs : List FVal) (h : ∀ x ∈ xs, x.isfinite = false) :
    min_finite xs = pinf ∧ max_finite xs = ninf := by
  have hmin := (min_max_finite_filter xs).1
  have hmax := (min_max_finite_filter xs).2
  rw [filter_isfinite_eq_nil xs h] at hmin hmax
  exact ⟨hmin, hmax⟩

/-- The part of C8 that the code fulfils: with a per-vertex contrast other than
`SCALAR_MAP_COUNT` and the statistic `T_MIN` or `T_MAX`, an array without a finite
entry gives the factor 0. -/
theorem set_factor_min_max_no_finite (P : Platform) (m : TrackMapperTWI) (tck : Streamline)
    (xs : List FVal) (hc : PerVertex m.contrast)
    (hs : m.track_statistic = .T_MIN ∨ m.track_statistic = .T_MAX)
    (hl : load_factors P { m with factors := [] } tck = .ok xs)
    (hf : ∀ x ∈ xs, x.isfinite = false) :
    set_factor P m tck = .ok (fin 0, xs) := by
  rcases hs with hs | hs
  · rw [set_factor_per_vertex P m tck xs (min_finite xs) xs hc hl (by rw [hs]; rfl),
      (min_max_no_finite xs hf).1]
    rfl
  · rw [set_factor_per_vertex P m tck xs (max_finite xs) xs hc hl (by rw [hs]; rfl),
      (min_max_no_finite xs hf).2]
    rfl

/-- With the contrast `SCALAR_MAP_COUNT` and the statistic `T_MIN` or `T_MAX`, an array
without a finite entry gives the factor 1, on every platform: the infinity left by
the loop is non-zero, so the binarisation turns it into `1.0` before the finiteness
test runs. -/
theorem set_factor_count_min_max_no_finite (P : Platform) (m : TrackMapperTWI)
    (tck : Streamline) (xs : List FVal) (hc : m.contrast = .SCALAR_MAP_COUNT)
    (hs : m.track_statistic = .T_MIN ∨ m.track_statistic = .T_MAX)
    (hl : load_factors P { m with factors := [] } tck = .ok xs)
    (hf : ∀ x ∈ xs, x.isfinite = false) :
    set_factor P m tck = .ok (fin 1, xs) := by
  have hcf := contrast_factor_per_vertex P m tck xs (Or.inr (Or.inl hc)) hl
  rcases hs with hs | hs
  · have h : contrast_factor P m tck = .ok (pinf, xs) := by
      rw [hcf, hs, ← (min_max_no_finite xs hf).1]; rfl
    rw [set_factor_of_contrast_factor P m tck _ _ h, hc]; rfl
  · have h : contrast_factor P m tck = .ok (ninf, xs) := by
      rw [hcf, hs, ← (min_max_no_finite xs hf).2]; rfl
    rw [set_factor_of_contrast_factor P m tck _ _ h, hc]; rfl

/-- C8, the code at the failing input: with the contrast `SCALAR_MAP_COUNT`, the
statistics `T_MIN` and `T_MAX` return the factor 1, not 0, on the empty array and on
an array of NaN; the same arrays give 0 with the contrast `SCALAR_MAP`, and with
`SCALAR_MAP_COUNT` and the statistics `T_SUM` and `T_MEAN`. -/
theorem set_factor_count_min_max_returns_one :
    set_factor binary32 (mapper_with .SCALAR_MAP_COUNT .T_MIN []) [] = .ok (fin 1, []) ∧
    set_factor binary32 (mapper_with .SCALAR_MAP_COUNT .T_MAX []) [] = .ok (fin 1, []) ∧
    set_factor binary32 (mapper_with .SCALAR_MAP_COUNT .T_MIN [nan, nan])
      [vertex 0 0 0, vertex 1 0 0] = .ok (fin 1, [nan, nan]) ∧
    set_factor binary32 (mapper_with .SCALAR_MAP_COUNT .T_MAX [nan, nan])
      [vertex 0 0 0, vertex 1 0 0] = .ok (fin 1, [nan, nan]) ∧
    set_factor binary32 (mapper_with .SCALAR_MAP .T_MIN [nan, nan])
      [vertex 0 0 0, vertex 1 0 0] = .ok (fin 0, [nan, nan]) ∧
    set_factor binary32 (mapper_with .SCALAR_MAP_COUNT .T_SUM [nan, nan])
      [vertex 0 0 0, vertex 1 0 0] = .ok (fin 0, [nan, nan]) ∧
    set_factor binary32 (mapper_with .SCALAR_MAP_COUNT .T_MEAN [nan, nan])
      [vertex 0 0 0, vertex 1 0 0] = .ok (fin 0, [nan, nan]) := by
  refine ⟨by decide!, by decide!, by decide!, by decide!, by decide!, by decide!, by decide!⟩

/-- The loop of `T_MEAN` from any running sum and count: the float sum of the finite
entries, and their number. -/
theorem foldl_sum_count_finite (P : Platform) (xs : List FVal) (a : FVal) (n : Nat) :
    xs.foldl (fun (st : FVal × Nat) i =>
        if i.isfinite then (fadd P st.1 i, st.2 + 1) else st) (a, n) =
      ((xs.filter FVal.isfinite).foldl (fadd P) a, n + (xs.filter FVal.isfinite).length) := by
  induction xs generalizing a n with
  | nil => rfl
  | cons x xs ih =>
    by_cases hx : x.isfinite = true
    · simp [List.filter_cons, hx, ih]; omega
    · simp [List.filter_cons, hx, ih]

/-- The loop of `T_MEAN` computes the float sum of the finite entries and counts
them. -/
theorem sum_count_finite_eq (P : Platform) (xs : List FVal) :
    sum_count_finite P xs =
      (fsum P (xs.filter FVal.isfinite), (xs.filter FVal.isfinite).length) := by
  unfold sum_count_finite
  rw [foldl_sum_count_finite, Nat.zero_add]
  rfl

/-- The finite entries of an array are as many as its finite values. -/
theorem length_filter_isfinite (xs : List FVal) :
    (xs.filter FVal.isfinite).length = (finite_values xs).length := by
  induction xs with
  | nil => rfl
  | cons x xs ih => cases x <;> simp [List.filter_cons, FVal.isfinite, finite_values] at ih ⊢ <;> exact ih

/-- The counterexample that refutes C9: on single precision the mean statistic of the array
`[FLT_MAX, FLT_MAX]`, whose two entries are finite, is 0, although the sum of the
entries divided by their number is `FLT_MAX`; the running float sum has overflowed
to plus infinity, and so has its quotient by 2. -/
theorem mean_overflow_gives_zero :
    load_factors binary32
      { mapper_with .SCALAR_MAP .T_MEAN [fin FLT_MAX, fin FLT_MAX] with factors := [] } [] =
        .ok [fin FLT_MAX, fin FLT_MAX] ∧
    set_factor binary32 (mapper_with .SCALAR_MAP .T_MEAN [fin FLT_MAX, fin FLT_MAX]) [] =
      .ok (fin 0, [fin FLT_MAX, fin FLT_MAX]) ∧
    (finite_values [fin FLT_MAX, fin FLT_MAX]).sum /
      ((finite_values [fin FLT_MAX, fin FLT_MAX]).length : ℚ) = FLT_MAX ∧
    FLT_MAX ≠ 0 ∧
    fdiv binary32 (fsum binary32 ([fin FLT_MAX, fin FLT_MAX].filter FVal.isfinite))
      (ofNat binary32 2) = pinf := by
  refine ⟨by decide!, by decide!, by decide!, by decide!, by decide!⟩

/-- C9, amended: with a per-vertex contrast other than `SCALAR_MAP_COUNT` and the
statistic `T_MEAN`, the factor is 0 when the array has no finite entry; otherwise it
is the float sum of the finite entries divided by their number (converted to a
float) if that quotient is finite, and 0 if it is not, which happens when the sum
has overflowed; and where no rounding occurs the factor is the exact sum of the
finite entries divided by their number. -/
theorem set_factor_mean (P : Platform) (m : TrackMapperTWI) (tck : Streamline) (xs : List FVal)
    (hc : PerVertex m.contrast) (hs : m.track_statistic = .T_MEAN)
    (hl : load_factors P { m with factors := [] } tck = .ok xs) :
    ((∀ x ∈ xs, x.isfinite = false) → set_factor P m tck = .ok (fin 0, xs)) ∧
    ((∃ x ∈ xs, x.isfinite = true) →
      set_factor P m tck =
        .ok (if (fdiv P (fsum P (xs.filter FVal.isfinite))
            (ofNat P (xs.filter FVal.isfinite).length)).isfinite
          then fdiv P (fsum P (xs.filter FVal.isfinite))
            (ofNat P (xs.filter FVal.isfinite).length)
          else fin 0, xs)) ∧
    (Exact P → (∃ x ∈ xs, x.isfinite = true) →
      set_factor P m tck =
        .ok (fin ((finite_values xs).sum / ((finite_values xs).length : ℚ)), xs)) := by
  have hstat : statistic_factor P m.track_statistic xs =
      .ok (if (xs.filter FVal.isfinite).length ≠ 0
        then fdiv P (fsum P (xs.filter FVal.isfinite)) (ofNat P (xs.filter FVal.isfinite).length)
        else fin 0, xs) := by
    rw [hs]
    simp only [statistic_factor, sum_count_finite_eq]
    rfl
  have hset := set_factor_per_vertex P m tck xs _ xs hc hl hstat
  have hpos : (∃ x ∈ xs, x.isfinite = true) → (xs.filter FVal.isfinite).length ≠ 0 := by
    rintro ⟨x, hx, hfin⟩
    have : x ∈ xs.filter FVal.isfinite := List.mem_filter.mpr ⟨hx, hfin⟩
    exact fun h0 => by simp [List.length_eq_zero.mp h0] at this
  have hsome : (∃ x ∈ xs, x.isfinite = true) →
      set_factor P m tck =
        .ok (if (fdiv P (fsum P (xs.filter FVal.isfinite))
            (ofNat P (xs.filter FVal.isfinite).length)).isfinite
          then fdiv P (fsum P (xs.filter FVal.isfinite))
            (ofNat P (xs.filter FVal.isfinite).length)
          else fin 0, xs) := by
    intro hf
    rw [hset, if_pos (hpos hf)]
  refine ⟨fun hn => ?_, hsome, fun hP hf => ?_⟩
  · rw [hset, filter_isfinite_eq_nil xs hn]; rfl
  · have hne : ((finite_values xs).length : ℚ) ≠ 0 := by
      rw [← length_filter_isfinite]
      exact_mod_cast hpos hf
    have hsum : fsum P (xs.filter FVal.isfinite) = fin (finite_values xs).sum := by
      rw [fsum, foldl_fadd_exact P hP xs 0, zero_add]
    have hdiv : fdiv P (fsum P (xs.filter FVal.isfinite))
        (ofNat P (xs.filter FVal.isfinite).length) =
        fin ((finite_values xs).sum / ((finite_values xs).length : ℚ)) := by
      rw [hsum, ofNat, hP, length_filter_isfinite]
      simp only [fdiv, hne, if_false]
      exact hP _
    rw [hsome hf, hdiv]
    simp [FVal.isfinite]

/-- Witness of C9: the array `[1, NaN, 2, +inf, 6]` has the mean 3 over its three
finite entries, and an array of NaN and infinities the mean 0. -/
theorem set_factor_mean_witness :
    set_factor binary32 (mapper_with .SCALAR_MAP .T_MEAN [nan, pinf, ninf]) [] =
      .ok (fin 0, [nan, pinf, ninf]) ∧
    set_factor binary32 (mapper_with .SCALAR_MAP .T_MEAN [fin 1, nan, fin 2, pinf, fin 6]) [] =
      .ok (fin 3, [fin 1, nan, fin 2, pinf, fin 6]) ∧
    set_factor unrounded (mapper_with .SCALAR_MAP .T_MEAN [fin 1, nan, fin 2, pinf, fin 6]) [] =
      .ok (fin ((finite_values [fin 1, nan, fin 2, pinf, fin 6]).sum /
        ((finite_values [fin 1, nan, fin 2, pinf, fin 6]).length : ℚ)),
        [fin 1, nan, fin 2, pinf, fin 6]) :=
  ⟨(set_factor_mean binary32 (mapper_with .SCALAR_MAP .T_MEAN [nan, pinf, ninf]) []
      [nan, pinf, ninf] (Or.inl rfl) rfl (by decide!)).1 (by decide),
    by decide!,
    (set_factor_mean unrounded (mapper_with .SCALAR_MAP .T_MEAN [fin 1, nan, fin 2, pinf, fin 6])
      [] [fin 1, nan, fin 2, pinf, fin 6] (Or.inl rfl) rfl (by decide!)).2.2 (fun _ => rfl)
      ⟨fin 1, by simp, rfl⟩⟩

/-- On an array of finite values `nth_element` leaves the values in ascending
order. -/
theorem nth_element_map_fin (qs : List ℚ) (n : Nat) :
    nth_element (qs.map fin) n = (qs.insertionSort (· ≤ ·)).map fin := by
  unfold nth_element
  rw [List.map_insertionSort (· ≤ ·) (fun a b => FVal.lt b a = false) fin qs]
  intro a _ b _
  simp [FVal.lt]

/-- The statistic switch for `T_MEDIAN` on a non-empty array of finite values: the
value at position `N / 2` of the ascending rearrangement. -/
theorem statistic_factor_median (P : Platform) (qs : List ℚ) (hne : qs ≠ []) :
    ∃ q, (qs.insertionSort (· ≤ ·))[qs.length / 2]? = some q ∧
      statistic_factor P .T_MEDIAN (qs.map fin) =
        .ok (fin q, (qs.insertionSort (· ≤ ·)).map fin) := by
  have hpos : 0 < qs.length := List.length_pos.mpr hne
  have hlt : qs.length / 2 < (qs.insertionSort (· ≤ ·)).length := by
    rw [List.length_insertionSort]; omega
  refine ⟨(qs.insertionSort (· ≤ ·))[qs.length / 2], List.getElem?_eq_getElem hlt, ?_⟩
  have hempty : (qs.map fin).isEmpty = false := by
    cases qs with
    | nil => exact absurd rfl hne
    | cons a t => rfl
  simp only [statistic_factor, hempty, nth_element_map_fin, List.length_map,
    List.length_insertionSort, idx, List.getElem?_map, List.getElem?_eq_getElem hlt]
  rfl

/-- C10: with a per-vertex contrast other than `SCALAR_MAP_COUNT` and the statistic
`T_MEDIAN`, the empty array gives 0, and a non-empty array of `N` finite values
gives the element at the 0-based index `N / 2` (rounded down) of the array sorted
in ascending order, whichever way it is sorted: the upper of the two middle elements
when `N` is even.  The scratch array is left a permutation of the values. -/
theorem set_factor_median (P : Platform) (m : TrackMapperTWI) (tck : Streamline) (qs : List ℚ)
    (hc : PerVertex m.contrast) (hs : m.track_statistic = .T_MEDIAN)
    (hl : load_factors P { m with factors := [] } tck = .ok (qs.map fin)) :
    (qs = [] → set_factor P m tck = .ok (fin 0, [])) ∧
    (qs ≠ [] → ∀ ss : List ℚ, ss.Perm qs → ss.Sorted (· ≤ ·) →
      ∃ q fs, ss[qs.length / 2]? = some q ∧ set_factor P m tck = .ok (fin q, fs) ∧
        fs.Perm (qs.map fin)) := by
  refine ⟨fun h0 => ?_, fun hne ss hperm hsorted => ?_⟩
  · subst h0
    exact set_factor_per_vertex P m tck _ (fin 0) [] hc hl (by rw [hs]; rfl)
  · obtain ⟨q, hq, hstat⟩ := statistic_factor_median P qs hne
    have hss : ss = qs.insertionSort (· ≤ ·) :=
      List.eq_of_perm_of_sorted (hperm.trans (List.perm_insertionSort _ qs).symm) hsorted
        (List.sorted_insertionSort _ qs)
    refine ⟨q, (qs.insertionSort (· ≤ ·)).map fin, by rw [hss]; exact hq, ?_,
      (List.perm_insertionSort _ qs).map fin⟩
    rw [set_factor_per_vertex P m tck _ (fin q) _ hc hl (by rw [hs]; exact hstat)]
    rfl

/-- Witness of C10: the array `[1.0, 5.0, 3.0, 2.0]` has the median 3.0, the element at
index 2 of `[1.0, 2.0, 3.0, 5.0]`, and not 2.5; the empty array has the median 0. -/
theorem set_factor_median_witness :
    set_factor binary32 (mapper_with .SCALAR_MAP .T_MEDIAN []) [] = .ok (fin 0, []) ∧
    (∃ q fs, [(1 : ℚ), 2, 3, 5][[(1 : ℚ), 5, 3, 2].length / 2]? = some q ∧
      set_factor binary32 (mapper_with .SCALAR_MAP .T_MEDIAN [fin 1, fin 5, fin 3, fin 2]) [] =
        .ok (fin q, fs) ∧ fs.Perm ([(1 : ℚ), 5, 3, 2].map fin)) ∧
    (set_factor binary32
      (mapper_with .SCALAR_MAP .T_MEDIAN [fin 1, fin 5, fin 3, fin 2]) []).map Prod.fst =
      .ok (fin 3) ∧
    (3 : ℚ) ≠ 5 / 2 :=
  ⟨(set_factor_median binary32 (mapper_with .SCALAR_MAP .T_MEDIAN []) [] [] (Or.inl rfl) rfl
      (by decide!)).1 rfl,
    (set_factor_median binary32 (mapper_with .SCALAR_MAP .T_MEDIAN [fin 1, fin 5, fin 3, fin 2])
      [] [1, 5, 3, 2] (Or.inl rfl) rfl (by decide!)).2 (by simp) [1, 2, 3, 5] (by decide)
      (by simp; norm_num),
    by decide!, by norm_num⟩

/-- The loop of `T_MEAN_NONZERO` from any running sum and count: the float sum of
the entries that are finite and non-zero, and their number. -/
theorem foldl_sum_count_nonzero (P : Platform) (xs : List FVal) (a : FVal) (n : Nat) :
    xs.foldl (fun (st : FVal × Nat) i =>
        if i.isfinite && i.toBool then (fadd P st.1 i, st.2 + 1) else st) (a, n) =
      ((xs.filter (fun i => i.isfinite && i.toBool)).foldl (fadd P) a,
        n + (xs.filter (fun i => i.isfinite && i.toBool)).length) := by
  induction xs generalizing a n with
  | nil => rfl
  | cons x xs ih =>
    by_cases hx : (x.isfinite && x.toBool) = true
    · simp only [List.foldl_cons, hx, if_true, List.filter_cons, ih, List.length_cons]
      congr 1
      omega
    · simp only [List.foldl_cons, hx, List.filter_cons, ih]
      rfl

/-- The loop of `T_MEAN_NONZERO` computes the float sum of the entries that are
finite and non-zero and counts them. -/
theorem sum_count_nonzero_eq (P : Platform) (xs : List FVal) :
    sum_count_nonzero P xs =
      (fsum P (xs.filter (fun i => i.isfinite && i.toBool)),
        (xs.filter (fun i => i.isfinite && i.toBool)).length) := by
  unfold sum_count_nonzero
  rw [foldl_sum_count_nonzero, Nat.zero_add]
  rfl

/-- Without rounding, the float sum of the finite non-zero entries from a finite
starting value is the exact sum, and their number is the number of non-zero
values. -/
theorem foldl_fadd_nonzero_exact (P : Platform) (hP : Exact P) (xs : List FVal) (a : ℚ) :
    (xs.filter (fun i => i.isfinite && i.toBool)).foldl (fadd P) (fin a) =
        fin (a + (nonzero_values xs).sum) ∧
      (xs.filter (fun i => i.isfinite && i.toBool)).length = (nonzero_values xs).length := by
  induction xs generalizing a with
  | nil => simp [nonzero_values, finite_values]
  | cons x xs ih =>
    cases x with
    | fin q =>
      by_cases hq : q = 0
      · have h := ih a
        simpa [List.filter_cons, FVal.isfinite, FVal.toBool, nonzero_values, finite_values,
          hq] using h
      · have hf : (fin q :: xs).filter (fun i => i.isfinite && i.toBool) =
            fin q :: xs.filter (fun i => i.isfinite && i.toBool) :=
          List.filter_cons_of_pos (by simp [FVal.isfinite, FVal.toBool, hq])
        have hv : nonzero_values (fin q :: xs) = q :: nonzero_values xs := by
          simp [nonzero_values, finite_values, hq]
        have hadd : fadd P (fin a) (fin q) = fin (a + q) := hP _
        rw [hf, hv, List.foldl_cons, hadd, (ih (a + q)).1, List.length_cons, List.length_cons,
          (ih (a + q)).2, List.sum_cons, add_assoc]
        exact ⟨rfl, rfl⟩
    | nan => simpa [List.filter_cons, FVal.isfinite, nonzero_values, finite_values] using ih a
    | pinf => simpa [List.filter_cons, FVal.isfinite, nonzero_values, finite_values] using ih a
    | ninf => simpa [List.filter_cons, FVal.isfinite, nonzero_values, finite_values] using ih a

/-- The counterexample that refutes C11: on single precision the statistic `T_MEAN_NONZERO` of
the array `[FLT_MAX, FLT_MAX]`, whose two entries are finite and non-zero, is 0,
although their arithmetic mean is `FLT_MAX`; the running float sum has overflowed
to plus infinity, and so has its quotient by 2. -/
theorem mean_nonzero_overflow_gives_zero :
    load_factors binary32
      { mapper_with .SCALAR_MAP .T_MEAN_NONZERO [fin FLT_MAX, fin FLT_MAX] with factors := [] }
        [] = .ok [fin FLT_MAX, fin FLT_MAX] ∧
    set_factor binary32 (mapper_with .SCALAR_MAP .T_MEAN_NONZERO [fin FLT_MAX, fin FLT_MAX]) [] =
      .ok (fin 0, [fin FLT_MAX, fin FLT_MAX]) ∧
    nonzero_values [fin FLT_MAX, fin FLT_MAX] = [FLT_MAX, FLT_MAX] ∧
    (nonzero_values [fin FLT_MAX, fin FLT_MAX]).sum /
      ((nonzero_values [fin FLT_MAX, fin FLT_MAX]).length : ℚ) = FLT_MAX ∧
    FLT_MAX ≠ 0 ∧
    fdiv binary32 (fsum binary32 [fin FLT_MAX, fin FLT_MAX]) (ofNat binary32 2) = pinf := by
  refine ⟨by decide!, by decide!, by decide!, by decide!, by decide!, by decide!⟩

/-- C11, amended: with a per-vertex contrast other than `SCALAR_MAP_COUNT` and the
statistic `T_MEAN_NONZERO`, the factor is 0 when no entry of the array is both finite
and non-zero; otherwise it is the float sum of those entries divided by their number
(converted to a float) if that quotient is finite, and 0 if it is not, which happens
when the sum has overflowed; and where no rounding occurs the factor is the exact
arithmetic mean of the entries that are finite and non-zero. -/
theorem set_factor_mean_nonzero (P : Platform) (m : TrackMapperTWI) (tck : Streamline)
    (xs : List FVal) (hc : PerVertex m.contrast) (hs : m.track_statistic = .T_MEAN_NONZERO)
    (hl : load_factors P { m with factors := [] } tck = .ok xs) :
    ((∀ x ∈ xs, (x.isfinite && x.toBool) = false) → set_factor P m tck = .ok (fin 0, xs)) ∧
    ((∃ x ∈ xs, (x.isfinite && x.toBool) = true) →
      set_factor P m tck =
        .ok (if (fdiv P (fsum P (xs.filter (fun i => i.isfinite && i.toBool)))
            (ofNat P (xs.filter (fun i => i.isfinite && i.toBool)).length)).isfinite
          then fdiv P (fsum P (xs.filter (fun i => i.isfinite && i.toBool)))
            (ofNat P (xs.filter (fun i => i.isfinite && i.toBool)).length)
          else fin 0, xs)) ∧
    (Exact P → (∃ x ∈ xs, (x.isfinite && x.toBool) = true) →
      set_factor P m tck =
        .ok (fin ((nonzero_values xs).sum / ((nonzero_values xs).length : ℚ)), xs)) := by
  have hstat : statistic_factor P m.track_statistic xs =
      .ok (if (xs.filter (fun i => i.isfinite && i.toBool)).length ≠ 0
        then fdiv P (fsum P (xs.filter (fun i => i.isfinite && i.toBool)))
          (ofNat P (xs.filter (fun i => i.isfinite && i.toBool)).length)
        else fin 0, xs) := by
    rw [hs]
    simp only [statistic_factor, sum_count_nonzero_eq]
    rfl
  have hset := set_factor_per_vertex P m tck xs _ xs hc hl hstat
  have hpos : (∃ x ∈ xs, (x.isfinite && x.toBool) = true) →
      (xs.filter (fun i => i.isfinite && i.toBool)).length ≠ 0 := by
    rintro ⟨x, hx, hfin⟩
    have : x ∈ xs.filter (fun i => i.isfinite && i.toBool) := List.mem_filter.mpr ⟨hx, hfin⟩
    exact fun h0 => by simp [List.length_eq_zero.mp h0] at this
  have hsome : (∃ x ∈ xs, (x.isfinite && x.toBool) = true) →
      set_factor P m tck =
        .ok (if (fdiv P (fsum P (xs.filter (fun i => i.isfinite && i.toBool)))
            (ofNat P (xs.filter (fun i => i.isfinite && i.toBool)).length)).isfinite
          then fdiv P (fsum P (xs.filter (fun i => i.isfinite && i.toBool)))
            (ofNat P (xs.filter (fun i => i.isfinite && i.toBool)).length)
          else fin 0, xs) := by
    intro hf
    rw [hset, if_pos (hpos hf)]
  refine ⟨fun hn => ?_, hsome, fun hP hf => ?_⟩
  · have hnil : xs.filter (fun i => i.isfinite && i.toBool) = [] := by
      rw [List.filter_eq_nil_iff]
      intro x hx
      simp [hn x hx]
    rw [hset, hnil]; rfl
  · have hex := foldl_fadd_nonzero_exact P hP xs 0
    have hne : ((nonzero_values xs).length : ℚ) ≠ 0 := by
      rw [← hex.2]
      exact_mod_cast hpos hf
    have hsum : fsum P (xs.filter (fun i => i.isfinite && i.toBool)) =
        fin (nonzero_values xs).sum := by
      rw [fsum, hex.1, zero_add]
    have hdiv : fdiv P (fsum P (xs.filter (fun i => i.isfinite && i.toBool)))
        (ofNat P (xs.filter (fun i => i.isfinite && i.toBool)).length) =
        fin ((nonzero_values xs).sum / ((nonzero_values xs).length : ℚ)) := by
      rw [hsum, ofNat, hP, hex.2]
      simp only [fdiv, hne, if_false]
      exact hP _
    rw [hsome hf, hdiv]
    simp [FVal.isfinite]

/-- Witness of C11: the array `[0.0, 2.0, 0.0, 4.0]` gives 3.0, the mean of 2.0 and
4.0, and not 1.5; an array of zeros, NaN and infinities gives 0. -/
theorem set_factor_mean_nonzero_witness :
    set_factor binary32 (mapper_with .SCALAR_MAP .T_MEAN_NONZERO [fin 0, nan, pinf, fin 0]) [] =
      .ok (fin 0, [fin 0, nan, pinf, fin 0]) ∧
    set_factor binary32 (mapper_with .SCALAR_MAP .T_MEAN_NONZERO [fin 0, fin 2, fin 0, fin 4]) [] =
      .ok (fin 3, [fin 0, fin 2, fin 0, fin 4]) ∧
    (3 : ℚ) ≠ 3 / 2 ∧
    set_factor unrounded (mapper_with .SCALAR_MAP .T_MEAN_NONZERO [fin 0, fin 2, fin 0, fin 4]) [] =
      .ok (fin ((nonzero_values [fin 0, fin 2, fin 0, fin 4]).sum /
        ((nonzero_values [fin 0, fin 2, fin 0, fin 4]).length : ℚ)),
        [fin 0, fin 2, fin 0, fin 4]) :=
  ⟨(set_factor_mean_nonzero binary32
      (mapper_with .SCALAR_MAP .T_MEAN_NONZERO [fin 0, nan, pinf, fin 0]) []
      [fin 0, nan, pinf, fin 0] (Or.inl rfl) rfl (by decide!)).1 (by decide!),
    by decide!, by norm_num,
    (set_factor_mean_nonzero unrounded
      (mapper_with .SCALAR_MAP .T_MEAN_NONZERO [fin 0, fin 2, fin 0, fin 4]) []
      [fin 0, fin 2, fin 0, fin 4] (Or.inl rfl) rfl (by decide!)).2.2 (fun _ => rfl)
      ⟨fin 2, by simp, by decide!⟩⟩

/-- The statistic switch on an array of exactly two values, for the four endpoint
statistics: the assertion holds and the two values are read. -/
theorem statistic_factor_ends (P : Platform) (f0 f1 : FVal) :
    statistic_factor P .ENDS_MIN [f0, f1] =
      .ok (if FVal.lt f0.abs f1.abs then f0 else f1, [f0, f1]) ∧
    statistic_factor P .ENDS_MEAN [f0, f1] =
      .ok (fmul P (fin (1 / 2)) (fadd P f0 f1), [f0, f1]) ∧
    statistic_factor P .ENDS_MAX [f0, f1] =
      .ok (if FVal.gt f0.abs f1.abs then f0 else f1, [f0, f1]) ∧
    statistic_factor P .ENDS_PROD [f0, f1] =
      .ok (if (FVal.lt f0 (fin 0) && FVal.lt f1 (fin 0)) ||
          (FVal.gt f0 (fin 0) && FVal.gt f1 (fin 0)) then fmul P f0 f1 else fin 0, [f0, f1]) := by
  refine ⟨?_, ?_, ?_, ?_⟩
  · simp [statistic_factor, cassert, idx, bind, Except.bind, pure, Except.pure]
  · simp [statistic_factor, cassert, idx, bind, Except.bind, pure, Except.pure]
  · simp [statistic_factor, cassert, idx, bind, Except.bind, pure, Except.pure]
  · by_cases h : ((FVal.lt f0 (fin 0) && FVal.lt f1 (fin 0)) ||
        (FVal.gt f0 (fin 0) && FVal.gt f1 (fin 0))) = true
    · simp only [statistic_factor, cassert, idx, bind, Except.bind, pure, Except.pure]
      simp [h]
    · simp only [statistic_factor, cassert, idx, bind, Except.bind, pure, Except.pure]
      simp [h]

/-- The counterexample that refutes C12: on single precision the statistic `ENDS_PROD` of the
endpoint values `[FLT_MAX, FLT_MAX]`, both finite and strictly positive, is 0 and not
their product: the float product has overflowed to plus infinity. -/
theorem ends_prod_overflow_gives_zero :
    load_factors binary32
      { mapper_with .SCALAR_MAP .ENDS_PROD [fin FLT_MAX, fin FLT_MAX] with factors := [] } [] =
        .ok [fin FLT_MAX, fin FLT_MAX] ∧
    set_factor binary32 (mapper_with .SCALAR_MAP .ENDS_PROD [fin FLT_MAX, fin FLT_MAX]) [] =
      .ok (fin 0, [fin FLT_MAX, fin FLT_MAX]) ∧
    0 < FLT_MAX ∧ FLT_MAX * FLT_MAX ≠ 0 ∧
    fmul binary32 (fin FLT_MAX) (fin FLT_MAX) = pinf := by
  refine ⟨by decide!, by decide!, by decide!, by decide!, by decide!⟩

/-- C12, amended: with a per-vertex contrast other than `SCALAR_MAP_COUNT` and the
statistic `ENDS_PROD`, for every pair of finite endpoint values `[a, b]`: when `a`
and `b` are both strictly positive or both strictly negative the factor is the float
product `a * b` if that is finite and 0 if it has overflowed; otherwise (opposite
signs, or either value zero) the factor is 0; and where no rounding occurs the
factor of a pair of equal strict sign is the exact product. -/
theorem set_factor_ends_prod (P : Platform) (m : TrackMapperTWI) (tck : Streamline) (a b : ℚ)
    (hc : PerVertex m.contrast) (hs : m.track_statistic = .ENDS_PROD)
    (hl : load_factors P { m with factors := [] } tck = .ok [fin a, fin b]) :
    ((0 < a ∧ 0 < b) ∨ (a < 0 ∧ b < 0) →
      set_factor P m tck =
        .ok (if (P.rnd (a * b)).isfinite then P.rnd (a * b) else fin 0, [fin a, fin b])) ∧
    (¬ ((0 < a ∧ 0 < b) ∨ (a < 0 ∧ b < 0)) →
      set_factor P m tck = .ok (fin 0, [fin a, fin b])) ∧
    (Exact P → (0 < a ∧ 0 < b) ∨ (a < 0 ∧ b < 0) →
      set_factor P m tck = .ok (fin (a * b), [fin a, fin b])) := by
  have hcond : ((FVal.lt (fin a) (fin 0) && FVal.lt (fin b) (fin 0)) ||
      (FVal.gt (fin a) (fin 0) && FVal.gt (fin b) (fin 0))) = true ↔
      ((0 < a ∧ 0 < b) ∨ (a < 0 ∧ b < 0)) := by
    simp only [FVal.lt, FVal.gt, Bool.or_eq_true, Bool.and_eq_true, decide_eq_true_eq]
    tauto
  have hsame : (0 < a ∧ 0 < b) ∨ (a < 0 ∧ b < 0) →
      set_factor P m tck =
        .ok (if (P.rnd (a * b)).isfinite then P.rnd (a * b) else fin 0, [fin a, fin b]) := by
    intro h
    have hstat : statistic_factor P m.track_statistic [fin a, fin b] =
        .ok (P.rnd (a * b), [fin a, fin b]) := by
      rw [hs, (statistic_factor_ends P (fin a) (fin b)).2.2.2, if_pos (hcond.mpr h)]
      rfl
    exact set_factor_per_vertex P m tck _ _ _ hc hl hstat
  refine ⟨hsame, fun h => ?_, fun hP h => ?_⟩
  · have hstat : statistic_factor P m.track_statistic [fin a, fin b] =
        .ok (fin 0, [fin a, fin b]) := by
      rw [hs, (statistic_factor_ends P (fin a) (fin b)).2.2.2,
        if_neg (fun hh => h (hcond.mp hh))]
    exact set_factor_per_vertex P m tck _ _ _ hc hl hstat
  · rw [hsame h, hP]
    simp [FVal.isfinite]

/-- Witness of C12: `[3.0, -2.0]` gives 0, `[3.0, 2.0]` gives 6.0, `[-3.0, -2.0]` gives
6.0 and `[0.0, 5.0]` gives 0. -/
theorem set_factor_ends_prod_witness :
    set_factor binary32 (mapper_with .SCALAR_MAP .ENDS_PROD [fin 3, fin (-2)]) [] =
      .ok (fin 0, [fin 3, fin (-2)]) ∧
    set_factor binary32 (mapper_with .SCALAR_MAP .ENDS_PROD [fin 0, fin 5]) [] =
      .ok (fin 0, [fin 0, fin 5]) ∧
    set_factor binary32 (mapper_with .SCALAR_MAP .ENDS_PROD [fin 3, fin 2]) [] =
      .ok (fin 6, [fin 3, fin 2]) ∧
    set_factor unrounded (mapper_with .SCALAR_MAP .ENDS_PROD [fin (-3), fin (-2)]) [] =
      .ok (fin ((-3) * (-2)), [fin (-3), fin (-2)]) :=
  ⟨(set_factor_ends_prod binary32 (mapper_with .SCALAR_MAP .ENDS_PROD [fin 3, fin (-2)]) []
      3 (-2) (Or.inl rfl) rfl (by decide!)).2.1 (by norm_num),
    (set_factor_ends_prod binary32 (mapper_with .SCALAR_MAP .ENDS_PROD [fin 0, fin 5]) []
      0 5 (Or.inl rfl) rfl (by decide!)).2.1 (by norm_num),
    by decide!,
    (set_factor_ends_prod unrounded (mapper_with .SCALAR_MAP .ENDS_PROD [fin (-3), fin (-2)]) []
      (-3) (-2) (Or.inl rfl) rfl (by decide!)).2.2 (fun _ => rfl) (Or.inr (by norm_num))⟩

/-- The counterexample that refutes C13: on single precision the statistic `ENDS_MEAN` of the
endpoint values `[FLT_MAX, FLT_MAX]` is 0 and not `(a + b) / 2 = FLT_MAX`: the float
sum `a + b` has overflowed to plus infinity, and half of it is still infinite. -/
theorem ends_mean_overflow_gives_zero :
    load_factors binary32
      { mapper_with .SCALAR_MAP .ENDS_MEAN [fin FLT_MAX, fin FLT_MAX] with factors := [] } [] =
        .ok [fin FLT_MAX, fin FLT_MAX] ∧
    set_factor binary32 (mapper_with .SCALAR_MAP .ENDS_MEAN [fin FLT_MAX, fin FLT_MAX]) [] =
      .ok (fin 0, [fin FLT_MAX, fin FLT_MAX]) ∧
    (FLT_MAX + FLT_MAX) / 2 = FLT_MAX ∧ FLT_MAX ≠ 0 ∧
    fmul binary32 (fin (1 / 2)) (fadd binary32 (fin FLT_MAX) (fin FLT_MAX)) = pinf := by
  refine ⟨by decide!, by decide!, by decide!, by decide!, by decide!⟩

/-- C13, amended: with a per-vertex contrast other than `SCALAR_MAP_COUNT` and exactly
two finite endpoint values `[a, b]`, `ENDS_MIN` returns the one of `a`, `b` with the
smaller absolute value and `ENDS_MAX` the one with the larger absolute value, each as
the signed value; `ENDS_MEAN` returns the float `0.5 * (a + b)` computed from the
float sum `a + b` if that is finite, and 0 if the sum has overflowed; where no
rounding occurs `ENDS_MEAN` returns `(a + b) / 2` exactly. -/
theorem set_factor_ends_min_max_mean (P : Platform) (m : TrackMapperTWI) (tck : Streamline)
    (a b : ℚ) (hc : PerVertex m.contrast)
    (hl : load_factors P { m with factors := [] } tck = .ok [fin a, fin b]) :
    (m.track_statistic = .ENDS_MIN →
      ∃ r, set_factor P m tck = .ok (fin r, [fin a, fin b]) ∧ (r = a ∨ r = b) ∧
        |r| ≤ |a| ∧ |r| ≤ |b|) ∧
    (m.track_statistic = .ENDS_MAX →
      ∃ r, set_factor P m tck = .ok (fin r, [fin a, fin b]) ∧ (r = a ∨ r = b) ∧
        |a| ≤ |r| ∧ |b| ≤ |r|) ∧
    (m.track_statistic = .ENDS_MEAN →
      set_factor P m tck =
        .ok (if (fmul P (fin (1 / 2)) (fadd P (fin a) (fin b))).isfinite
          then fmul P (fin (1 / 2)) (fadd P (fin a) (fin b)) else fin 0, [fin a, fin b])) ∧
    (m.track_statistic = .ENDS_MEAN → Exact P →
      set_factor P m tck = .ok (fin ((a + b) / 2), [fin a, fin b])) := by
  have hmean : m.track_statistic = .ENDS_MEAN →
      set_factor P m tck =
        .ok (if (fmul P (fin (1 / 2)) (fadd P (fin a) (fin b))).isfinite
          then fmul P (fin (1 / 2)) (fadd P (fin a) (fin b)) else fin 0, [fin a, fin b]) := by
    intro hs
    exact set_factor_per_vertex P m tck _ _ _ hc hl
      (by rw [hs]; exact (statistic_factor_ends P (fin a) (fin b)).2.1)
  refine ⟨fun hs => ?_, fun hs => ?_, hmean, fun hs hP => ?_⟩
  · have hset := set_factor_per_vertex P m tck _ _ _ hc hl
      (by rw [hs]; exact (statistic_factor_ends P (fin a) (fin b)).1)
    by_cases h : |a| < |b|
    · refine ⟨a, ?_, Or.inl rfl, le_refl _, h.le⟩
      rw [hset]
      simp [FVal.abs, FVal.lt, h, FVal.isfinite]
    · refine ⟨b, ?_, Or.inr rfl, not_lt.mp h, le_refl _⟩
      rw [hset]
      simp [FVal.abs, FVal.lt, h, FVal.isfinite]
  · have hset := set_factor_per_vertex P m tck _ _ _ hc hl
      (by rw [hs]; exact (statistic_factor_ends P (fin a) (fin b)).2.2.1)
    by_cases h : |b| < |a|
    · refine ⟨a, ?_, Or.inl rfl, le_refl _, h.le⟩
      rw [hset]
      simp [FVal.abs, FVal.gt, FVal.lt, h, FVal.isfinite]
    · refine ⟨b, ?_, Or.inr rfl, not_lt.mp h, le_refl _⟩
      rw [hset]
      simp [FVal.abs, FVal.gt, FVal.lt, h, FVal.isfinite]
  · have hv : fmul P (fin (1 / 2)) (fadd P (fin a) (fin b)) = fin ((a + b) / 2) := by
      have h1 : fadd P (fin a) (fin b) = fin (a + b) := hP _
      have h2 : fmul P (fin (1 / 2)) (fin (a + b)) = fin (1 / 2 * (a + b)) := hP _
      rw [h1, h2]
      congr 1
      ring
    rw [hmean hs, hv]
    simp [FVal.isfinite]

/-- Witness of C13: on `[3.0, -5.0]` the statistic `ENDS_MIN` gives 3.0, `ENDS_MAX` gives
-5.0 (the signed value) and `ENDS_MEAN` gives -1.0. -/
theorem set_factor_ends_min_max_mean_witness :
    set_factor binary32 (mapper_with .SCALAR_MAP .ENDS_MIN [fin 3, fin (-5)]) [] =
      .ok (fin 3, [fin 3, fin (-5)]) ∧
    set_factor binary32 (mapper_with .SCALAR_MAP .ENDS_MAX [fin 3, fin (-5)]) [] =
      .ok (fin (-5), [fin 3, fin (-5)]) ∧
    set_factor binary32 (mapper_with .SCALAR_MAP .ENDS_MEAN [fin 3, fin (-5)]) [] =
      .ok (fin (-1), [fin 3, fin (-5)]) ∧
    (∃ r, set_factor binary32 (mapper_with .SCALAR_MAP .ENDS_MAX [fin 3, fin (-5)]) [] =
        .ok (fin r, [fin 3, fin (-5)]) ∧ (r = 3 ∨ r = -5) ∧
      |(3 : ℚ)| ≤ |r| ∧ |(-5 : ℚ)| ≤ |r|) ∧
    set_factor unrounded (mapper_with .SCALAR_MAP .ENDS_MEAN [fin 3, fin (-5)]) [] =
      .ok (fin ((3 + -5) / 2), [fin 3, fin (-5)]) :=
  ⟨by decide!, by decide!, by decide!,
    (set_factor_ends_min_max_mean binary32 (mapper_with .SCALAR_MAP .ENDS_MAX [fin 3, fin (-5)])
      [] 3 (-5) (Or.inl rfl) (by decide!)).2.1 rfl,
    (set_factor_ends_min_max_mean unrounded (mapper_with .SCALAR_MAP .ENDS_MEAN [fin 3, fin (-5)])
      [] 3 (-5) (Or.inl rfl) (by decide!)).2.2.2 rfl (fun _ => rfl)⟩

/-- A failure of the contrast switch is the failure of `set_factor`. -/
theorem set_factor_of_contrast_factor_error (P : Platform) (m : TrackMapperTWI)
    (tck : Streamline) (e : Err) (h : contrast_factor P m tck = .error e) :
    set_factor P m tck = .error e := by
  simp [set_factor, h, bind, Except.bind]

/-- The statistic switch for an endpoint statistic on an array that does not have
exactly two entries: with assertions compiled in, the assertion fails. -/
theorem statistic_factor_ends_assert (P : Platform) (s : tck_stat_t) (xs : List FVal)
    (hs : s = .ENDS_MIN ∨ s = .ENDS_MEAN ∨ s = .ENDS_MAX ∨ s = .ENDS_PROD)
    (hn : xs.length ≠ 2) (hd : P.ndebug = false) :
    statistic_factor P s xs = .error Err.assertion := by
  have hc : cassert P (xs.length == 2) = .error Err.assertion := by
    simp [cassert, hd, hn, throw, throwThe, MonadExceptOf.throw]
  rcases hs with hs | hs | hs | hs <;> subst hs <;>
    simp [statistic_factor, hc, bind, Except.bind]

/-- The statistic switch for an endpoint statistic on an array of more than two
entries, with assertions compiled out: a factor is returned from the first two
entries. -/
theorem statistic_factor_ends_ndebug (P : Platform) (s : tck_stat_t) (f0 f1 f2 : FVal)
    (xs : List FVal) (hs : s = .ENDS_MIN ∨ s = .ENDS_MEAN ∨ s = .ENDS_MAX ∨ s = .ENDS_PROD)
    (hd : P.ndebug = true) :
    ∃ f, statistic_factor P s (f0 :: f1 :: f2 :: xs) = .ok (f, f0 :: f1 :: f2 :: xs) := by
  have hc : ∀ c, cassert P c = .ok () := fun c => by
    simp [cassert, hd, pure, Except.pure]
  rcases hs with hs | hs | hs | hs <;> subst hs
  · exact ⟨if FVal.lt f0.abs f1.abs then f0 else f1,
      by simp [statistic_factor, hc, idx, bind, Except.bind, pure, Except.pure]⟩
  · exact ⟨fmul P (fin (1 / 2)) (fadd P f0 f1),
      by simp [statistic_factor, hc, idx, bind, Except.bind, pure, Except.pure]⟩
  · exact ⟨if FVal.gt f0.abs f1.abs then f0 else f1,
      by simp [statistic_factor, hc, idx, bind, Except.bind, pure, Except.pure]⟩
  · by_cases h : ((FVal.lt f0 (fin 0) && FVal.lt f1 (fin 0)) ||
        (FVal.gt f0 (fin 0) && FVal.gt f1 (fin 0))) = true
    · refine ⟨fmul P f0 f1, ?_⟩
      simp only [statistic_factor, hc, idx, bind, Except.bind, pure, Except.pure]
      simp [h]
    · refine ⟨fin 0, ?_⟩
      simp only [statistic_factor, hc, idx, bind, Except.bind, pure, Except.pure]
      simp [h]

/-- The counterexample that refutes C14: with assertions compiled out (`NDEBUG`), the contrast
`CURVATURE` and the statistic `ENDS_MIN`, a streamline of three vertices collects
three values and `set_factor` returns a factor taken from the first two, without any
error; so does the statistic `ENDS_MEAN` on three values loaded by a plugin. -/
theorem ends_statistic_silent_with_ndebug :
    binary32_ndebug.ndebug = true ∧
    load_factors binary32_ndebug { mapper_bare .CURVATURE .ENDS_MIN with factors := [] }
        [vertex 0 0 0, vertex 1 0 0, vertex 1 1 0] =
      .ok [fin (4306653 / 134217728), fin (8613043 / 268435456), fin (4306653 / 134217728)] ∧
    [fin (4306653 / 134217728), fin (8613043 / 268435456),
      fin (4306653 / 134217728)].length ≠ 2 ∧
    set_factor binary32_ndebug (mapper_bare .CURVATURE .ENDS_MIN)
        [vertex 0 0 0, vertex 1 0 0, vertex 1 1 0] =
      .ok (fin (8613043 / 268435456),
        [fin (4306653 / 134217728), fin (8613043 / 268435456), fin (4306653 / 134217728)]) ∧
    set_factor binary32_ndebug (mapper_with .FOD_AMP .ENDS_MEAN [fin 1, fin 2, fin 3])
        [vertex 0 0 0, vertex 1 0 0, vertex 1 1 0] =
      .ok (fin (3 / 2), [fin 1, fin 2, fin 3]) := by
  refine ⟨rfl, by decide!, by decide, by decide!, by decide!⟩

/-- C14, amended: with a per-vertex contrast and one of the statistics `ENDS_MIN`,
`ENDS_MEAN`, `ENDS_MAX`, `ENDS_PROD`, when the collected value array does not have
exactly 2 entries and assertions are compiled in, `set_factor` fails on the
assertion `factors.size() == 2` and returns no factor.  With assertions compiled
out the test is absent: an array of fewer than 2 entries is read out of range
(undefined behaviour), and an array of more than 2 entries yields a factor. -/
theorem set_factor_ends_wrong_size (P : Platform) (m : TrackMapperTWI) (tck : Streamline)
    (xs : List FVal)
    (hc : m.contrast = .SCALAR_MAP ∨ m.contrast = .SCALAR_MAP_COUNT ∨ m.contrast = .FOD_AMP ∨
      m.contrast = .CURVATURE)
    (hs : m.track_statistic = .ENDS_MIN ∨ m.track_statistic = .ENDS_MEAN ∨
      m.track_statistic = .ENDS_MAX ∨ m.track_statistic = .ENDS_PROD)
    (hl : load_factors P { m with factors := [] } tck = .ok xs) (hn : xs.length ≠ 2) :
    (P.ndebug = false →
      set_factor P m tck = .error Err.assertion ∧ ∀ r, set_factor P m tck ≠ .ok r) ∧
    (P.ndebug = true → xs.length < 2 → set_factor P m tck = .error Err.undefined) ∧
    (P.ndebug = true → 2 < xs.length → ∃ f, set_factor P m tck = .ok (f, xs)) := by
  have hcf := contrast_factor_per_vertex P m tck xs hc hl
  refine ⟨fun hd => ?_, fun hd hlt => ?_, fun hd hgt => ?_⟩
  · have h : set_factor P m tck = .error Err.assertion :=
      set_factor_of_contrast_factor_error P m tck _
        (by rw [hcf, statistic_factor_ends_assert P _ xs hs hn hd])
    exact ⟨h, fun r hr => by rw [h] at hr; cases hr⟩
  · have hc' : ∀ c, cassert P c = .ok () := fun c => by
      simp [cassert, hd, pure, Except.pure]
    apply set_factor_of_contrast_factor_error
    rw [hcf]
    match xs, hlt with
    | [], _ =>
      rcases hs with hs | hs | hs | hs <;> rw [hs] <;>
        simp [statistic_factor, hc', idx, bind, Except.bind, throw, throwThe,
          MonadExceptOf.throw]
    | [x], _ =>
      rcases hs with hs | hs | hs | hs <;> rw [hs] <;>
        simp [statistic_factor, hc', idx, bind, Except.bind, throw, throwThe,
          MonadExceptOf.throw, pure, Except.pure]
  · match xs, hgt with
    | f0 :: f1 :: f2 :: rest, _ =>
      obtain ⟨f, hf⟩ := statistic_factor_ends_ndebug P m.track_statistic f0 f1 f2 rest hs hd
      exact ⟨_, set_factor_of_contrast_factor P m tck f _ (by rw [hcf, hf])⟩

/-- Witness of C14: with assertions compiled in, the contrast `CURVATURE` with the
statistic `ENDS_MIN` fails on the assertion for a streamline of three vertices, and
the statistic `ENDS_PROD` fails on it for a single value loaded by a plugin. -/
theorem set_factor_ends_wrong_size_witness :
    set_factor binary32 (mapper_bare .CURVATURE .ENDS_MIN)
        [vertex 0 0 0, vertex 1 0 0, vertex 1 1 0] = .error Err.assertion ∧
    (∀ r, set_factor binary32 (mapper_with .SCALAR_MAP .ENDS_PROD [fin 1]) [] ≠ .ok r) ∧
    set_factor binary32_ndebug (mapper_with .SCALAR_MAP .ENDS_PROD [fin 1]) [] =
      .error Err.undefined :=
  ⟨((set_factor_ends_wrong_size binary32 (mapper_bare .CURVATURE .ENDS_MIN)
      [vertex 0 0 0, vertex 1 0 0, vertex 1 1 0]
      [fin (4306653 / 134217728), fin (8613043 / 268435456), fin (4306653 / 134217728)]
      (Or.inr (Or.inr (Or.inr rfl))) (Or.inl rfl) (by decide!) (by decide)).1 rfl).1,
    ((set_factor_ends_wrong_size binary32 (mapper_with .SCALAR_MAP .ENDS_PROD [fin 1]) []
      [fin 1] (Or.inl rfl) (Or.inr (Or.inr (Or.inr rfl))) (by decide!) (by decide)).1 rfl).2,
    (set_factor_ends_wrong_size binary32_ndebug (mapper_with .SCALAR_MAP .ENDS_PROD [fin 1]) []
      [fin 1] (Or.inl rfl) (Or.inr (Or.inr (Or.inr rfl))) (by decide!) (by decide)).2.1 rfl
      (by decide)⟩

/-- With a plugin attached and a contrast that samples an image, `load_factors`
returns what the plugin makes of the array. -/
theorem load_factors_plugin (P : Platform) (m : TrackMapperTWI) (tck : Streamline)
    (plugin : Streamline → List FVal → List FVal)
    (hc : m.contrast = .SCALAR_MAP ∨ m.contrast = .SCALAR_MAP_COUNT ∨ m.contrast = .FOD_AMP)
    (hp : m.image_plugin = some plugin) :
    load_factors P m tck = .ok (plugin tck m.factors) := by
  unfold load_factors
  rcases hc with hc | hc | hc <;>
    simp [hc, hp, cassert, bind, Except.bind, pure, Except.pure]

/-- C15: with any of the four per-vertex contrasts, the statistic `GAUSSIAN` and every
statistic outside the ten supported ones make `set_factor` fail for every streamline:
no factor is ever returned, and whenever the per-vertex values have been loaded the
failure is the exception of the unsupported statistic (the one for the Gaussian
statistic, or the one for an undefined statistic).  With a plugin attached and a
contrast that samples an image the values are always loaded. -/
theorem set_factor_unsupported_statistic (P : Platform) (m : TrackMapperTWI) (tck : Streamline)
    (hc : m.contrast = .SCALAR_MAP ∨ m.contrast = .SCALAR_MAP_COUNT ∨ m.contrast = .FOD_AMP ∨
      m.contrast = .CURVATURE)
    (hs : m.track_statistic = .GAUSSIAN ∨ ∃ n, m.track_statistic = .other n) :
    (∀ r, set_factor P m tck ≠ .ok r) ∧
    (∀ xs, load_factors P { m with factors := [] } tck = .ok xs →
      (m.track_statistic = .GAUSSIAN → set_factor P m tck = .error Err.gaussian_statistic) ∧
      (∀ n, m.track_statistic = .other n →
        set_factor P m tck = .error Err.unsupported_statistic)) ∧
    (∀ plugin, m.image_plugin = some plugin → m.contrast ≠ .CURVATURE →
      (m.track_statistic = .GAUSSIAN → set_factor P m tck = .error Err.gaussian_statistic) ∧
      (∀ n, m.track_statistic = .other n →
        set_factor P m tck = .error Err.unsupported_statistic)) := by
  have hloaded : ∀ xs, load_factors P { m with factors := [] } tck = .ok xs →
      (m.track_statistic = .GAUSSIAN → set_factor P m tck = .error Err.gaussian_statistic) ∧
      (∀ n, m.track_statistic = .other n →
        set_factor P m tck = .error Err.unsupported_statistic) := by
    intro xs hl
    have hcf := contrast_factor_per_vertex P m tck xs hc hl
    refine ⟨fun h => ?_, fun n h => ?_⟩
    · exact set_factor_of_contrast_factor_error P m tck _ (by rw [hcf, h]; rfl)
    · exact set_factor_of_contrast_factor_error P m tck _ (by rw [hcf, h]; rfl)
  refine ⟨fun r hr => ?_, hloaded, fun plugin hp hnc => ?_⟩
  · obtain ⟨f, hf, _⟩ := set_factor_ok_inv P m tck r hr
    cases hl : load_factors P { m with factors := [] } tck with
    | error e =>
      unfold contrast_factor at hf
      rcases hc with hc | hc | hc | hc <;>
        (simp only [hc] at hl hf; simp [hl, bind, Except.bind] at hf)
    | ok xs =>
      rcases hs with hs | ⟨n, hs⟩
      · rw [(hloaded xs hl).1 hs] at hr; cases hr
      · rw [(hloaded xs hl).2 n hs] at hr; cases hr
  · have hc3 : m.contrast = .SCALAR_MAP ∨ m.contrast = .SCALAR_MAP_COUNT ∨
        m.contrast = .FOD_AMP := by
      rcases hc with h | h | h | h
      · exact Or.inl h
      · exact Or.inr (Or.inl h)
      · exact Or.inr (Or.inr h)
      · exact absurd h hnc
    exact hloaded _ (load_factors_plugin P { m with factors := [] } tck plugin hc3 hp)

/-- Witness of C15: the Gaussian statistic fails with its exception on a scalar map and
on the curvature of a streamline of three vertices; a statistic outside the
enumeration fails with the exception of the undefined statistic. -/
theorem set_factor_unsupported_statistic_witness :
    set_factor binary32 (mapper_with .SCALAR_MAP .GAUSSIAN [fin 1, fin 2]) [] =
      .error Err.gaussian_statistic ∧
    set_factor binary32 (mapper_with .SCALAR_MAP_COUNT (.other 11) [fin 1, fin 2]) [] =
      .error Err.unsupported_statistic ∧
    set_factor binary32 (mapper_bare .CURVATURE .GAUSSIAN)
      [vertex 0 0 0, vertex 1 0 0, vertex 1 1 0] = .error Err.gaussian_statistic ∧
    (∀ r, set_factor binary32 (mapper_bare .FOD_AMP .GAUSSIAN) [] ≠ .ok r) :=
  ⟨((set_factor_unsupported_statistic binary32 (mapper_with .SCALAR_MAP .GAUSSIAN [fin 1, fin 2])
      [] (Or.inl rfl) (Or.inl rfl)).2.2 _ rfl (by decide)).1 rfl,
    ((set_factor_unsupported_statistic binary32
      (mapper_with .SCALAR_MAP_COUNT (.other 11) [fin 1, fin 2])
      [] (Or.inr (Or.inl rfl)) (Or.inr ⟨11, rfl⟩)).2.2 _ rfl (by decide)).2 11 rfl,
    ((set_factor_unsupported_statistic binary32 (mapper_bare .CURVATURE .GAUSSIAN)
      [vertex 0 0 0, vertex 1 0 0, vertex 1 1 0] (Or.inr (Or.inr (Or.inr rfl)))
      (Or.inl rfl)).2.1
      [fin (4306653 / 134217728), fin (8613043 / 268435456), fin (4306653 / 134217728)]
      (by decide!)).1 rfl,
    (set_factor_unsupported_statistic binary32 (mapper_bare .FOD_AMP .GAUSSIAN) []
      (Or.inr (Or.inr (Or.inl rfl))) (Or.inl rfl)).1⟩

/-- The tail of `set_factor` on the contrast `SCALAR_MAP_COUNT`: 1 for a non-zero
value, 0 for zero. -/
theorem finalise_count (f : FVal) :
    finalise .SCALAR_MAP_COUNT f = if f = fin 0 then fin 0 else fin 1 := by
  cases f with
  | fin q =>
    by_cases hq : q = 0
    · simp [finalise, FVal.toBool, FVal.isfinite, hq]
    · simp [finalise, FVal.toBool, FVal.isfinite, hq]
  | nan => simp [finalise, FVal.toBool, FVal.isfinite]
  | pinf => simp [finalise, FVal.toBool, FVal.isfinite]
  | ninf => simp [finalise, FVal.toBool, FVal.isfinite]

/-- C16: with the contrast `SCALAR_MAP_COUNT` and the statistic `T_SUM`, for every value
array the factor is exactly 1.0 if the computed sum of the finite values (their float
sum, in array order) is non-zero, and exactly 0.0 if it is zero; the magnitude of the
sum is never returned. -/
theorem set_factor_count_sum (P : Platform) (m : TrackMapperTWI) (tck : Streamline)
    (xs : List FVal) (hc : m.contrast = .SCALAR_MAP_COUNT) (hs : m.track_statistic = .T_SUM)
    (hl : load_factors P { m with factors := [] } tck = .ok xs) :
    set_factor P m tck =
        .ok (if fsum P (xs.filter FVal.isfinite) = fin 0 then fin 0 else fin 1, xs) ∧
    (∀ f fs, set_factor P m tck = .ok (f, fs) → f = fin 0 ∨ f = fin 1) := by
  have h : set_factor P m tck =
      .ok (if fsum P (xs.filter FVal.isfinite) = fin 0 then fin 0 else fin 1, xs) := by
    have hcf : contrast_factor P m tck = .ok (sum_finite P xs, xs) := by
      rw [contrast_factor_per_vertex P m tck xs (Or.inr (Or.inl hc)) hl, hs]
      rfl
    rw [set_factor_of_contrast_factor P m tck _ _ hcf, hc, finalise_count, sum_finite_eq]
  refine ⟨h, fun f fs hf => ?_⟩
  rw [h] at hf
  by_cases h0 : fsum P (xs.filter FVal.isfinite) = fin 0
  · rw [if_pos h0] at hf
    injection hf with hf
    exact Or.inl (congrArg Prod.fst hf).symm
  · rw [if_neg h0] at hf
    injection hf with hf
    exact Or.inr (congrArg Prod.fst hf).symm

/-- Witness of C16: `[0.5, NaN, 0.25]` gives 1.0 and not 0.75; `[1, -1]`, whose sum is
zero, gives 0.0, and so does an array without finite values; `[FLT_MAX, FLT_MAX]`,
whose computed sum is plus infinity, gives 1.0. -/
theorem set_factor_count_sum_witness :
    set_factor binary32 (mapper_with .SCALAR_MAP_COUNT .T_SUM [fin (1 / 2), nan, fin (1 / 4)]) [] =
      .ok (fin 1, [fin (1 / 2), nan, fin (1 / 4)]) ∧
    set_factor binary32 (mapper_with .SCALAR_MAP_COUNT .T_SUM [fin 1, fin (-1)]) [] =
      .ok (fin 0, [fin 1, fin (-1)]) ∧
    set_factor binary32 (mapper_with .SCALAR_MAP_COUNT .T_SUM [nan, pinf]) [] =
      .ok (fin 0, [nan, pinf]) ∧
    set_factor binary32 (mapper_with .SCALAR_MAP_COUNT .T_SUM [fin FLT_MAX, fin FLT_MAX]) [] =
      .ok (fin 1, [fin FLT_MAX, fin FLT_MAX]) ∧
    set_factor binary32 (mapper_with .SCALAR_MAP_COUNT .T_SUM [fin (1 / 2), nan, fin (1 / 4)]) [] =
      .ok (if fsum binary32 ([fin (1 / 2), nan, fin (1 / 4)].filter FVal.isfinite) = fin 0
        then fin 0 else fin 1, [fin (1 / 2), nan, fin (1 / 4)]) :=
  ⟨by decide!, by decide!, by decide!, by decide!,
    (set_factor_count_sum binary32
      (mapper_with .SCALAR_MAP_COUNT .T_SUM [fin (1 / 2), nan, fin (1 / 4)]) []
      [fin (1 / 2), nan, fin (1 / 4)] rfl rfl (by decide!)).1⟩

/-- C17: plugin attachment raises a configuration error exactly in the mis-configured
cases and then leaves the mapper as it was.  `add_scalar_image` and `add_fod_image`
both raise whenever a plugin is attached already; `add_scalar_image` raises when the
contrast is neither `SCALAR_MAP` nor `SCALAR_MAP_COUNT`, `add_fod_image` when it is not
`FOD_AMP`; otherwise neither raises an error of its own and the constructed plugin is
attached.  After a successful attachment every further attachment, of either kind,
fails.  Both functions take no streamline: the errors occur at setup. -/
theorem add_image_errors (m : TrackMapperTWI)
    (new_scalar : tck_stat_t → Except Err (Streamline → List FVal → List FVal))
    (new_fod : Except Err (Streamline → List FVal → List FVal)) :
    (m.image_plugin.isSome = true →
      add_scalar_image m new_scalar = (.error Err.multiple_images, m) ∧
      add_fod_image m new_fod = (.error Err.multiple_images, m)) ∧
    (m.image_plugin = none → m.contrast ≠ .SCALAR_MAP → m.contrast ≠ .SCALAR_MAP_COUNT →
      add_scalar_image m new_scalar = (.error Err.scalar_image_contrast, m)) ∧
    (m.image_plugin = none → m.contrast ≠ .FOD_AMP →
      add_fod_image m new_fod = (.error Err.fod_image_contrast, m)) ∧
    (m.image_plugin = none → m.contrast = .SCALAR_MAP ∨ m.contrast = .SCALAR_MAP_COUNT →
      ∀ plugin, new_scalar m.track_statistic = .ok plugin →
        add_scalar_image m new_scalar = (.ok (), { m with image_plugin := some plugin })) ∧
    (m.image_plugin = none → m.contrast = .FOD_AMP →
      ∀ plugin, new_fod = .ok plugin →
        add_fod_image m new_fod = (.ok (), { m with image_plugin := some plugin })) ∧
    (∀ new_scalar' new_fod', (add_scalar_image m new_scalar).1 = .ok () →
      (add_scalar_image (add_scalar_image m new_scalar).2 new_scalar').1 =
        .error Err.multiple_images ∧
      (add_fod_image (add_scalar_image m new_scalar).2 new_fod').1 =
        .error Err.multiple_images) ∧
    (∀ new_scalar' new_fod', (add_fod_image m new_fod).1 = .ok () →
      (add_scalar_image (add_fod_image m new_fod).2 new_scalar').1 =
        .error Err.multiple_images ∧
      (add_fod_image (add_fod_image m new_fod).2 new_fod').1 =
        .error Err.multiple_images) := by
  have hsome : ∀ (m' : TrackMapperTWI) ns nf, m'.image_plugin.isSome = true →
      add_scalar_image m' ns = (.error Err.multiple_images, m') ∧
      add_fod_image m' nf = (.error Err.multiple_images, m') := by
    intro m' ns nf h
    simp [add_scalar_image, add_fod_image, h, throw, throwThe, MonadExceptOf.throw]
  refine ⟨hsome m new_scalar new_fod, ?_, ?_, ?_, ?_, ?_, ?_⟩
  · intro hp h1 h2
    simp [add_scalar_image, hp, h1, h2, throw, throwThe, MonadExceptOf.throw]
  · intro hp h1
    simp [add_fod_image, hp, h1, throw, throwThe, MonadExceptOf.throw]
  · intro hp hc plugin hn
    have hc' : ¬ (m.contrast ≠ .SCALAR_MAP ∧ m.contrast ≠ .SCALAR_MAP_COUNT) := by
      rcases hc with h | h <;> simp [h]
    simp only [add_scalar_image, hp, Option.isSome_none, Bool.false_eq_true, if_false, hc', hn]
    rfl
  · intro hp hc plugin hn
    simp only [add_fod_image, hp, Option.isSome_none, Bool.false_eq_true, if_false, hc,
      ne_eq, not_true_eq_false, hn]
    rfl
  · intro ns nf hok
    have hs : (add_scalar_image m new_scalar).2.image_plugin.isSome = true := by
      unfold add_scalar_image at hok ⊢
      by_cases h1 : m.image_plugin.isSome = true
      · simp [h1, throw, throwThe, MonadExceptOf.throw] at hok
      · by_cases h2 : m.contrast ≠ .SCALAR_MAP ∧ m.contrast ≠ .SCALAR_MAP_COUNT
        · simp [h1, h2, throw, throwThe, MonadExceptOf.throw] at hok
        · cases hn : new_scalar m.track_statistic with
          | error e => simp [h1, h2, hn, throw, throwThe, MonadExceptOf.throw] at hok
          | ok plugin => simp [h1, h2, hn]
    have := hsome (add_scalar_image m new_scalar).2 ns nf hs
    exact ⟨by rw [this.1], by rw [this.2]⟩
  · intro ns nf hok
    have hs : (add_fod_image m new_fod).2.image_plugin.isSome = true := by
      unfold add_fod_image at hok ⊢
      by_cases h1 : m.image_plugin.isSome = true
      · simp [h1, throw, throwThe, MonadExceptOf.throw] at hok
      · by_cases h2 : m.contrast ≠ .FOD_AMP
        · simp [h1, h2, throw, throwThe, MonadExceptOf.throw] at hok
        · cases hn : new_fod with
          | error e => simp [h1, h2, hn, throw, throwThe, MonadExceptOf.throw] at hok
          | ok plugin => simp [h1, h2, hn]
    have := hsome (add_fod_image m new_fod).2 ns nf hs
    exact ⟨by rw [this.1], by rw [this.2]⟩

/-- Witness of C17: on a bare mapper with the contrast `SCALAR_MAP` a scalar image is
attached; a second scalar image and an FOD image are then both refused; an FOD image
is refused on the bare mapper for its contrast, and a scalar image on a mapper with
the contrast `CURVATURE`. -/
theorem add_image_errors_witness :
    (add_scalar_image (mapper_bare .SCALAR_MAP .T_MEAN) (fun _ => .ok (fun _ fs => fs))).1 =
      .ok () ∧
    (add_scalar_image
      (add_scalar_image (mapper_bare .SCALAR_MAP .T_MEAN) (fun _ => .ok (fun _ fs => fs))).2
      (fun _ => .ok (fun _ fs => fs))).1 = .error Err.multiple_images ∧
    (add_fod_image
      (add_scalar_image (mapper_bare .SCALAR_MAP .T_MEAN) (fun _ => .ok (fun _ fs => fs))).2
      (.ok (fun _ fs => fs))).1 = .error Err.multiple_images ∧
    (add_fod_image (mapper_bare .SCALAR_MAP .T_MEAN) (.ok (fun _ fs => fs))).1 =
      .error Err.fod_image_contrast ∧
    (add_scalar_image (mapper_bare .CURVATURE .T_MEAN) (fun _ => .ok (fun _ fs => fs))).1 =
      .error Err.scalar_image_contrast :=
  ⟨rfl,
    ((add_image_errors (mapper_bare .SCALAR_MAP .T_MEAN) (fun _ => .ok (fun _ fs => fs))
      (.ok (fun _ fs => fs))).2.2.2.2.2.1 (fun _ => .ok (fun _ fs => fs))
      (.ok (fun _ fs => fs)) rfl).1,
    ((add_image_errors (mapper_bare .SCALAR_MAP .T_MEAN) (fun _ => .ok (fun _ fs => fs))
      (.ok (fun _ fs => fs))).2.2.2.2.2.1 (fun _ => .ok (fun _ fs => fs))
      (.ok (fun _ fs => fs)) rfl).2,
    rfl, rfl⟩

/-! ## Exact arithmetic and the loops of the curvature estimator -/

/-- The number of binary digits bounds the number: `n < 2 ^ bitlen`. -/
theorem lt_two_pow_bitlen (fuel n : Nat) (h : n ≤ fuel) : n < 2 ^ bitlen fuel n := by
  induction fuel generalizing n with
  | zero =>
    have : n = 0 := Nat.le_zero.mp h
    subst this
    simp [bitlen]
  | succ fuel ih =>
    unfold bitlen
    by_cases h0 : n = 0
    · simp [h0]
    · simp only [h0, if_false]
      have h2 : n / 2 ≤ fuel := by omega
      have := ih (n / 2) h2
      rw [pow_succ]
      omega

/-- The digit-by-digit square root keeps its bracket: from `r * r ≤ n` and
`n < (r + 2 ^ (b + 1)) ^ 2` it returns the integer square root. -/
theorem isqrtAux_spec (n b r : Nat) (h1 : r * r ≤ n)
    (h2 : n < (r + 2 ^ (b + 1)) * (r + 2 ^ (b + 1))) :
    isqrtAux n b r * isqrtAux n b r ≤ n ∧ n < (isqrtAux n b r + 1) * (isqrtAux n b r + 1) := by
  induction b generalizing r with
  | zero =>
    unfold isqrtAux
    by_cases h : (r + 1) * (r + 1) ≤ n
    · rw [if_pos h]
      exact ⟨h, by simpa [Nat.add_assoc] using h2⟩
    · rw [if_neg h]
      exact ⟨h1, Nat.lt_of_not_le h⟩
  | succ b ih =>
    unfold isqrtAux
    by_cases h : (r + 2 ^ (b + 1)) * (r + 2 ^ (b + 1)) ≤ n
    · rw [if_pos h]
      apply ih _ h
      have : r + 2 ^ (b + 1) + 2 ^ (b + 1) = r + 2 ^ (b + 1 + 1) := by
        rw [pow_succ 2 (b + 1)]; omega
      rw [this]
      exact h2
    · rw [if_neg h]
      exact ih _ h1 (Nat.lt_of_not_le h)

/-- The integer square root of a square. -/
theorem isqrt_mul_self (m : Nat) : isqrt (m * m) = m := by
  have hb : m * m < (0 + 2 ^ (bitlen (m * m) (m * m) / 2 + 1 + 1)) *
      (0 + 2 ^ (bitlen (m * m) (m * m) / 2 + 1 + 1)) := by
    have h := lt_two_pow_bitlen (m * m) (m * m) (le_refl _)
    refine lt_of_lt_of_le h ?_
    rw [Nat.zero_add, ← pow_add]
    exact Nat.pow_le_pow_right (by norm_num) (by omega)
  obtain ⟨h1, h2⟩ := isqrtAux_spec (m * m) (bitlen (m * m) (m * m) / 2 + 1) 0 (Nat.zero_le _) hb
  unfold isqrt
  set s := isqrtAux (m * m) (bitlen (m * m) (m * m) / 2 + 1) 0
  have hle : s ≤ m := by
    by_contra hc
    have : m + 1 ≤ s := by omega
    have := Nat.mul_le_mul this this
    nlinarith
  have hge : m ≤ s := by
    by_contra hc
    have : s + 1 ≤ m := by omega
    have := Nat.mul_le_mul this this
    omega
  omega

/-- The exact square root returns the root of a square. -/
theorem sqrtExact_mul_self (q : ℚ) (hq : 0 ≤ q) : sqrtExact (q * q) = fin q := by
  have hnum : (q * q).num.natAbs = q.num.natAbs * q.num.natAbs := by
    rw [Rat.mul_self_num, Int.natAbs_mul]
  have hden : (q * q).den = q.den * q.den := Rat.mul_self_den q
  unfold sqrtExact
  rw [hnum, hden, isqrt_mul_self, isqrt_mul_self, if_pos ⟨rfl, rfl⟩]
  congr 1
  have h0 : 0 ≤ q.num := Rat.num_nonneg.mpr hq
  have : ((q.num.natAbs : ℕ) : ℚ) = (q.num : ℚ) := by
    rw [← Int.cast_natCast, Int.natAbs_of_nonneg h0]
  rw [this]
  exact Rat.num_div_den q

/-- A loop over a list succeeds and establishes an invariant when every iteration,
started from a state that satisfies the invariant, succeeds and re-establishes
it. -/
theorem foldlM_inv {σ α : Type} (f : σ → α → Except Err σ) (Inv : Nat → σ → Prop)
    (l : List α) (k0 : Nat) (init : σ) (h0 : Inv k0 init)
    (hstep : ∀ k (hk : k < l.length) st, Inv (k0 + k) st →
      ∃ st', f st (l.get ⟨k, hk⟩) = .ok st' ∧ Inv (k0 + k + 1) st') :
    ∃ r, l.foldlM f init = .ok r ∧ Inv (k0 + l.length) r := by
  induction l generalizing k0 init with
  | nil => exact ⟨init, rfl, h0⟩
  | cons a t ih =>
    obtain ⟨st', hf, hinv⟩ := hstep 0 (by simp) init h0
    have hstep' : ∀ k (hk : k < t.length) st, Inv (k0 + 1 + k) st →
        ∃ st'', f st (t.get ⟨k, hk⟩) = .ok st'' ∧ Inv (k0 + 1 + k + 1) st'' := by
      intro k hk st hst
      have := hstep (k + 1) (by simp; omega) st (by rw [← Nat.add_assoc, Nat.add_right_comm]
                                                    exact hst)
      obtain ⟨st'', h1, h2⟩ := this
      refine ⟨st'', by simpa using h1, ?_⟩
      rw [Nat.add_right_comm k0 1 k]
      exact h2
    obtain ⟨r, hr, hinvr⟩ := ih (k0 + 1) st' (by simpa using hinv) hstep'
    refine ⟨r, ?_, ?_⟩
    · rw [List.foldlM_cons]
      simp only [List.get_eq_getElem, List.getElem_cons_zero] at hf
      simp [hf, bind, Except.bind, hr]
    · rw [List.length_cons, ← Nat.add_assoc, Nat.add_right_comm]
      exact hinvr

/-- The loop `for (i = 0; i != n; ++i)` succeeds and establishes an invariant when
every iteration does. -/
theorem foldlM_range_inv {σ : Type} (f : σ → Nat → Except Err σ) (Inv : Nat → σ → Prop)
    (n : Nat) (init : σ) (h0 : Inv 0 init)
    (hstep : ∀ i st, i < n → Inv i st → ∃ st', f st i = .ok st' ∧ Inv (i + 1) st') :
    ∃ r, (List.range n).foldlM f init = .ok r ∧ Inv n r := by
  have := foldlM_inv f Inv (List.range n) 0 init h0 (by
    intro k hk st hst
    have hk' : k < n := by simpa using hk
    rw [Nat.zero_add] at hst ⊢
    simpa using hstep k st hk' hst)
  simpa using this

/-- Exact addition. -/
theorem fadd_exact {P : Platform} (hP : Exact P) (a b : ℚ) :
    fadd P (fin a) (fin b) = fin (a + b) := hP _

/-- A scaled vector has all its coefficients finite. -/
theorem allFinite_scaled (ux uy uz c : ℚ) : (scaleOf ux uy uz c).allFinite = true := rfl

/-- The loop `for (i = 0; i != n; ++i)` returns `g n` when iteration `i` takes `g i` to
`g (i + 1)`. -/
theorem foldlM_range_eq {σ : Type} (f : σ → Nat → Except Err σ) (g : Nat → σ) (n : Nat)
    (hstep : ∀ i, i < n → f (g i) i = .ok (g (i + 1))) :
    (List.range n).foldlM f (g 0) = .ok (g n) := by
  obtain ⟨r, hr, hinv⟩ := foldlM_range_inv f (fun i st => st = g i) n (g 0) rfl
    (fun i st hi hst => ⟨g (i + 1), by rw [hst]; exact hstep i hi, rfl⟩)
  rw [hr, hinv]

/-- The second loop of the curvature branch leaves an array of tangents alone when
none of them is negligible. -/
theorem repair_tangents_id (P : Platform) (n : Nat) (tangents : List Vec3)
    (hz : ∀ i, i < tangents.length → ∃ t, tangents[i]? = some t ∧ Vec3.isZero P t = false) :
    repair_tangents P n tangents = .ok tangents := by
  unfold repair_tangents
  apply foldlM_range_eq _ (fun _ => tangents)
  intro i hi
  obtain ⟨t, ht, htz⟩ := hz i hi
  simp [idx, ht, htz, bind, Except.bind, pure, Except.pure]

/-! ## The last loop pushes one value per iteration -/

/-- The two branches of the last loop both push one value. -/
theorem push_ite (c : Bool) (x y : FVal) (fs : List FVal) :
    (if c = true then (pure (fs ++ [x]) : Except Err (List FVal)) else pure (fs ++ [y])) =
      pure (fs ++ [if c = true then x else y]) := by
  cases c <;> rfl

/-! ## The tangent-repair pass -/

/-- C20, failing input: on the streamline `(0,0,0)`, `(0,0,0)`, `(0,0,0)`, `(2,0,0)`,
whose last segment has length 2, the raw tangents are zero at the vertices 0 and 1.
The repair pass leaves the tangent of vertex 0 the zero vector: its scan from index 1
stops at once, at the tangent of vertex 1, because that one is zero, and copies
it. The tangent of vertex 1 becomes the normalised sum of two zero vectors. -/
theorem repair_tangents_leaves_zero :
    raw_tangents binary32 [vertex 0 0 0, vertex 0 0 0, vertex 0 0 0, vertex 2 0 0] =
      .ok ([Vec3.zero, Vec3.zero, ⟨fin 1, fin 0, fin 0⟩, ⟨fin 1, fin 0, fin 0⟩],
        [fin 0, fin 0, fin 2]) ∧
    scan_j binary32 [Vec3.zero, Vec3.zero, ⟨fin 1, fin 0, fin 0⟩, ⟨fin 1, fin 0, fin 0⟩] 4 5 1 =
      .ok 1 ∧
    ∃ t1, repair_tangents binary32 4
        [Vec3.zero, Vec3.zero, ⟨fin 1, fin 0, fin 0⟩, ⟨fin 1, fin 0, fin 0⟩] =
      .ok [Vec3.zero, t1, ⟨fin 1, fin 0, fin 0⟩, ⟨fin 1, fin 0, fin 0⟩] :=
  ⟨by decide!, by decide!, ⟨nan, nan, nan⟩, by decide!⟩

/-! ## The loops of the curvature estimator in closed form -/

/-- An index in range reads the element. -/
theorem idx_getD {α : Type} (xs : List α) (i : Nat) (d : α) (hi : i < xs.length) :
    idx xs i = .ok (xs.getD i d) := by
  simp [idx, List.getD, List.getElem?_eq_getElem hi, pure, Except.pure]

/-- The first loop of the curvature branch, on at least two vertices: it returns the
raw tangent of every vertex and the length of every segment. -/
theorem raw_tangents_eq (P : Platform) (tck : Streamline) (hn : 2 ≤ tck.length) :
    raw_tangents P tck =
      .ok ((List.range tck.length).map (raw_tangent P tck), segment_lengths P tck) := by
  have key := foldlM_range_eq (fun (st : List Vec3 × List FVal) i => do
    let this_tangent ←
      if i = 0 then do
        let a ← idx tck 1
        let b ← idx tck 0
        pure (Vec3.normalized P (Vec3.sub P a b))
      else if i = tck.length - 1 then do
        let a ← idx tck i
        let b ← idx tck (i - 1)
        pure (Vec3.normalized P (Vec3.sub P a b))
      else do
        let a ← idx tck (i + 1)
        let b ← idx tck (i - 1)
        pure (Vec3.normalized P (Vec3.sub P a b))
    let tangents := st.1 ++ [if this_tangent.allFinite then this_tangent else Vec3.zero]
    if i ≠ 0 then do
      let a ← idx tck i
      let b ← idx tck (i - 1)
      pure (tangents, st.2 ++ [Vec3.norm P (Vec3.sub P a b)])
    else
      pure (tangents, st.2))
    (fun i => ((List.range i).map (raw_tangent P tck),
      (List.range (i - 1)).map (fun k =>
        Vec3.norm P (Vec3.sub P (tck.getD (k + 1) Vec3.zero) (tck.getD k Vec3.zero)))))
    tck.length (by
      intro i hi
      have hv : ∀ k, k < tck.length → idx tck k = .ok (tck.getD k Vec3.zero) :=
        fun k hk => idx_getD tck k _ hk
      by_cases h0 : i = 0
      · subst h0
        have h1 : List.range 1 = [0] := rfl
        simp [hv 1 (by omega), hv 0 (by omega), raw_tangent, h1, bind, Except.bind,
          pure, Except.pure]
      · obtain ⟨k, rfl⟩ : ∃ k, i = k + 1 := ⟨i - 1, by omega⟩
        by_cases hl : k + 1 = tck.length - 1
        · simp [hv (k + 1) (by omega), hv k (by omega), raw_tangent, eq_true hl,
            List.range_succ, bind, Except.bind, pure, Except.pure]
        · simp [hv (k + 1) (by omega), hv k (by omega), hv (k + 1 + 1) (by omega),
            raw_tangent, eq_false hl, List.range_succ, bind, Except.bind, pure, Except.pure])
  simpa [raw_tangents, segment_lengths] using key

/-- An index in range reads some element. -/
theorem idx_ok {α : Type} (xs : List α) (i : Nat) (hi : i < xs.length) :
    ∃ a, idx xs i = .ok a := by
  simp [idx, List.getElem?_eq_getElem hi, pure, Except.pure]

/-- The upward scan of the repair pass stops at an index within the array. -/
theorem scan_j_ok (P : Platform) (tangents : List Vec3) (n : Nat) (hl : tangents.length = n)
    (fuel j : Nat) (hj : j ≤ n - 1) (hf : n - 1 - j < fuel) :
    ∃ j', scan_j P tangents n fuel j = .ok j' ∧ j ≤ j' ∧ j' ≤ n - 1 := by
  induction fuel generalizing j with
  | zero => omega
  | succ fuel ih =>
    unfold scan_j
    by_cases hlt : j < n - 1
    · obtain ⟨t, ht⟩ := idx_ok tangents j (by omega)
      rw [if_pos hlt, ht]
      by_cases hz : Vec3.isZero P t = true
      · exact ⟨j, by simp [hz, bind, Except.bind, pure, Except.pure], le_refl _, hj⟩
      · obtain ⟨j', h1, h2, h3⟩ := ih (j + 1) (by omega) (by omega)
        exact ⟨j', by simp [hz, h1, bind, Except.bind], by omega, h3⟩
    · rw [if_neg hlt]
      exact ⟨j, rfl, le_refl _, hj⟩

/-- The downward scan of the repair pass stops at an index not above its start. -/
theorem scan_k_ok (P : Platform) (tangents : List Vec3) (k : Nat) (hk : k < tangents.length) :
    ∃ k', scan_k P tangents k = .ok k' ∧ k' ≤ k := by
  induction k with
  | zero => exact ⟨0, rfl, le_refl _⟩
  | succ k ih =>
    unfold scan_k
    obtain ⟨t, ht⟩ := idx_ok tangents (k + 1) hk
    rw [ht]
    by_cases hz : Vec3.isZero P t = true
    · exact ⟨k + 1, by simp [hz, bind, Except.bind, pure, Except.pure], le_refl _⟩
    · obtain ⟨k', h1, h2⟩ := ih (by omega)
      exact ⟨k', by simp [hz, h1, bind, Except.bind], by omega⟩

/-- The repair pass on an array of `n ≥ 2` tangents returns an array of `n`
tangents: no scan leaves the array. -/
theorem repair_tangents_ok (P : Platform) (n : Nat) (tangents : List Vec3)
    (hl : tangents.length = n) (hn : 2 ≤ n) :
    ∃ r, repair_tangents P n tangents = .ok r ∧ r.length = n := by
  unfold repair_tangents
  rw [hl]
  apply foldlM_range_inv _ (fun _ (st : List Vec3) => st.length = n) n tangents hl
  intro i st hi hst
  beta_reduce
  obtain ⟨t, ht⟩ := idx_ok st i (by omega)
  rw [ht]
  by_cases hz : Vec3.isZero P t = true
  · by_cases h0 : i = 0
    · obtain ⟨j, h1, _, h3⟩ := scan_j_ok P st n hst (n + 1) 1 (by omega) (by omega)
      obtain ⟨tj, htj⟩ := idx_ok st j (by omega)
      refine ⟨st.set i tj, ?_, by simp [hst]⟩
      simp [hz, h0, h1, htj, bind, Except.bind, pure, Except.pure]
    · by_cases hlast : i = st.length - 1
      · obtain ⟨k, h1, h2⟩ := scan_k_ok P st (i - 1) (by omega)
        obtain ⟨tk, htk⟩ := idx_ok st k (by omega)
        refine ⟨st.set i tk, ?_, by simp [hst]⟩
        simp [hz, h0, eq_true hlast, h1, htk, bind, Except.bind, pure, Except.pure]
      · obtain ⟨j, h1, _, h3⟩ := scan_j_ok P st n hst (n + 1) 1 (by omega) (by omega)
        obtain ⟨k, h4, h5⟩ := scan_k_ok P st (i - 1) (by omega)
        obtain ⟨tj, htj⟩ := idx_ok st j (by omega)
        obtain ⟨tk, htk⟩ := idx_ok st k (by omega)
        refine ⟨st.set i (Vec3.normalized P (Vec3.add P tj tk)), ?_, by simp [hst]⟩
        simp [hz, h0, eq_false hlast, h1, h4, htj, htk, bind, Except.bind, pure, Except.pure]
  · exact ⟨st, by simp [hz, bind, Except.bind, pure, Except.pure], hst⟩

/-- The loop `for (k = s; k != s + len; ++k)` succeeds and establishes an invariant
indexed by `k` when every iteration does. -/
theorem foldlM_range'_idx {σ : Type} (f : σ → Nat → Except Err σ) (Inv : Nat → σ → Prop)
    (s len : Nat) (init : σ) (h0 : Inv s init)
    (hstep : ∀ k st, s ≤ k → k < s + len → Inv k st → ∃ st', f st k = .ok st' ∧ Inv (k + 1) st') :
    ∃ r, (List.range' s len).foldlM f init = .ok r ∧ Inv (s + len) r := by
  have := foldlM_inv f Inv (List.range' s len) s init h0 (by
    intro k hk st hst
    have hk' : k < len := by simpa using hk
    have := hstep (s + k) st (by omega) (by omega) hst
    simpa using this)
  simpa using this

/-- The zero matrix is square and all its coefficients are 0. -/
theorem square_zero (n : Nat) :
    Square n (MatrixXf.zero n) ∧ ∀ r c, (MatrixXf.zero n).entry r c = fin 0 := by
  refine ⟨⟨by simp [MatrixXf.zero], ?_⟩, ?_⟩
  · intro row hrow
    simp only [MatrixXf.zero, List.mem_replicate] at hrow
    rw [hrow.2, List.length_replicate]
  · intro r c
    simp only [MatrixXf.entry, MatrixXf.zero, List.getD_eq_getElem?_getD,
      List.getElem?_replicate]
    by_cases hr : r < n
    · by_cases hc : c < n
      · simp [hr, hc]
      · simp [hr, hc]
    · simp [hr]

/-- A coefficient of a square matrix, read in range, is its entry. -/
theorem coeff_entry (n : Nat) (m : MatrixXf) (hm : Square n m) (r c : Nat) (hr : r < n)
    (hc : c < n) : m.coeff r c = .ok (m.entry r c) := by
  have hr' : r < m.length := by rw [hm.1]; exact hr
  have hrow : (m.getD r []).length = n := by
    apply hm.2
    rw [List.getD_eq_getElem?_getD, List.getElem?_eq_getElem hr']
    exact List.getElem_mem _
  unfold MatrixXf.coeff MatrixXf.entry
  rw [idx_getD m r [] hr']
  simp only [bind, Except.bind]
  rw [idx_getD _ c (fin 0) (by rw [hrow]; exact hc)]

/-- The update `m (r, c) += v` of a square matrix, in range: the matrix stays square,
the coefficient `(r, c)` is increased by `v` and every other coefficient is kept. -/
theorem addAt_spec (P : Platform) (n : Nat) (m : MatrixXf) (hm : Square n m) (r c : Nat)
    (hr : r < n) (hc : c < n) (v : FVal) :
    ∃ m', MatrixXf.addAt P m r c v = .ok m' ∧ Square n m' ∧
      ∀ r' c', m'.entry r' c' =
        if r' = r ∧ c' = c then fadd P (m.entry r c) v else m.entry r' c' := by
  have hr' : r < m.length := by rw [hm.1]; exact hr
  have hrow : (m.getD r []).length = n := by
    apply hm.2
    rw [List.getD_eq_getElem?_getD, List.getElem?_eq_getElem hr']
    exact List.getElem_mem _
  refine ⟨m.set r ((m.getD r []).set c (fadd P (m.entry r c) v)), ?_, ⟨?_, ?_⟩, ?_⟩
  · unfold MatrixXf.addAt
    rw [idx_getD m r [] hr']
    simp only [bind, Except.bind]
    rw [idx_getD _ c (fin 0) (by rw [hrow]; exact hc)]
    rfl
  · rw [List.length_set, hm.1]
  · intro row hrow'
    rcases List.mem_or_eq_of_mem_set hrow' with h | h
    · exact hm.2 row h
    · rw [h, List.length_set, hrow]
  · intro r' c'
    unfold MatrixXf.entry
    simp only [List.getD_eq_getElem?_getD, List.getElem?_set]
    by_cases h1 : r = r'
    · subst h1
      by_cases h2 : c = c'
      · subst h2
        have hc' : c < (m[r]?.getD []).length := by
          rw [← List.getD_eq_getElem?_getD, hrow]; exact hc
        have hc2 : c < (m[r]).length := by
          simpa [List.getElem?_eq_getElem hr'] using hc'
        simp [hr', hc2, List.getElem?_set]
      · have h2' : ¬ c' = c := fun h => h2 h.symm
        simp [hr', h2, h2']
    · have h1' : ¬ r' = r := fun h => h1 h.symm
      simp [h1, h1']

/-- The float sum of a slice of steps extended by the next step. -/
theorem fsum_take_succ (P : Platform) (steps : List FVal) (a i : Nat) (ha : a ≤ i)
    (hi : i < steps.length) :
    fsum P ((steps.take (i + 1)).drop a) =
      fadd P (fsum P ((steps.take i).drop a)) (steps.getD i (fin 0)) := by
  rw [List.take_succ, List.getElem?_eq_getElem hi, Option.toList_some,
    List.drop_append_of_le_length (by rw [List.length_take]; omega)]
  simp [fsum, List.foldl_append, List.getElem?_eq_getElem hi]

/-- The state of the matrix only depends on the sums it holds. -/
theorem arcMatrix_congr (P : Platform) (steps : List FVal) (n : Nat) (t t' : Nat → Nat → Nat)
    (m : MatrixXf) (h : ArcMatrix P steps n t m)
    (ht : ∀ a b, a < b → b < n →
      fsum P ((steps.take (Min.min b (t a b))).drop a) =
        fsum P ((steps.take (Min.min b (t' a b))).drop a)) :
    ArcMatrix P steps n t' m := by
  refine ⟨h.1, h.2.1, fun a b hab hb => ?_⟩
  rw [← ht a b hab hb]
  exact h.2.2 a b hab hb

/-- One iteration of the innermost loop of the spline distances: the step `i` is
added to the coefficients `(j, k)` and `(k, j)`. -/
theorem spline_step (P : Platform) (steps : List FVal) (n : Nat) (hs : steps.length = n - 1)
    (i j k : Nat) (hj : j ≤ i) (hik : i < k) (hk : k < n) (m : MatrixXf)
    (hm : ArcMatrix P steps n (fun a b => if a < j ∨ (a = j ∧ b < k) then i + 1 else i) m) :
    ∃ m', (do
        let s ← idx steps i
        let m ← MatrixXf.addAt P m j k s
        let s ← idx steps i
        MatrixXf.addAt P m k j s) = .ok m' ∧
      ArcMatrix P steps n (fun a b => if a < j ∨ (a = j ∧ b < k + 1) then i + 1 else i) m' := by
  have hi : i < steps.length := by omega
  obtain ⟨m1, h1, hsq1, he1⟩ := addAt_spec P n m hm.1 j k (by omega) hk (steps.getD i (fin 0))
  obtain ⟨m2, h2, hsq2, he2⟩ := addAt_spec P n m1 hsq1 k j hk (by omega) (steps.getD i (fin 0))
  refine ⟨m2, by rw [idx_getD steps i (fin 0) hi]; simp only [bind, Except.bind, h1, h2],
    hsq2, ?_, ?_⟩
  · intro a ha
    rw [he2, if_neg (by omega), he1, if_neg (by omega)]
    exact hm.2.1 a ha
  · intro a b hab hb
    have hold := hm.2.2 a b hab hb
    have hjk := hm.2.2 j k (by omega) hk
    simp only [lt_irrefl, false_or, true_and, and_false, if_false] at hjk
    have hmin : Min.min k i = i := Nat.min_eq_right (by omega)
    rw [hmin] at hjk
    by_cases hp : a = j ∧ b = k
    · obtain ⟨rfl, rfl⟩ := hp
      have hnew : fsum P ((steps.take (Min.min b (i + 1))).drop a) =
          fadd P (fsum P ((steps.take i).drop a)) (steps.getD i (fin 0)) := by
        rw [Nat.min_eq_right (by omega), fsum_take_succ P steps a i hj hi]
      simp only [lt_add_one, and_self, or_true, if_true]
      rw [hnew]
      constructor
      · rw [he2, if_neg (by omega), he1, if_pos ⟨rfl, rfl⟩, hjk.1]
      · rw [he2, if_pos ⟨rfl, rfl⟩, he1, if_neg (by omega), hjk.2]
    · have hcond : (a < j ∨ (a = j ∧ b < k + 1)) ↔ (a < j ∨ (a = j ∧ b < k)) := by
        constructor
        · rintro (h | ⟨h1, h2⟩)
          · exact Or.inl h
          · exact Or.inr ⟨h1, by
              rcases Nat.lt_succ_iff_lt_or_eq.mp h2 with h3 | h3
              · exact h3
              · exact absurd ⟨h1, h3⟩ hp⟩
        · rintro (h | ⟨h1, h2⟩)
          · exact Or.inl h
          · exact Or.inr ⟨h1, by omega⟩
      simp only [hcond]
      constructor
      · rw [he2, if_neg (by omega), he1, if_neg hp]
        exact hold.1
      · rw [he2, if_neg (by rintro ⟨h1, h2⟩; exact hp ⟨h2, h1⟩), he1, if_neg (by omega)]
        exact hold.2

/-- The third loop of the curvature branch on `n - 1` steps: it returns a square
matrix with a zero diagonal in which the coefficients `(a, b)` and `(b, a)`, for
`a < b`, both hold the float sum of the steps `a`, ..., `b - 1`, added to 0 in this
order. -/
theorem spline_distances_eq (P : Platform) (n : Nat) (steps : List FVal)
    (hs : steps.length = n - 1) :
    ∃ D, spline_distances P n steps = .ok D ∧ Square n D ∧
      (∀ a, a < n → D.entry a a = fin 0) ∧
      ∀ a b, a < b → b < n →
        D.entry a b = fsum P ((steps.take b).drop a) ∧
        D.entry b a = fsum P ((steps.take b).drop a) := by
  have houter : ∃ D, spline_distances P n steps = .ok D ∧
      ArcMatrix P steps n (fun _ _ => n) D := by
    unfold spline_distances
    apply foldlM_range_inv _ (fun i m => ArcMatrix P steps n (fun _ _ => i) m) n
    · refine ⟨(square_zero n).1, fun a _ => (square_zero n).2 a a, fun a b _ _ => ?_⟩
      rw [(square_zero n).2, (square_zero n).2]
      simp [fsum]
    · intro i m hi hm
      have hmid := foldlM_range_inv
        (fun (m : MatrixXf) j =>
          (List.range' (i + 1) (n - (i + 1))).foldlM (fun (m : MatrixXf) k => do
            let s ← idx steps i
            let m ← MatrixXf.addAt P m j k s
            let s ← idx steps i
            MatrixXf.addAt P m k j s) m)
        (fun j m => ArcMatrix P steps n (fun a _ => if a < j then i + 1 else i) m) (i + 1) m
        (by simpa using hm)
        (by
          intro j m hj hm
          have hin := foldlM_range'_idx
            (fun (m : MatrixXf) k => do
              let s ← idx steps i
              let m ← MatrixXf.addAt P m j k s
              let s ← idx steps i
              MatrixXf.addAt P m k j s)
            (fun k m => ArcMatrix P steps n
              (fun a b => if a < j ∨ (a = j ∧ b < k) then i + 1 else i) m)
            (i + 1) (n - (i + 1)) m
            (by
              apply arcMatrix_congr P steps n _ _ m hm
              intro a b hab hb
              by_cases h1 : a < j
              · simp [h1]
              · by_cases h2 : a = j ∧ b < i + 1
                · have c1 : (if a < j then i + 1 else i) = i := if_neg h1
                  have c2 : (if a < j ∨ (a = j ∧ b < i + 1) then i + 1 else i) = i + 1 :=
                    if_pos (Or.inr h2)
                  rw [c1, c2, min_eq_left (by omega), min_eq_left (by omega)]
                · simp only [h1, h2, if_false, or_self])
            (by
              intro k m hk1 hk2 hm
              exact spline_step P steps n hs i j k (by omega) (by omega) (by omega) m hm)
          obtain ⟨r, hr, hinv⟩ := hin
          refine ⟨r, hr, ?_⟩
          apply arcMatrix_congr P steps n _ _ r hinv
          intro a b hab hb
          have hiff : (a < j ∨ (a = j ∧ b < i + 1 + (n - (i + 1)))) ↔ a < j + 1 := by
            constructor
            · rintro (h | ⟨h, _⟩) <;> omega
            · intro h
              rcases Nat.lt_succ_iff_lt_or_eq.mp h with h | h
              · exact Or.inl h
              · exact Or.inr ⟨h, by omega⟩
          simp only [hiff])
      obtain ⟨r, hr, hinv⟩ := hmid
      refine ⟨r, hr, ?_⟩
      apply arcMatrix_congr P steps n _ _ r hinv
      intro a b hab hb
      by_cases h1 : a < i + 1
      · simp [h1]
      · simp only [h1, if_false]
        have e1 : (steps.take (Min.min b i)).drop a = [] := by
          apply List.drop_eq_nil_of_le
          rw [List.length_take]
          omega
        have e2 : (steps.take (Min.min b (i + 1))).drop a = [] := by
          apply List.drop_eq_nil_of_le
          rw [List.length_take]
          omega
        rw [e1, e2]
  obtain ⟨D, hD, hsq, hdiag, hent⟩ := houter
  refine ⟨D, hD, hsq, hdiag, fun a b hab hb => ?_⟩
  have := hent a b hab hb
  beta_reduce at this
  rw [min_eq_left (by omega)] at this
  exact this

/-- A loop whose iterations all succeed computes the fold of their results. -/
theorem foldlM_eq_foldl {σ α : Type} (f : σ → α → Except Err σ) (h : σ → α → σ) (l : List α)
    (init : σ) (hf : ∀ st a, a ∈ l → f st a = .ok (h st a)) :
    l.foldlM f init = .ok (l.foldl h init) := by
  induction l generalizing init with
  | nil => rfl
  | cons a t ih =>
    rw [List.foldlM_cons, hf init a (List.mem_cons_self a t)]
    simp only [bind, Except.bind, List.foldl_cons]
    exact ih _ (fun st b hb => hf st b (List.mem_cons_of_mem a hb))

/-- The fourth loop of the curvature branch, on `n` tangents and a square matrix of
distances: it returns the smoothed tangent of every vertex. -/
theorem smooth_tangents_eq (P : Platform) (fwhm : FVal) (n : Nat) (tangents : List Vec3)
    (sd : MatrixXf) (hl : tangents.length = n) (hsd : Square n sd) :
    smooth_tangents P fwhm n tangents sd =
      .ok ((List.range n).map (smoothed_tangent P fwhm tangents sd)) := by
  unfold smooth_tangents
  have key := foldlM_range_eq (fun (smoothed_tangents : List Vec3) i => do
    let this_tangent ← (List.range n).foldlM (fun (this_tangent : Vec3) j => do
      let distance ← sd.coeff i j
      let this_weight :=
        fexp P (fdiv P (fmul P (neg distance) distance) (gaussian_denominator P fwhm))
      let tj ← idx tangents j
      pure (Vec3.add P this_tangent (Vec3.scale P tj this_weight))) Vec3.zero
    pure (smoothed_tangents ++ [Vec3.normalized P this_tangent]))
    (fun i => (List.range i).map (smoothed_tangent P fwhm tangents sd)) n (by
      intro i hi
      have hin := foldlM_eq_foldl (fun (this_tangent : Vec3) j => do
        let distance ← sd.coeff i j
        let this_weight :=
          fexp P (fdiv P (fmul P (neg distance) distance) (gaussian_denominator P fwhm))
        let tj ← idx tangents j
        pure (Vec3.add P this_tangent (Vec3.scale P tj this_weight)))
        (fun this_tangent j => Vec3.add P this_tangent
          (Vec3.scale P (tangents.getD j Vec3.zero) (gaussian_weight P fwhm (sd.entry i j))))
        (List.range n) Vec3.zero (by
          intro st j hj
          have hj' : j < n := List.mem_range.mp hj
          beta_reduce
          rw [coeff_entry n sd hsd i j hi hj']
          simp only [bind, Except.bind]
          rw [idx_getD tangents j Vec3.zero (by omega)]
          rfl)
      beta_reduce
      rw [hin]
      simp only [bind, Except.bind, pure, Except.pure, List.range_succ, List.map_append,
        List.map_cons, List.map_nil, smoothed_tangent, hl])
  simpa using key

/-- The last loop of the curvature branch, on `n ≥ 2` smoothed tangents and a square
matrix of distances: it pushes the curvature value of every vertex, in index
order. -/
theorem curvature_factors_eq (P : Platform) (n : Nat) (smoothed_tangents : List Vec3)
    (sd : MatrixXf) (factors : List FVal) (hl : smoothed_tangents.length = n)
    (hsd : Square n sd) (hn : 2 ≤ n) :
    curvature_factors P n smoothed_tangents sd factors =
      .ok (factors ++ (List.range n).map (curvature_value P n smoothed_tangents sd)) := by
  unfold curvature_factors
  simp only [push_ite]
  have hv : ∀ k, k < n → idx smoothed_tangents k = .ok (smoothed_tangents.getD k Vec3.zero) :=
    fun k hk => idx_getD smoothed_tangents k _ (by omega)
  have hc : ∀ r c, r < n → c < n → sd.coeff r c = .ok (sd.entry r c) :=
    fun r c hr hc => coeff_entry n sd hsd r c hr hc
  have key := foldlM_range_eq (fun (factors : List FVal) i => do
    let (tangent_dot_product, length) ←
      if i = 0 then do
        let a ← idx smoothed_tangents 1
        let b ← idx smoothed_tangents 0
        let l ← sd.coeff 0 1
        pure (Vec3.dot P a b, l)
      else if i = n - 1 then do
        let a ← idx smoothed_tangents i
        let b ← idx smoothed_tangents (i - 1)
        let l ← sd.coeff i (i - 1)
        pure (Vec3.dot P a b, l)
      else do
        let a ← idx smoothed_tangents (i + 1)
        let b ← idx smoothed_tangents (i - 1)
        let l ← sd.coeff (i + 1) (i - 1)
        pure (Vec3.dot P a b, l)
    pure (factors ++ [if FVal.ge tangent_dot_product (fin 1) = true then fin 0
      else fdiv P (facos P tangent_dot_product) length]))
    (fun i => factors ++ (List.range i).map (curvature_value P n smoothed_tangents sd)) n (by
      intro i hi
      dsimp only
      by_cases h0 : i = 0
      · subst h0
        have h1 : List.range 1 = [0] := rfl
        rw [if_pos rfl, hv 1 (by omega), hv 0 (by omega), hc 0 1 (by omega) (by omega)]
        simp [curvature_value, h1, bind, Except.bind, pure, Except.pure]
      · obtain ⟨k, rfl⟩ : ∃ k, i = k + 1 := ⟨i - 1, by omega⟩
        by_cases hlast : k + 1 = n - 1
        · rw [if_neg h0, if_pos hlast, hv (k + 1) (by omega), hv (k + 1 - 1) (by omega),
            hc (k + 1) (k + 1 - 1) (by omega) (by omega)]
          simp [curvature_value, eq_true hlast, List.range_succ, bind, Except.bind, pure,
            Except.pure]
        · rw [if_neg h0, if_neg hlast, hv (k + 1 + 1) (by omega), hv (k + 1 - 1) (by omega),
            hc (k + 1 + 1) (k + 1 - 1) (by omega) (by omega)]
          simp [curvature_value, eq_false hlast, List.range_succ, bind, Except.bind, pure,
            Except.pure])
  simpa using key

/-- The curvature branch of `load_factors` on at least two vertices, stage by stage:
every loop returns, the repaired tangents are as many as the vertices, the matrix of
spline distances is square, and the values pushed are the curvature values of the
vertices in index order. -/
theorem load_factors_curvature_eq (P : Platform) (m : TrackMapperTWI) (tck : Streamline)
    (hc : m.contrast = .CURVATURE) (hn : 2 ≤ tck.length) :
    ∃ repaired sd,
      repair_tangents P tck.length ((List.range tck.length).map (raw_tangent P tck)) =
        .ok repaired ∧
      repaired.length = tck.length ∧
      spline_distances P tck.length (segment_lengths P tck) = .ok sd ∧
      Square tck.length sd ∧
      load_factors P m tck = .ok (m.factors ++ (List.range tck.length).map
        (curvature_value P tck.length
          ((List.range tck.length).map (smoothed_tangent P m.fwhm repaired sd)) sd)) := by
  have hraw := raw_tangents_eq P tck hn
  obtain ⟨repaired, hrep, hlen⟩ := repair_tangents_ok P tck.length
    ((List.range tck.length).map (raw_tangent P tck)) (by simp) hn
  obtain ⟨sd, hsd, hsq, _, _⟩ := spline_distances_eq P tck.length (segment_lengths P tck)
    (by simp [segment_lengths])
  have hsm := smooth_tangents_eq P m.fwhm tck.length repaired sd hlen hsq
  have hcu := curvature_factors_eq P tck.length
    ((List.range tck.length).map (smoothed_tangent P m.fwhm repaired sd)) sd m.factors
    (by simp) hsq hn
  refine ⟨repaired, sd, hrep, hlen, hsd, hsq, ?_⟩
  unfold load_factors
  simp only [hc, hraw, hrep, hsd, hsm, hcu, bind, Except.bind]
  simp

/-- On a single vertex the first loop of the curvature branch reads `tck[1]`, out of
range. -/
theorem raw_tangents_single (P : Platform) (p : Vec3) :
    raw_tangents P [p] = .error Err.undefined := by
  have h1 : List.range 1 = [0] := rfl
  simp [raw_tangents, h1, idx, bind, Except.bind, throw, throwThe, MonadExceptOf.throw]

/-- The power `2 ^ s` is not negative. -/
theorem pow2_nonneg (s : Int) : 0 ≤ pow2 s := by
  unfold pow2
  split_ifs
  · exact Nat.cast_nonneg _
  · exact div_nonneg zero_le_one (Nat.cast_nonneg _)

/-- Rounding to a binary format keeps a number that is not negative so. -/
theorem rndBinary_nonneg (p : Nat) (emin emax : Int) (q : ℚ) (hq : 0 ≤ q) :
    FVal.le (fin 0) (rndBinary p emin emax q) = true := by
  unfold rndBinary
  by_cases h0 : q = 0
  · simp [h0, FVal.le]
  · have hneg : ¬ q < 0 := not_lt.mpr hq
    simp only [h0, hneg, if_false]
    split_ifs
    · rfl
    · simp only [FVal.le, decide_eq_true_eq]
      exact mul_nonneg (Nat.cast_nonneg _) (pow2_nonneg _)

/-- A float sum of values that are not negative is not negative, when rounding keeps
numbers that are not negative so. -/
theorem fsum_nonneg (P : Platform) (hr : ∀ q, 0 ≤ q → FVal.le (fin 0) (P.rnd q) = true)
    (l : List FVal) (hl : ∀ s ∈ l, FVal.le (fin 0) s = true) :
    FVal.le (fin 0) (fsum P l) = true := by
  have hadd : ∀ a b, FVal.le (fin 0) a = true → FVal.le (fin 0) b = true →
      FVal.le (fin 0) (fadd P a b) = true := by
    intro a b ha hb
    cases a <;> cases b <;> simp_all [FVal.le, fadd]
    exact hr _ (add_nonneg ha hb)
  have hfold : ∀ (l : List FVal) (acc : FVal), FVal.le (fin 0) acc = true →
      (∀ s ∈ l, FVal.le (fin 0) s = true) → FVal.le (fin 0) (l.foldl (fadd P) acc) = true := by
    intro l
    induction l with
    | nil => intro acc hacc _; exact hacc
    | cons x t ih =>
      intro acc hacc hl
      rw [List.foldl_cons]
      exact ih _ (hadd _ _ hacc (hl x (List.mem_cons_self x t)))
        (fun s hs => hl s (List.mem_cons_of_mem x hs))
  exact hfold l (fin 0) (by simp [FVal.le]) hl

/-- Without rounding, the float sum of finite values is their exact sum. -/
theorem foldl_fadd_fin {P : Platform} (hP : Exact P) (qs : List ℚ) (a : ℚ) :
    (qs.map fin).foldl (fadd P) (fin a) = fin (a + qs.sum) := by
  induction qs generalizing a with
  | nil => simp
  | cons q t ih =>
    rw [List.map_cons, List.foldl_cons, fadd_exact hP, ih, List.sum_cons, add_assoc]

/-! ## Reversing a streamline, in exact arithmetic -/

/-- A rational number is zero, negative or positive. -/
theorem rat_sign_absurd {C : Prop} (x : ℚ) (h1 : ¬ x = 0) (h2 : ¬ x < 0) (h3 : ¬ 0 < x) : C :=
  absurd (le_antisymm (not_lt.mp h3) (not_lt.mp h2)) h1

/-- Negation twice. -/
theorem FVal.neg_neg_eq (a : FVal) : FVal.neg (FVal.neg a) = a := by
  cases a <;> simp [FVal.neg]

/-- Exact addition commutes with negation. -/
theorem fadd_neg {P : Platform} (hP : Exact P) (a b : FVal) :
    fadd P (FVal.neg a) (FVal.neg b) = FVal.neg (fadd P a b) := by
  have hr : ∀ q, P.rnd q = fin q := hP
  cases a <;> cases b <;> simp [fadd, FVal.neg, hr, neg_add_rev, add_comm]

/-- Exact addition is commutative. -/
theorem fadd_comm {P : Platform} (hP : Exact P) (a b : FVal) : fadd P a b = fadd P b a := by
  have hr : ∀ q, P.rnd q = fin q := hP
  cases a <;> cases b <;> simp [fadd, hr, add_comm]

/-- Exact addition is associative. -/
theorem fadd_assoc {P : Platform} (hP : Exact P) (a b c : FVal) :
    fadd P (fadd P a b) c = fadd P a (fadd P b c) := by
  have hr : ∀ q, P.rnd q = fin q := hP
  cases a <;> cases b <;> cases c <;> simp [fadd, hr, add_assoc]

/-- An exact difference changes sign when its operands are exchanged. -/
theorem fsub_swap {P : Platform} (hP : Exact P) (a b : FVal) :
    fsub P a b = FVal.neg (fsub P b a) := by
  rw [fsub, fsub, ← fadd_neg hP, FVal.neg_neg_eq, fadd_comm hP]

/-- A product is unchanged when both factors change sign. -/
theorem fmul_neg_neg (P : Platform) (a b : FVal) :
    fmul P (FVal.neg a) (FVal.neg b) = fmul P a b := by
  rcases a with _ | _ | _ | a <;> rcases b with _ | _ | _ | b <;> simp [fmul, FVal.neg] <;>
    split_ifs <;>
    first
    | rfl
    | (exfalso; linarith)
    | exact rat_sign_absurd _ (by assumption) (by assumption) (by assumption)

/-- A product is commutative. -/
theorem fmul_comm (P : Platform) (a b : FVal) : fmul P a b = fmul P b a := by
  cases a <;> cases b <;> simp [fmul, mul_comm]

/-- An exact product changes sign with its first factor. -/
theorem fmul_neg_left {P : Platform} (hP : Exact P) (a w : FVal) :
    fmul P (FVal.neg a) w = FVal.neg (fmul P a w) := by
  have hr : ∀ q, P.rnd q = fin q := hP
  rcases a with _ | _ | _ | a <;> rcases w with _ | _ | _ | w <;> simp [fmul, FVal.neg, hr] <;>
    split_ifs <;>
    first
    | rfl
    | (exfalso; linarith)
    | exact rat_sign_absurd _ (by assumption) (by assumption) (by assumption)

/-- An exact quotient changes sign with its numerator. -/
theorem fdiv_neg_left {P : Platform} (hP : Exact P) (a w : FVal) :
    fdiv P (FVal.neg a) w = FVal.neg (fdiv P a w) := by
  have hr : ∀ q, P.rnd q = fin q := hP
  rcases a with _ | _ | _ | a <;> rcases w with _ | _ | _ | w <;> simp [fdiv, FVal.neg, hr] <;>
    split_ifs <;>
    first
    | rfl
    | (exfalso; linarith)
    | exact rat_sign_absurd _ (by assumption) (by assumption) (by assumption)
    | simp [FVal.neg, neg_div]

/-- The absolute value ignores the sign. -/
theorem FVal.abs_neg_eq (a : FVal) : FVal.abs (FVal.neg a) = FVal.abs a := by
  cases a <;> simp [FVal.abs, FVal.neg]

/-- Finiteness ignores the sign. -/
theorem FVal.isfinite_neg_eq (a : FVal) : (FVal.neg a).isfinite = a.isfinite := by
  cases a <;> rfl

/-- The zero vector is its own negation. -/
theorem Vec3.neg_zero : Vec3.neg Vec3.zero = Vec3.zero := by
  simp [Vec3.neg, Vec3.zero, FVal.neg]

/-- An exact difference of vectors changes sign when its operands are exchanged. -/
theorem Vec3.sub_swap {P : Platform} (hP : Exact P) (a b : Vec3) :
    Vec3.sub P a b = Vec3.neg (Vec3.sub P b a) := by
  simp only [Vec3.sub, Vec3.neg]
  rw [fsub_swap hP a.x b.x, fsub_swap hP a.y b.y, fsub_swap hP a.z b.z]

/-- The dot product is unchanged when both vectors change sign. -/
theorem Vec3.dot_neg_neg (P : Platform) (a b : Vec3) :
    Vec3.dot P (Vec3.neg a) (Vec3.neg b) = Vec3.dot P a b := by
  simp only [Vec3.dot, Vec3.neg, fmul_neg_neg]

/-- The dot product is commutative. -/
theorem Vec3.dot_comm (P : Platform) (a b : Vec3) : Vec3.dot P a b = Vec3.dot P b a := by
  simp only [Vec3.dot]
  rw [fmul_comm P a.x b.x, fmul_comm P a.y b.y, fmul_comm P a.z b.z]

/-- The norm ignores the sign. -/
theorem Vec3.norm_neg (P : Platform) (v : Vec3) : Vec3.norm P (Vec3.neg v) = Vec3.norm P v := by
  rw [Vec3.norm, Vec3.norm, Vec3.dot_neg_neg]

/-- In exact arithmetic, normalisation commutes with negation. -/
theorem Vec3.normalized_neg {P : Platform} (hP : Exact P) (v : Vec3) :
    Vec3.normalized P (Vec3.neg v) = Vec3.neg (Vec3.normalized P v) := by
  rw [Vec3.normalized, Vec3.normalized, Vec3.norm_neg]
  simp only [Vec3.divs, Vec3.neg, fdiv_neg_left hP]

/-- Finiteness of the coefficients ignores the sign. -/
theorem Vec3.allFinite_neg (v : Vec3) : (Vec3.neg v).allFinite = v.allFinite := by
  simp only [Vec3.allFinite, Vec3.neg, FVal.isfinite_neg_eq]

/-- The test `isZero` ignores the sign. -/
theorem Vec3.isZero_neg (P : Platform) (v : Vec3) :
    Vec3.isZero P (Vec3.neg v) = Vec3.isZero P v := by
  simp only [Vec3.isZero, Vec3.neg, FVal.abs_neg_eq]

/-- In exact arithmetic, scaling commutes with negation. -/
theorem Vec3.scale_neg {P : Platform} (hP : Exact P) (v : Vec3) (w : FVal) :
    Vec3.scale P (Vec3.neg v) w = Vec3.neg (Vec3.scale P v w) := by
  simp only [Vec3.scale, Vec3.neg, fmul_neg_left hP]

/-- In exact arithmetic, the sum of two negated vectors is the negated sum. -/
theorem Vec3.add_neg {P : Platform} (hP : Exact P) (a b : Vec3) :
    Vec3.add P (Vec3.neg a) (Vec3.neg b) = Vec3.neg (Vec3.add P a b) := by
  simp only [Vec3.add, Vec3.neg, fadd_neg hP]

/-- In exact arithmetic, the order in which two vectors are added to a third does
not matter. -/
theorem Vec3.add_right_comm {P : Platform} (hP : Exact P) (a b c : Vec3) :
    Vec3.add P (Vec3.add P a b) c = Vec3.add P (Vec3.add P a c) b := by
  have h : ∀ x y z : FVal, fadd P (fadd P x y) z = fadd P (fadd P x z) y := by
    intro x y z
    rw [fadd_assoc hP, fadd_comm hP y z, ← fadd_assoc hP]
  simp only [Vec3.add, h a.x b.x c.x, h a.y b.y c.y, h a.z b.z c.z]

/-- A fold with an operation in which the order of two successive arguments does not
matter can absorb an argument at either end. -/
theorem foldl_comm_cons {β α : Type} (f : β → α → β)
    (hf : ∀ b x y, f (f b x) y = f (f b y) x) (l : List α) (b : β) (a : α) :
    f (l.foldl f b) a = l.foldl f (f b a) := by
  induction l generalizing b with
  | nil => rfl
  | cons x t ih => rw [List.foldl_cons, List.foldl_cons, ih, hf]

/-- A fold with such an operation gives the same result on the reversed list. -/
theorem foldl_reverse_comm {β α : Type} (f : β → α → β)
    (hf : ∀ b x y, f (f b x) y = f (f b y) x) (l : List α) (b : β) :
    l.reverse.foldl f b = l.foldl f b := by
  induction l generalizing b with
  | nil => rfl
  | cons x t ih =>
    rw [List.reverse_cons, List.foldl_append, List.foldl_cons, List.foldl_nil, ih,
      List.foldl_cons, foldl_comm_cons f hf]

/-- In exact arithmetic the sum of negated vectors is the negated sum. -/
theorem foldl_add_neg {P : Platform} (hP : Exact P) (l : List Vec3) (acc : Vec3) :
    (l.map Vec3.neg).foldl (Vec3.add P) (Vec3.neg acc) = Vec3.neg (l.foldl (Vec3.add P) acc) := by
  induction l generalizing acc with
  | nil => rfl
  | cons x t ih => rw [List.map_cons, List.foldl_cons, List.foldl_cons, Vec3.add_neg hP, ih]

/-- Element `k` of the list of the values of a function on `0, ..., n - 1`. -/
theorem getD_map_range {α : Type} (f : Nat → α) (n k : Nat) (d : α) (hk : k < n) :
    ((List.range n).map f).getD k d = f k := by
  simp [List.getD_eq_getElem?_getD, List.getElem?_map, List.getElem?_range hk]

/-- The list of the values of a function on `0, ..., n - 1`, reversed. -/
theorem reverse_map_range {α : Type} (f : Nat → α) (n : Nat) :
    ((List.range n).map f).reverse = (List.range n).map (fun i => f (n - 1 - i)) := by
  apply List.ext_getElem?
  intro k
  by_cases hk : k < n
  · rw [List.getElem?_reverse (by simpa using hk)]
    simp only [List.length_map, List.length_range, List.getElem?_map]
    rw [List.getElem?_range (by omega), List.getElem?_range hk]
    rfl
  · rw [List.getElem?_eq_none (by simpa using hk), List.getElem?_eq_none (by simpa using hk)]

/-- Vertex `k` of the reversed streamline. -/
theorem getD_reverse (tck : Streamline) (k : Nat) (hk : k < tck.length) :
    tck.reverse.getD k Vec3.zero = tck.getD (tck.length - 1 - k) Vec3.zero := by
  rw [List.getD_eq_getElem?_getD, List.getD_eq_getElem?_getD, List.getElem?_reverse hk]

/-- The raw tangent of the first vertex. -/
theorem raw_tangent_first (P : Platform) (tck : Streamline) :
    raw_tangent P tck 0 =
      if (Vec3.normalized P (Vec3.sub P (tck.getD 1 Vec3.zero) (tck.getD 0 Vec3.zero))).allFinite
      then Vec3.normalized P (Vec3.sub P (tck.getD 1 Vec3.zero) (tck.getD 0 Vec3.zero))
      else Vec3.zero := by
  simp [raw_tangent]

/-- The raw tangent of the last vertex. -/
theorem raw_tangent_last (P : Platform) (tck : Streamline) (i : Nat) (h0 : i ≠ 0)
    (hl : i = tck.length - 1) :
    raw_tangent P tck i =
      if (Vec3.normalized P
        (Vec3.sub P (tck.getD i Vec3.zero) (tck.getD (i - 1) Vec3.zero))).allFinite
      then Vec3.normalized P (Vec3.sub P (tck.getD i Vec3.zero) (tck.getD (i - 1) Vec3.zero))
      else Vec3.zero := by
  simp [raw_tangent, h0, eq_true hl]

/-- The raw tangent of an interior vertex. -/
theorem raw_tangent_mid (P : Platform) (tck : Streamline) (i : Nat) (h0 : i ≠ 0)
    (hl : i ≠ tck.length - 1) :
    raw_tangent P tck i =
      if (Vec3.normalized P
        (Vec3.sub P (tck.getD (i + 1) Vec3.zero) (tck.getD (i - 1) Vec3.zero))).allFinite
      then Vec3.normalized P
        (Vec3.sub P (tck.getD (i + 1) Vec3.zero) (tck.getD (i - 1) Vec3.zero))
      else Vec3.zero := by
  simp [raw_tangent, h0, eq_false hl]

/-- In exact arithmetic the raw tangent of vertex `i` of the reversed streamline is
the negated raw tangent of vertex `n - 1 - i`. -/
theorem raw_tangent_reverse {P : Platform} (hP : Exact P) (tck : Streamline) (i : Nat)
    (hn : 2 ≤ tck.length) (hi : i < tck.length) :
    raw_tangent P tck.reverse i = Vec3.neg (raw_tangent P tck (tck.length - 1 - i)) := by
  have hclean : ∀ a b : Vec3,
      (if (Vec3.normalized P (Vec3.sub P a b)).allFinite then Vec3.normalized P (Vec3.sub P a b)
        else Vec3.zero) =
      Vec3.neg (if (Vec3.normalized P (Vec3.sub P b a)).allFinite
        then Vec3.normalized P (Vec3.sub P b a) else Vec3.zero) := by
    intro a b
    rw [Vec3.sub_swap hP a b, Vec3.normalized_neg hP, Vec3.allFinite_neg]
    split_ifs
    · rfl
    · exact Vec3.neg_zero.symm
  have hg : ∀ k, k < tck.length →
      tck.reverse.getD k Vec3.zero = tck.getD (tck.length - 1 - k) Vec3.zero :=
    fun k hk => getD_reverse tck k hk
  by_cases h0 : i = 0
  · subst h0
    rw [raw_tangent_first, raw_tangent_last P tck (tck.length - 1 - 0) (by omega) (by omega),
      hg 1 (by omega), hg 0 (by omega), hclean]
    rfl
  · by_cases hl : i = tck.length - 1
    · subst hl
      rw [raw_tangent_last P tck.reverse (tck.length - 1) (by omega)
          (by rw [List.length_reverse]),
        hg _ (by omega), hg _ (by omega), hclean]
      have e0 : tck.length - 1 - (tck.length - 1) = 0 := by omega
      have e1 : tck.length - 1 - (tck.length - 1 - 1) = 1 := by omega
      rw [e0, e1, raw_tangent_first]
    · rw [raw_tangent_mid P tck.reverse i h0 (by rw [List.length_reverse]; exact hl),
        raw_tangent_mid P tck (tck.length - 1 - i) (by omega) (by omega),
        hg _ (by omega), hg _ (by omega), hclean]
      have e0 : tck.length - 1 - (i + 1) = tck.length - 1 - i - 1 := by omega
      have e1 : tck.length - 1 - (i - 1) = tck.length - 1 - i + 1 := by omega
      rw [e0, e1]

/-- In exact arithmetic the segment lengths of the reversed streamline are those of
the streamline, reversed. -/
theorem segment_lengths_reverse {P : Platform} (hP : Exact P) (tck : Streamline) :
    segment_lengths P tck.reverse = (segment_lengths P tck).reverse := by
  unfold segment_lengths
  rw [reverse_map_range, List.length_reverse]
  apply List.map_congr_left
  intro i hi
  have hi' : i < tck.length - 1 := List.mem_range.mp hi
  rw [getD_reverse tck _ (by omega), getD_reverse tck _ (by omega), Vec3.sub_swap hP,
    Vec3.norm_neg]
  have e0 : tck.length - 1 - (i + 1) = tck.length - 1 - 1 - i := by omega
  have e1 : tck.length - 1 - i = tck.length - 1 - 1 - i + 1 := by omega
  rw [e0, e1]

/-- In exact arithmetic the float sum of a list is that of the reversed list. -/
theorem fsum_reverse {P : Platform} (hP : Exact P) (l : List FVal) :
    fsum P l.reverse = fsum P l := by
  unfold fsum
  apply foldl_reverse_comm
  intro b x y
  rw [fadd_assoc hP, fadd_comm hP x y, ← fadd_assoc hP]

/-- A slice of the reversed list of steps is the reversed slice of the list. -/
theorem slice_reverse (steps : List FVal) (a b : Nat) (hab : a ≤ b) (hb : b ≤ steps.length) :
    (steps.reverse.take b).drop a =
      ((steps.take (steps.length - a)).drop (steps.length - b)).reverse := by
  rw [List.take_reverse, List.drop_reverse, List.drop_take, List.length_drop]
  congr 2
  omega

/-- In exact arithmetic the matrix of spline distances of the reversed steps is the
matrix of the steps reflected in both indices. -/
theorem spline_distances_reverse {P : Platform} (hP : Exact P) (n : Nat) (steps : List FVal)
    (hs : steps.length = n - 1) (D D' : MatrixXf)
    (hD : spline_distances P n steps = .ok D)
    (hD' : spline_distances P n steps.reverse = .ok D') :
    Square n D ∧ Square n D' ∧
    (∀ a b, a < n → b < n → D.entry a b = D.entry b a) ∧
    ∀ a b, a < n → b < n → D'.entry a b = D.entry (n - 1 - a) (n - 1 - b) := by
  obtain ⟨E, hE, hsq, hdiag, hent⟩ := spline_distances_eq P n steps hs
  obtain ⟨E', hE', hsq', hdiag', hent'⟩ := spline_distances_eq P n steps.reverse
    (by rw [List.length_reverse]; exact hs)
  rw [hD] at hE
  rw [hD'] at hE'
  injection hE with hE
  injection hE' with hE'
  subst hE
  subst hE'
  have hsym : ∀ a b, a < n → b < n → D.entry a b = D.entry b a := by
    intro a b ha hb
    rcases lt_trichotomy a b with h | h | h
    · rw [(hent a b h hb).1, (hent a b h hb).2]
    · rw [h]
    · rw [(hent b a h ha).1, (hent b a h ha).2]
  refine ⟨hsq, hsq', hsym, ?_⟩
  have hlt : ∀ a b, a < b → b < n → D'.entry a b = D.entry (n - 1 - a) (n - 1 - b) ∧
      D'.entry b a = D.entry (n - 1 - b) (n - 1 - a) := by
    intro a b hab hb
    have h1 := hent' a b hab hb
    have h2 := hent (n - 1 - b) (n - 1 - a) (by omega) (by omega)
    have hsl := slice_reverse steps a b hab.le (by omega)
    rw [hs] at hsl
    have e1 : n - 1 - (n - 1 - a) = a := by omega
    have hval : fsum P ((steps.reverse.take b).drop a) =
        fsum P ((steps.take (n - 1 - a)).drop (n - 1 - b)) := by
      rw [hsl, fsum_reverse hP]
    exact ⟨by rw [h1.1, hval, h2.2], by rw [h1.2, hval, h2.1]⟩
  intro a b ha hb
  rcases lt_trichotomy a b with h | h | h
  · exact (hlt a b h hb).1
  · subst h
    rw [hdiag' a ha, hdiag (n - 1 - a) (by omega)]
  · exact (hlt b a h ha).2

/-- In exact arithmetic, when the tangents are negated and reversed and the matrix of
distances is reflected, so are the smoothed tangents. -/
theorem smoothed_tangent_reverse {P : Platform} (hP : Exact P) (fwhm : FVal) (n : Nat)
    (ts ts' : List Vec3) (sd sd' : MatrixXf) (hl : ts.length = n) (hl' : ts'.length = n)
    (hts : ∀ j, j < n → ts'.getD j Vec3.zero = Vec3.neg (ts.getD (n - 1 - j) Vec3.zero))
    (hsd : ∀ a b, a < n → b < n → sd'.entry a b = sd.entry (n - 1 - a) (n - 1 - b))
    (i : Nat) (hi : i < n) :
    smoothed_tangent P fwhm ts' sd' i = Vec3.neg (smoothed_tangent P fwhm ts sd (n - 1 - i)) := by
  unfold smoothed_tangent
  rw [hl, hl', ← Vec3.normalized_neg hP]
  congr 1
  have h1 : (List.range n).foldl (fun this_tangent j =>
      Vec3.add P this_tangent
        (Vec3.scale P (ts'.getD j Vec3.zero) (gaussian_weight P fwhm (sd'.entry i j))))
      Vec3.zero =
      ((List.range n).map (fun j => Vec3.neg
        (Vec3.scale P (ts.getD (n - 1 - j) Vec3.zero)
          (gaussian_weight P fwhm (sd.entry (n - 1 - i) (n - 1 - j)))))).foldl
        (Vec3.add P) Vec3.zero := by
    rw [List.foldl_map]
    apply List.foldl_ext
    intro acc j hj
    have hj' : j < n := List.mem_range.mp hj
    rw [hts j hj', hsd i j hi hj', Vec3.scale_neg hP]
  have h2 : (List.range n).foldl (fun this_tangent j =>
      Vec3.add P this_tangent
        (Vec3.scale P (ts.getD j Vec3.zero) (gaussian_weight P fwhm (sd.entry (n - 1 - i) j))))
      Vec3.zero =
      ((List.range n).map (fun j =>
        Vec3.scale P (ts.getD j Vec3.zero)
          (gaussian_weight P fwhm (sd.entry (n - 1 - i) j)))).foldl (Vec3.add P) Vec3.zero := by
    rw [List.foldl_map]
  rw [h1, h2, ← reverse_map_range (fun j => Vec3.neg
      (Vec3.scale P (ts.getD j Vec3.zero) (gaussian_weight P fwhm (sd.entry (n - 1 - i) j)))) n,
    foldl_reverse_comm (Vec3.add P) (Vec3.add_right_comm hP), ← Vec3.neg_zero,
    ← foldl_add_neg hP, List.map_map]
  rfl

/-- The curvature value of the first vertex. -/
theorem curvature_value_first (P : Platform) (n : Nat) (st : List Vec3) (sd : MatrixXf) :
    curvature_value P n st sd 0 =
      if FVal.ge (Vec3.dot P (st.getD 1 Vec3.zero) (st.getD 0 Vec3.zero)) (fin 1) then fin 0
      else fdiv P (facos P (Vec3.dot P (st.getD 1 Vec3.zero) (st.getD 0 Vec3.zero)))
        (sd.entry 0 1) := by
  simp [curvature_value]

/-- The curvature value of the last vertex. -/
theorem curvature_value_last (P : Platform) (n : Nat) (st : List Vec3) (sd : MatrixXf) (i : Nat)
    (h0 : i ≠ 0) (hl : i = n - 1) :
    curvature_value P n st sd i =
      if FVal.ge (Vec3.dot P (st.getD i Vec3.zero) (st.getD (i - 1) Vec3.zero)) (fin 1) then fin 0
      else fdiv P (facos P (Vec3.dot P (st.getD i Vec3.zero) (st.getD (i - 1) Vec3.zero)))
        (sd.entry i (i - 1)) := by
  simp [curvature_value, h0, eq_true hl]

/-- The curvature value of an interior vertex. -/
theorem curvature_value_mid (P : Platform) (n : Nat) (st : List Vec3) (sd : MatrixXf) (i : Nat)
    (h0 : i ≠ 0) (hl : i ≠ n - 1) :
    curvature_value P n st sd i =
      if FVal.ge (Vec3.dot P (st.getD (i + 1) Vec3.zero) (st.getD (i - 1) Vec3.zero)) (fin 1)
      then fin 0
      else fdiv P (facos P (Vec3.dot P (st.getD (i + 1) Vec3.zero) (st.getD (i - 1) Vec3.zero)))
        (sd.entry (i + 1) (i - 1)) := by
  simp [curvature_value, h0, eq_false hl]

/-- When the smoothed tangents are negated and reversed and the symmetric matrix of
distances is reflected, the curvature values are reversed. -/
theorem curvature_value_reverse (P : Platform) (n : Nat) (st st' : List Vec3)
    (sd sd' : MatrixXf) (hn : 2 ≤ n)
    (hst : ∀ k, k < n → st'.getD k Vec3.zero = Vec3.neg (st.getD (n - 1 - k) Vec3.zero))
    (hsym : ∀ a b, a < n → b < n → sd.entry a b = sd.entry b a)
    (hsd : ∀ a b, a < n → b < n → sd'.entry a b = sd.entry (n - 1 - a) (n - 1 - b))
    (i : Nat) (hi : i < n) :
    curvature_value P n st' sd' i = curvature_value P n st sd (n - 1 - i) := by
  by_cases h0 : i = 0
  · subst h0
    rw [curvature_value_first, curvature_value_last P n st sd (n - 1 - 0) (by omega) (by omega),
      hst 1 (by omega), hst 0 (by omega), hsd 0 1 (by omega) (by omega), Vec3.dot_neg_neg,
      Vec3.dot_comm]
    rfl
  · by_cases hl : i = n - 1
    · subst hl
      rw [curvature_value_last P n st' sd' (n - 1) (by omega) rfl,
        hst _ (by omega), hst _ (by omega), hsd _ _ (by omega) (by omega), Vec3.dot_neg_neg,
        Vec3.dot_comm]
      have e0 : n - 1 - (n - 1) = 0 := by omega
      have e1 : n - 1 - (n - 1 - 1) = 1 := by omega
      rw [e0, e1, curvature_value_first]
    · rw [curvature_value_mid P n st' sd' i h0 hl,
        curvature_value_mid P n st sd (n - 1 - i) (by omega) (by omega),
        hst _ (by omega), hst _ (by omega), hsd _ _ (by omega) (by omega), Vec3.dot_neg_neg,
        Vec3.dot_comm, hsym _ _ (by omega) (by omega)]
      have e0 : n - 1 - (i + 1) = n - 1 - i - 1 := by omega
      have e1 : n - 1 - (i - 1) = n - 1 - i + 1 := by omega
      rw [e0, e1]

/-- The arc length of a streamline whose vertices all coincide, at a point of finite
coordinates, is 0 when the float format and the square root give 0 at 0. -/
theorem calc_length_coincident (P : Platform) (h0 : P.rnd 0 = fin 0) (hs : P.sqrt 0 = fin 0)
    (x y z : ℚ) (n : Nat) :
    calc_length P (List.replicate n ⟨fin x, fin y, fin z⟩) = fin 0 := by
  have hstep : fadd P (fin 0)
      (Vec3.norm P (Vec3.sub P ⟨fin x, fin y, fin z⟩ ⟨fin x, fin y, fin z⟩)) = fin 0 := by
    simp [Vec3.norm, Vec3.dot, Vec3.sub, fsub, fadd, fmul, fsqrt, FVal.neg, h0, hs]
  have hfold : ∀ (k : Nat),
      (List.replicate k ((⟨fin x, fin y, fin z⟩ : Vec3), (⟨fin x, fin y, fin z⟩ : Vec3))).foldl
        (fun len s => fadd P len (Vec3.norm P (Vec3.sub P s.2 s.1))) (fin 0) = fin 0 := by
    intro k
    induction k with
    | zero => rfl
    | succ k ih => rw [List.replicate_succ, List.foldl_cons, hstep, ih]
  unfold calc_length
  cases n with
  | zero => rfl
  | succ n =>
    have hz : (List.replicate (n + 1) (⟨fin x, fin y, fin z⟩ : Vec3)).zip
        (List.replicate (n + 1) (⟨fin x, fin y, fin z⟩ : Vec3)).tail =
        List.replicate n (⟨fin x, fin y, fin z⟩, ⟨fin x, fin y, fin z⟩) := by
      rw [List.replicate_succ, List.tail_cons, ← List.replicate_succ, List.zip_replicate]
      simp
    rw [hz, hfold]

/-! ## The curvature estimator: number of values, repair pass, distances -/

/-- C22, failing inputs: on `(0,0,0)`, `(1,0,0)`, `(1,0,0)`, `(1,0,0)`, `(1,1,0)` the
raw tangent of the interior vertex 2 is zero, its nearest valid neighbours are the
tangents `(1,0,0)` of vertex 1 and `(0,1,0)` of vertex 3; the upward scan from index
1 stops at index 2 itself, the downward scan runs down to index 0, and vertex 2
receives the normalised sum of its own zero tangent and the tangent of vertex 0,
`(1,0,0)`, not the normalised average of `(1,0,0)` and `(0,1,0)`.  On `(0,0,0)`,
`(0,0,0)`, `(1,0,0)`, `(1,1,0)` the raw tangent of vertex 0 is zero and vertex 1 has
the valid tangent `(1,0,0)`; the upward scan runs past every valid tangent to the
last index and vertex 0 receives the tangent `(0,1,0)` of vertex 3. -/
theorem repair_tangents_not_nearest :
    raw_tangents binary32
        [vertex 0 0 0, vertex 1 0 0, vertex 1 0 0, vertex 1 0 0, vertex 1 1 0] =
      .ok ([⟨fin 1, fin 0, fin 0⟩, ⟨fin 1, fin 0, fin 0⟩, Vec3.zero, ⟨fin 0, fin 1, fin 0⟩,
        ⟨fin 0, fin 1, fin 0⟩], [fin 1, fin 0, fin 0, fin 1]) ∧
    scan_j binary32 [⟨fin 1, fin 0, fin 0⟩, ⟨fin 1, fin 0, fin 0⟩, Vec3.zero,
        ⟨fin 0, fin 1, fin 0⟩, ⟨fin 0, fin 1, fin 0⟩] 5 6 1 = .ok 2 ∧
    scan_k binary32 [⟨fin 1, fin 0, fin 0⟩, ⟨fin 1, fin 0, fin 0⟩, Vec3.zero,
        ⟨fin 0, fin 1, fin 0⟩, ⟨fin 0, fin 1, fin 0⟩] 1 = .ok 0 ∧
    repair_tangents binary32 5 [⟨fin 1, fin 0, fin 0⟩, ⟨fin 1, fin 0, fin 0⟩, Vec3.zero,
        ⟨fin 0, fin 1, fin 0⟩, ⟨fin 0, fin 1, fin 0⟩] =
      .ok [⟨fin 1, fin 0, fin 0⟩, ⟨fin 1, fin 0, fin 0⟩, ⟨fin 1, fin 0, fin 0⟩,
        ⟨fin 0, fin 1, fin 0⟩, ⟨fin 0, fin 1, fin 0⟩] ∧
    Vec3.normalized binary32
        (Vec3.add binary32 ⟨fin 1, fin 0, fin 0⟩ ⟨fin 0, fin 1, fin 0⟩) =
      ⟨fin (11863283 / 16777216), fin (11863283 / 16777216), fin 0⟩ ∧
    raw_tangents binary32 [vertex 0 0 0, vertex 0 0 0, vertex 1 0 0, vertex 1 1 0] =
      .ok ([Vec3.zero, ⟨fin 1, fin 0, fin 0⟩,
        ⟨fin (11863283 / 16777216), fin (11863283 / 16777216), fin 0⟩,
        ⟨fin 0, fin 1, fin 0⟩], [fin 0, fin 1, fin 1]) ∧
    scan_j binary32 [Vec3.zero, ⟨fin 1, fin 0, fin 0⟩,
        ⟨fin (11863283 / 16777216), fin (11863283 / 16777216), fin 0⟩,
        ⟨fin 0, fin 1, fin 0⟩] 4 5 1 = .ok 3 ∧
    repair_tangents binary32 4 [Vec3.zero, ⟨fin 1, fin 0, fin 0⟩,
        ⟨fin (11863283 / 16777216), fin (11863283 / 16777216), fin 0⟩,
        ⟨fin 0, fin 1, fin 0⟩] =
      .ok [⟨fin 0, fin 1, fin 0⟩, ⟨fin 1, fin 0, fin 0⟩,
        ⟨fin (11863283 / 16777216), fin (11863283 / 16777216), fin 0⟩,
        ⟨fin 0, fin 1, fin 0⟩] := by
  refine ⟨?_, ?_, ?_, ?_, ?_, ?_, ?_, ?_⟩ <;> decide!

/-- C23: on a streamline of `N` vertices (`N ≠ 1`), with the segment lengths
`s_i = |P[i+1] - P[i]|` that the first loop of the curvature branch computes, the
matrix of spline distances satisfies `D(j,k) = D(k,j) = s_j + ... + s_(k-1)` for all
`j < k < N`, the sum being the float sum accumulated in this order from 0, and
`D(j,j) = 0`; so it is symmetric with a zero diagonal, and its entries are not
negative when the lengths are not (rounding keeping the sign); without rounding the
sum is the exact sum. -/
theorem spline_distances_arc_length (P : Platform) (tck : Streamline) (hn : tck.length ≠ 1) :
    ∃ tangents sd,
      raw_tangents P tck = .ok (tangents, segment_lengths P tck) ∧
      spline_distances P tck.length (segment_lengths P tck) = .ok sd ∧
      (∀ j k, j < k → k < tck.length →
        sd.coeff j k = .ok (arc_length P tck j k) ∧
        sd.coeff k j = .ok (arc_length P tck j k)) ∧
      (∀ j, j < tck.length → sd.coeff j j = .ok (fin 0)) ∧
      ((∀ q, 0 ≤ q → FVal.le (fin 0) (P.rnd q) = true) →
        (∀ s ∈ segment_lengths P tck, FVal.le (fin 0) s = true) →
        ∀ j k, j < tck.length → k < tck.length →
          ∃ d, sd.coeff j k = .ok d ∧ FVal.le (fin 0) d = true) ∧
      (Exact P → ∀ qs : List ℚ, segment_lengths P tck = qs.map fin →
        ∀ j k, arc_length P tck j k = fin (((qs.take k).drop j).sum)) := by
  have hraw : ∃ tangents, raw_tangents P tck = .ok (tangents, segment_lengths P tck) := by
    by_cases h0 : tck.length = 0
    · rw [List.length_eq_zero] at h0
      subst h0
      exact ⟨[], rfl⟩
    · exact ⟨_, raw_tangents_eq P tck (by omega)⟩
  obtain ⟨tangents, hraw⟩ := hraw
  obtain ⟨sd, hsd, hsq, hdiag, hent⟩ := spline_distances_eq P tck.length (segment_lengths P tck)
    (by simp [segment_lengths])
  refine ⟨tangents, sd, hraw, hsd, ?_, ?_, ?_, ?_⟩
  · intro j k hjk hk
    rw [coeff_entry _ sd hsq j k (by omega) hk, coeff_entry _ sd hsq k j hk (by omega),
      (hent j k hjk hk).1, (hent j k hjk hk).2]
    exact ⟨rfl, rfl⟩
  · intro j hj
    rw [coeff_entry _ sd hsq j j hj hj, hdiag j hj]
  · intro hr hs j k hj hk
    refine ⟨sd.entry j k, coeff_entry _ sd hsq j k hj hk, ?_⟩
    have hslice : ∀ a b, FVal.le (fin 0)
        (fsum P (((segment_lengths P tck).take b).drop a)) = true := by
      intro a b
      apply fsum_nonneg P hr
      intro s hs'
      exact hs s (List.mem_of_mem_take (List.mem_of_mem_drop hs'))
    rcases lt_trichotomy j k with h | h | h
    · rw [(hent j k h hk).1]; exact hslice j k
    · rw [h, hdiag k hk]; simp [FVal.le]
    · rw [(hent k j h hj).2]; exact hslice k j
  · intro hP qs hqs j k
    unfold arc_length fsum
    rw [hqs, ← List.map_take, ← List.map_drop, foldl_fadd_fin hP, zero_add]

/-- Witness of C23: in single precision, on `(0,0,0)`, `(3,4,0)`, `(3,4,12)`, whose
segments have the lengths 5 and 12, the distance between the vertices 0 and 2 is
17 along the polyline, not the chord 13. -/
theorem spline_distances_arc_length_witness :
    (∃ tangents sd,
      raw_tangents binary32 [vertex 0 0 0, vertex 3 4 0, vertex 3 4 12] =
        .ok (tangents, segment_lengths binary32 [vertex 0 0 0, vertex 3 4 0, vertex 3 4 12]) ∧
      spline_distances binary32 [vertex 0 0 0, vertex 3 4 0, vertex 3 4 12].length
        (segment_lengths binary32 [vertex 0 0 0, vertex 3 4 0, vertex 3 4 12]) = .ok sd ∧
      (∀ j k, j < k → k < [vertex 0 0 0, vertex 3 4 0, vertex 3 4 12].length →
        sd.coeff j k =
          .ok (arc_length binary32 [vertex 0 0 0, vertex 3 4 0, vertex 3 4 12] j k) ∧
        sd.coeff k j =
          .ok (arc_length binary32 [vertex 0 0 0, vertex 3 4 0, vertex 3 4 12] j k)) ∧
      (∀ j, j < [vertex 0 0 0, vertex 3 4 0, vertex 3 4 12].length →
        sd.coeff j j = .ok (fin 0)) ∧
      ((∀ q, 0 ≤ q → FVal.le (fin 0) (binary32.rnd q) = true) →
        (∀ s ∈ segment_lengths binary32 [vertex 0 0 0, vertex 3 4 0, vertex 3 4 12],
          FVal.le (fin 0) s = true) →
        ∀ j k, j < [vertex 0 0 0, vertex 3 4 0, vertex 3 4 12].length →
          k < [vertex 0 0 0, vertex 3 4 0, vertex 3 4 12].length →
          ∃ d, sd.coeff j k = .ok d ∧ FVal.le (fin 0) d = true) ∧
      (Exact binary32 → ∀ qs : List ℚ,
        segment_lengths binary32 [vertex 0 0 0, vertex 3 4 0, vertex 3 4 12] = qs.map fin →
        ∀ j k, arc_length binary32 [vertex 0 0 0, vertex 3 4 0, vertex 3 4 12] j k =
          fin (((qs.take k).drop j).sum))) ∧
    segment_lengths binary32 [vertex 0 0 0, vertex 3 4 0, vertex 3 4 12] = [fin 5, fin 12] ∧
    arc_length binary32 [vertex 0 0 0, vertex 3 4 0, vertex 3 4 12] 0 2 = fin 17 ∧
    spline_distances binary32 3 [fin 5, fin 12] =
      .ok [[fin 0, fin 5, fin 17], [fin 5, fin 0, fin 12], [fin 17, fin 12, fin 0]] ∧
    (∀ q, 0 ≤ q → FVal.le (fin 0) (binary32.rnd q) = true) :=
  ⟨spline_distances_arc_length binary32 [vertex 0 0 0, vertex 3 4 0, vertex 3 4 12] (by decide),
    by decide!, by decide!, by decide!, fun q hq => rndBinary_nonneg 24 (-126) 127 q hq⟩

/-! ## The scratch array, and the contrasts that read no per-vertex value -/

/-- C24: with a per-vertex contrast, the outcome of `set_factor` (the factor, the
scratch array as the call leaves it, or the error) is the same whatever the
scratch array held before the call. -/
theorem set_factor_scratch_independent (P : Platform) (m : TrackMapperTWI) (tck : Streamline)
    (fs₁ fs₂ : List FVal)
    (hc : m.contrast = .SCALAR_MAP ∨ m.contrast = .SCALAR_MAP_COUNT ∨ m.contrast = .FOD_AMP ∨
      m.contrast = .CURVATURE) :
    set_factor P { m with factors := fs₁ } tck = set_factor P { m with factors := fs₂ } tck := by
  unfold set_factor contrast_factor
  rcases hc with hc | hc | hc | hc <;> simp only [hc]

/-- Witness of C24: the sum of the plugin's values `[1, 2]` is 3, with the scratch
array empty or holding the values of an earlier streamline. -/
theorem set_factor_scratch_independent_witness :
    set_factor binary32
        { mapper_with .SCALAR_MAP .T_SUM [fin 1, fin 2] with factors := [fin 7, nan, fin 5] } [] =
      set_factor binary32 { mapper_with .SCALAR_MAP .T_SUM [fin 1, fin 2] with factors := [] } [] ∧
    set_factor binary32
        { mapper_with .SCALAR_MAP .T_SUM [fin 1, fin 2] with factors := [fin 7, nan, fin 5] } [] =
      .ok (fin 3, [fin 1, fin 2]) :=
  ⟨set_factor_scratch_independent binary32 (mapper_with .SCALAR_MAP .T_SUM [fin 1, fin 2]) []
      [fin 7, nan, fin 5] [] (Or.inl rfl), by decide!⟩

/-! ## Index ranges of the curvature estimator -/

/-- C25: with the contrast `CURVATURE`, on a streamline of `N ≥ 2` vertices, every
loop of `load_factors` returns without an access out of range: the first loop gives
`N` tangents and `N - 1` step sizes, the repair pass `N` tangents, the distance loop
an `N` by `N` matrix from the `N - 1` step sizes, the smoothing loop `N` smoothed
tangents, and the last loop returns; on any array of at least two tangents the
upward scan of the repair pass stops at an index from 1 to `N - 1` and the downward
scan at an index not above its start; and on a streamline of one vertex the read
of `tck[1]` is out of range. -/
theorem load_factors_curvature_in_range (P : Platform) (m : TrackMapperTWI) (tck : Streamline)
    (hc : m.contrast = .CURVATURE) :
    (2 ≤ tck.length →
      ∃ tangents step_sizes repaired sd smoothed r,
        raw_tangents P tck = .ok (tangents, step_sizes) ∧
        tangents.length = tck.length ∧ step_sizes.length = tck.length - 1 ∧
        repair_tangents P tck.length tangents = .ok repaired ∧
        repaired.length = tck.length ∧
        spline_distances P tck.length step_sizes = .ok sd ∧ Square tck.length sd ∧
        smooth_tangents P m.fwhm tck.length repaired sd = .ok smoothed ∧
        smoothed.length = tck.length ∧
        curvature_factors P tck.length smoothed sd m.factors = .ok r ∧
        load_factors P m tck = .ok r) ∧
    (∀ tangents : List Vec3, 2 ≤ tangents.length →
      (∃ j, scan_j P tangents tangents.length (tangents.length + 1) 1 = .ok j ∧
        1 ≤ j ∧ j ≤ tangents.length - 1) ∧
      ∀ k, k < tangents.length → ∃ k', scan_k P tangents k = .ok k' ∧ k' ≤ k) ∧
    (tck.length = 1 → load_factors P m tck = .error Err.undefined) := by
  refine ⟨fun hn => ?_, fun tangents hl => ⟨?_, fun k hk => scan_k_ok P tangents k hk⟩,
    fun h1 => ?_⟩
  · obtain ⟨repaired, sd, hrep, hlen, hsd, hsq, hload⟩ := load_factors_curvature_eq P m tck hc hn
    exact ⟨_, _, repaired, sd, _, _, raw_tangents_eq P tck hn, by simp, by simp [segment_lengths],
      hrep, hlen, hsd, hsq, smooth_tangents_eq P m.fwhm tck.length repaired sd hlen hsq, by simp,
      curvature_factors_eq P tck.length _ sd m.factors (by simp) hsq hn, hload⟩
  · exact scan_j_ok P tangents tangents.length rfl (tangents.length + 1) 1 (by omega) (by omega)
  · obtain ⟨p, rfl⟩ := List.length_eq_one.mp h1
    unfold load_factors
    simp only [hc, raw_tangents_single, bind, Except.bind]
    simp

/-- Witness of C25: in single precision, the streamline `(0,0,0)`, `(0,0,0)`,
`(0,0,0)`, `(2,0,0)`, on which the repair pass runs its scans, is processed without
an access out of range, and the streamline of one vertex is not. -/
theorem load_factors_curvature_in_range_witness :
    (∃ tangents step_sizes repaired sd smoothed r,
      raw_tangents binary32 [vertex 0 0 0, vertex 0 0 0, vertex 0 0 0, vertex 2 0 0] =
        .ok (tangents, step_sizes) ∧
      tangents.length = [vertex 0 0 0, vertex 0 0 0, vertex 0 0 0, vertex 2 0 0].length ∧
      step_sizes.length = [vertex 0 0 0, vertex 0 0 0, vertex 0 0 0, vertex 2 0 0].length - 1 ∧
      repair_tangents binary32 [vertex 0 0 0, vertex 0 0 0, vertex 0 0 0, vertex 2 0 0].length
        tangents = .ok repaired ∧
      repaired.length = [vertex 0 0 0, vertex 0 0 0, vertex 0 0 0, vertex 2 0 0].length ∧
      spline_distances binary32 [vertex 0 0 0, vertex 0 0 0, vertex 0 0 0, vertex 2 0 0].length
        step_sizes = .ok sd ∧
      Square [vertex 0 0 0, vertex 0 0 0, vertex 0 0 0, vertex 2 0 0].length sd ∧
      smooth_tangents binary32 (mapper_bare .CURVATURE .T_MEAN).fwhm
        [vertex 0 0 0, vertex 0 0 0, vertex 0 0 0, vertex 2 0 0].length repaired sd =
        .ok smoothed ∧
      smoothed.length = [vertex 0 0 0, vertex 0 0 0, vertex 0 0 0, vertex 2 0 0].length ∧
      curvature_factors binary32 [vertex 0 0 0, vertex 0 0 0, vertex 0 0 0, vertex 2 0 0].length
        smoothed sd (mapper_bare .CURVATURE .T_MEAN).factors = .ok r ∧
      load_factors binary32 (mapper_bare .CURVATURE .T_MEAN)
        [vertex 0 0 0, vertex 0 0 0, vertex 0 0 0, vertex 2 0 0] = .ok r) ∧
    load_factors binary32 (mapper_bare .CURVATURE .T_MEAN) [vertex 0 0 0] =
      .error Err.undefined :=
  ⟨(load_factors_curvature_in_range binary32 (mapper_bare .CURVATURE .T_MEAN)
      [vertex 0 0 0, vertex 0 0 0, vertex 0 0 0, vertex 2 0 0] rfl).1 (by decide),
    (load_factors_curvature_in_range binary32 (mapper_bare .CURVATURE .T_MEAN)
      [vertex 0 0 0] rfl).2.2 rfl⟩

/-! ## Contrasts that ignore the statistic, endpoint ties -/

/-- C26: with the contrast `TDI`, `LENGTH` or `INVLENGTH`, `set_factor` returns
normally with a finite factor and leaves the scratch array alone; the result is
the same for every statistic and every plugin, attached or not. -/
theorem set_factor_ignores_statistic (P : Platform) (m : TrackMapperTWI) (tck : Streamline)
    (hc : m.contrast = .TDI ∨ m.contrast = .LENGTH ∨ m.contrast = .INVLENGTH) :
    (∃ q, set_factor P m tck = .ok (fin q, m.factors)) ∧
    ∀ (s : tck_stat_t) (p : Option (Streamline → List FVal → List FVal)),
      set_factor P { m with track_statistic := s, image_plugin := p } tck = set_factor P m tck := by
  constructor
  · have hne : m.contrast ≠ .SCALAR_MAP_COUNT := by rcases hc with hc | hc | hc <;> simp [hc]
    have h : ∃ f, contrast_factor P m tck = .ok (f, m.factors) := by
      unfold contrast_factor
      rcases hc with hc | hc | hc <;> simp only [hc] <;> exact ⟨_, rfl⟩
    obtain ⟨f, hf⟩ := h
    obtain ⟨q, hq⟩ := finalise_finite m.contrast f
    exact ⟨q, by rw [set_factor_of_contrast_factor P m tck f _ hf, hq]⟩
  · intro s p
    unfold set_factor contrast_factor
    rcases hc with hc | hc | hc <;> simp only [hc]

/-- Witness of C26: the segment of length 8 under `LENGTH`, with the Gaussian
statistic or a statistic outside the enumeration, without a plugin. -/
theorem set_factor_ignores_statistic_witness :
    (∃ q, set_factor binary32 (mapper_bare .LENGTH .GAUSSIAN) (segment 8) =
      .ok (fin q, (mapper_bare .LENGTH .GAUSSIAN).factors)) ∧
    set_factor binary32 (mapper_bare .LENGTH .GAUSSIAN) (segment 8) = .ok (fin 8, []) ∧
    set_factor binary32
        { mapper_bare .LENGTH .GAUSSIAN with
          track_statistic := .other 99, image_plugin := some (fun _ fs => fs ++ [nan]) }
        (segment 8) =
      set_factor binary32 (mapper_bare .LENGTH .GAUSSIAN) (segment 8) :=
  ⟨(set_factor_ignores_statistic binary32 (mapper_bare .LENGTH .GAUSSIAN) (segment 8)
      (Or.inr (Or.inl rfl))).1, by decide!,
    (set_factor_ignores_statistic binary32 (mapper_bare .LENGTH .GAUSSIAN) (segment 8)
      (Or.inr (Or.inl rfl))).2 (.other 99) (some (fun _ fs => fs ++ [nan]))⟩

/-- C27: with the contrast `INVLENGTH`, on a streamline whose vertices all coincide
(arc length 0), `set_factor` returns normally and the factor is exactly 0: the
quotient `1.0f / 0` is plus infinity, which the last statement replaces by 0. -/
theorem set_factor_invlength_zero (P : Platform) (m : TrackMapperTWI)
    (hc : m.contrast = .INVLENGTH) (h0 : P.rnd 0 = fin 0) (hs : P.sqrt 0 = fin 0)
    (x y z : ℚ) (n : Nat) :
    calc_length P (List.replicate n ⟨fin x, fin y, fin z⟩) = fin 0 ∧
    fdiv P (fin 1) (calc_length P (List.replicate n ⟨fin x, fin y, fin z⟩)) = pinf ∧
    set_factor P m (List.replicate n ⟨fin x, fin y, fin z⟩) = .ok (fin 0, m.factors) := by
  have hl := calc_length_coincident P h0 hs x y z n
  have hd : fdiv P (fin 1) (calc_length P (List.replicate n ⟨fin x, fin y, fin z⟩)) = pinf := by
    rw [hl]; simp [fdiv]
  refine ⟨hl, hd, ?_⟩
  have h : contrast_factor P m (List.replicate n ⟨fin x, fin y, fin z⟩) =
      .ok (pinf, m.factors) := by
    simp [contrast_factor, hc, hd, pure, Except.pure]
  rw [set_factor_of_contrast_factor P m _ _ _ h, finalise_eq _ (by simp [hc])]
  rfl

/-- Witness of C27: three vertices at the point `(1, 2, 3)` in single precision. -/
theorem set_factor_invlength_zero_witness :
    calc_length binary32 (List.replicate 3 ⟨fin 1, fin 2, fin 3⟩) = fin 0 ∧
    fdiv binary32 (fin 1) (calc_length binary32 (List.replicate 3 ⟨fin 1, fin 2, fin 3⟩)) = pinf ∧
    set_factor binary32 (mapper_bare .INVLENGTH .T_SUM) (List.replicate 3 ⟨fin 1, fin 2, fin 3⟩) =
      .ok (fin 0, (mapper_bare .INVLENGTH .T_SUM).factors) :=
  set_factor_invlength_zero binary32 (mapper_bare .INVLENGTH .T_SUM) rfl (by decide!) (by decide!)
    1 2 3 3

/-- C28: with a per-vertex contrast other than `SCALAR_MAP_COUNT` and two finite
endpoint values `[a, b]`, `ENDS_MIN` and `ENDS_MAX` each return one of `a`, `b`, the
result of `ENDS_MIN` is not larger in absolute value than that of `ENDS_MAX`, and
when `|a| = |b|` both return the second value `b`. -/
theorem set_factor_ends_tie (P : Platform) (m : TrackMapperTWI) (tck : Streamline) (a b : ℚ)
    (hc : PerVertex m.contrast)
    (hl : load_factors P { m with factors := [] } tck = .ok [fin a, fin b]) :
    ∃ rmin rmax,
      set_factor P { m with track_statistic := .ENDS_MIN } tck = .ok (fin rmin, [fin a, fin b]) ∧
      set_factor P { m with track_statistic := .ENDS_MAX } tck = .ok (fin rmax, [fin a, fin b]) ∧
      (rmin = a ∨ rmin = b) ∧ (rmax = a ∨ rmax = b) ∧ |rmin| ≤ |rmax| ∧
      (|a| = |b| → rmin = b ∧ rmax = b) := by
  have hmin := set_factor_per_vertex P { m with track_statistic := .ENDS_MIN } tck _ _ _ hc hl
    (statistic_factor_ends P (fin a) (fin b)).1
  have hmax := set_factor_per_vertex P { m with track_statistic := .ENDS_MAX } tck _ _ _ hc hl
    (statistic_factor_ends P (fin a) (fin b)).2.2.1
  rcases lt_trichotomy |a| |b| with h | h | h
  · refine ⟨a, b, ?_, ?_, Or.inl rfl, Or.inr rfl, h.le, fun he => absurd he h.ne⟩
    · rw [hmin]; simp [FVal.abs, FVal.lt, h, FVal.isfinite]
    · rw [hmax]; simp [FVal.abs, FVal.gt, FVal.lt, not_lt.mpr h.le, FVal.isfinite]
  · refine ⟨b, b, ?_, ?_, Or.inr rfl, Or.inr rfl, le_refl _, fun _ => ⟨rfl, rfl⟩⟩
    · rw [hmin]; simp [FVal.abs, FVal.lt, h, FVal.isfinite]
    · rw [hmax]; simp [FVal.abs, FVal.gt, FVal.lt, h, FVal.isfinite]
  · refine ⟨b, a, ?_, ?_, Or.inr rfl, Or.inl rfl, h.le, fun he => absurd he h.ne'⟩
    · rw [hmin]; simp [FVal.abs, FVal.lt, not_lt.mpr h.le, FVal.isfinite]
    · rw [hmax]; simp [FVal.abs, FVal.gt, FVal.lt, h, FVal.isfinite]

/-- Witness of C28: on `[3.0, -3.0]` both statistics return -3.0. -/
theorem set_factor_ends_tie_witness :
    (∃ rmin rmax,
      set_factor binary32
          { mapper_with .SCALAR_MAP .T_SUM [fin 3, fin (-3)] with track_statistic := .ENDS_MIN }
          [] = .ok (fin rmin, [fin 3, fin (-3)]) ∧
      set_factor binary32
          { mapper_with .SCALAR_MAP .T_SUM [fin 3, fin (-3)] with track_statistic := .ENDS_MAX }
          [] = .ok (fin rmax, [fin 3, fin (-3)]) ∧
      (rmin = 3 ∨ rmin = -3) ∧ (rmax = 3 ∨ rmax = -3) ∧ |rmin| ≤ |rmax| ∧
      (|(3 : ℚ)| = |(-3 : ℚ)| → rmin = -3 ∧ rmax = -3)) ∧
    set_factor binary32 (mapper_with .SCALAR_MAP .ENDS_MIN [fin 3, fin (-3)]) [] =
      .ok (fin (-3), [fin 3, fin (-3)]) ∧
    set_factor binary32 (mapper_with .SCALAR_MAP .ENDS_MAX [fin 3, fin (-3)]) [] =
      .ok (fin (-3), [fin 3, fin (-3)]) :=
  ⟨set_factor_ends_tie binary32 (mapper_with .SCALAR_MAP .T_SUM [fin 3, fin (-3)]) [] 3 (-3)
      (Or.inl rfl) (by decide!), by decide!, by decide!⟩

/-! ## The curvature of the reversed streamline -/

/-- C29: in exact arithmetic (no rounding in `+`, `-`, `*`, `/`; any square root,
exponential and arc cosine), with the contrast `CURVATURE`, on a streamline of
`N ≥ 2` vertices none of whose raw tangents is zero, `load_factors` returns `N`
values, and on the reversed streamline it returns the same values in reverse
order. -/
theorem load_factors_reverse {P : Platform} (hP : Exact P) (m : TrackMapperTWI)
    (hc : m.contrast = .CURVATURE) (tck : Streamline) (hn : 2 ≤ tck.length)
    (tangents : List Vec3) (step_sizes : List FVal)
    (hraw : raw_tangents P tck = .ok (tangents, step_sizes))
    (hz : ∀ t ∈ tangents, Vec3.isZero P t = false) :
    ∃ r, load_factors P { m with factors := [] } tck = .ok r ∧ r.length = tck.length ∧
      load_factors P { m with factors := [] } tck.reverse = .ok r.reverse := by
  have hn' : 2 ≤ tck.reverse.length := by rw [List.length_reverse]; exact hn
  -- the raw tangents of both streamlines
  have hts : tangents = (List.range tck.length).map (raw_tangent P tck) := by
    have := raw_tangents_eq P tck hn
    rw [hraw] at this
    injection this with this
    exact (Prod.mk.inj this).1
  have hz1 : ∀ i, i < tck.length → Vec3.isZero P (raw_tangent P tck i) = false := by
    intro i hi
    apply hz
    rw [hts]
    exact List.mem_map.mpr ⟨i, List.mem_range.mpr hi, rfl⟩
  have hz2 : ∀ i, i < tck.length → Vec3.isZero P (raw_tangent P tck.reverse i) = false := by
    intro i hi
    rw [raw_tangent_reverse hP tck i hn hi, Vec3.isZero_neg]
    exact hz1 _ (by omega)
  have hid : ∀ (t : Streamline), t.length = tck.length →
      (∀ i, i < tck.length → Vec3.isZero P (raw_tangent P t i) = false) →
      repair_tangents P tck.length ((List.range tck.length).map (raw_tangent P t)) =
        .ok ((List.range tck.length).map (raw_tangent P t)) := by
    intro t _ h
    apply repair_tangents_id
    intro i hi
    have hi' : i < tck.length := by simpa using hi
    exact ⟨raw_tangent P t i, by simp [List.getElem?_map, List.getElem?_range hi'], h i hi'⟩
  -- the two runs, stage by stage
  obtain ⟨repaired, sd, hrep, _, hsd, _, hload⟩ :=
    load_factors_curvature_eq P { m with factors := [] } tck hc hn
  obtain ⟨repaired', sd', hrep', _, hsd', _, hload'⟩ :=
    load_factors_curvature_eq P { m with factors := [] } tck.reverse hc hn'
  rw [List.length_reverse] at hrep' hsd' hload'
  rw [hid tck rfl hz1] at hrep
  rw [hid tck.reverse (List.length_reverse tck) hz2] at hrep'
  injection hrep with hrep
  injection hrep' with hrep'
  subst hrep
  subst hrep'
  rw [segment_lengths_reverse hP] at hsd'
  obtain ⟨_, _, hsym, hrefl⟩ := spline_distances_reverse hP tck.length (segment_lengths P tck)
    (by simp [segment_lengths]) sd sd' hsd hsd'
  refine ⟨_, by simpa using hload, by simp, ?_⟩
  simp only [List.nil_append] at hload'
  rw [hload', reverse_map_range]
  congr 1
  apply List.map_congr_left
  intro i hi
  have hi' : i < tck.length := List.mem_range.mp hi
  apply curvature_value_reverse P tck.length _ _ sd sd' hn _ hsym hrefl i hi'
  intro k hk
  rw [getD_map_range _ _ _ _ hk, getD_map_range _ _ _ _ (by omega)]
  apply smoothed_tangent_reverse hP m.fwhm tck.length _ _ sd sd' (by simp) (by simp) _ hrefl k hk
  intro j hj
  rw [getD_map_range _ _ _ _ hj, getD_map_range _ _ _ _ (by omega)]
  exact raw_tangent_reverse hP tck j hn hj

/-- Witness of C29: the bend `(0,0,0)`, `(3,0,0)`, `(3,4,0)` in exact arithmetic; its
three curvature values come out in the opposite order on `(3,4,0)`, `(3,0,0)`,
`(0,0,0)`. -/
theorem load_factors_reverse_witness :
    (∃ r, load_factors ideal { mapper_bare .CURVATURE .T_MEAN with factors := [] }
        [vertex 0 0 0, vertex 3 0 0, vertex 3 4 0] = .ok r ∧
      r.length = [vertex 0 0 0, vertex 3 0 0, vertex 3 4 0].length ∧
      load_factors ideal { mapper_bare .CURVATURE .T_MEAN with factors := [] }
        [vertex 0 0 0, vertex 3 0 0, vertex 3 4 0].reverse = .ok r.reverse) ∧
    load_factors ideal (mapper_bare .CURVATURE .T_MEAN)
        [vertex 0 0 0, vertex 3 0 0, vertex 3 4 0] =
      .ok [fin (186799 / 2097152), fin (5278165 / 58720256), fin (1518289 / 16777216)] ∧
    load_factors ideal (mapper_bare .CURVATURE .T_MEAN)
        [vertex 3 4 0, vertex 3 0 0, vertex 0 0 0] =
      .ok [fin (1518289 / 16777216), fin (5278165 / 58720256), fin (186799 / 2097152)] :=
  ⟨load_factors_reverse (fun _ => rfl) (mapper_bare .CURVATURE .T_MEAN) rfl
      [vertex 0 0 0, vertex 3 0 0, vertex 3 4 0] (by decide)
      [⟨fin 1, fin 0, fin 0⟩, ⟨fin (3 / 5), fin (4 / 5), fin 0⟩, ⟨fin 0, fin 1, fin 0⟩]
      [fin 3, fin 4] (by decide!) (by decide!),
    by decide!, by decide!⟩

/-! ## `voxelise` only adds to the set it is given -/

/-- C30: `voxelise` removes nothing from the set it is given: the result is that set
united with the voxel set of the streamline computed from the empty set; every
element of the set is still present; and voxelising the concatenation of two
streamlines gives the union of their voxel sets. -/
theorem voxelise_union (m : TrackMapperBase) (t t₁ t₂ : Streamline) (S : SetVoxel) :
    voxelise m t S = S ∪ voxelise m t ∅ ∧
    S ⊆ voxelise m t S ∧
    voxelise m (t₁ ++ t₂) S = S ∪ (voxelise m t₁ ∅ ∪ voxelise m t₂ ∅) := by
  refine ⟨?_, ?_, ?_⟩
  · ext v
    simp [mem_voxelise]
  · intro v hv
    exact (mem_voxelise m t S v).mpr (Or.inl hv)
  · ext v
    simp only [mem_voxelise, Finset.mem_union, List.mem_append, Finset.not_mem_empty, false_or]
    constructor
    · rintro (h | ⟨p, hp | hp, h⟩)
      · exact Or.inl h
      · exact Or.inr (Or.inl ⟨p, hp, h⟩)
      · exact Or.inr (Or.inr ⟨p, hp, h⟩)
    · rintro (h | ⟨p, hp, h⟩ | ⟨p, hp, h⟩)
      · exact Or.inl h
      · exact Or.inr ⟨p, Or.inl hp, h⟩
      · exact Or.inr ⟨p, Or.inr hp, h⟩

/-! ## Exact arithmetic with a square root rounded down -/

/-- C21: with the contrast `CURVATURE`, on a streamline of `N ≥ 2` vertices, every
loop of the curvature branch returns: the first loop gives the raw tangents and the
segment lengths of the streamline, the second the repaired tangents, the third the
matrix of spline distances, the fourth the smoothed tangents, and `load_factors`
started from the cleared scratch array returns the array `r` that the last loop
builds from these; `r` has exactly `N` entries, entry `i` being the curvature value
that the last loop computes at index `i` from these smoothed tangents and spline
distances; started from any other content `load_factors` appends the same `N` values
to it. -/
theorem load_factors_curvature_count (P : Platform) (m : TrackMapperTWI) (tck : Streamline)
    (hc : m.contrast = .CURVATURE) (hn : 2 ≤ tck.length) :
    ∃ tangents step_sizes repaired sd smoothed r,
      raw_tangents P tck = .ok (tangents, step_sizes) ∧
      repair_tangents P tck.length tangents = .ok repaired ∧
      spline_distances P tck.length step_sizes = .ok sd ∧
      smooth_tangents P m.fwhm tck.length repaired sd = .ok smoothed ∧
      curvature_factors P tck.length smoothed sd [] = .ok r ∧
      load_factors P { m with factors := [] } tck = .ok r ∧
      r.length = tck.length ∧
      (∀ i, i < tck.length → r[i]? = some (curvature_value P tck.length smoothed sd i)) ∧
      (∀ i, i < tck.length →
        smoothed[i]? = some (smoothed_tangent P m.fwhm repaired sd i)) ∧
      ∀ pre, load_factors P { m with factors := pre } tck = .ok (pre ++ r) := by
  obtain ⟨repaired, sd, hrep, hlen, hsd, hsq, hload⟩ :=
    load_factors_curvature_eq P { m with factors := [] } tck hc hn
  have hcu := curvature_factors_eq P tck.length
    ((List.range tck.length).map (smoothed_tangent P m.fwhm repaired sd)) sd []
    (by simp) hsq hn
  refine ⟨_, _, repaired, sd, _, _, raw_tangents_eq P tck hn, hrep, hsd,
    smooth_tangents_eq P m.fwhm tck.length repaired sd hlen hsq, by simpa using hcu,
    by simpa using hload, by simp, ?_, ?_, ?_⟩
  · intro i hi
    simp [List.getElem?_map, List.getElem?_range hi]
  · intro i hi
    simp [List.getElem?_map, List.getElem?_range hi]
  · intro pre
    obtain ⟨repaired', sd', hrep', _, hsd', _, hload'⟩ :=
      load_factors_curvature_eq P { m with factors := pre } tck hc hn
    rw [hrep] at hrep'
    rw [hsd] at hsd'
    injection hrep' with hrep'
    injection hsd' with hsd'
    subst hrep'
    subst hsd'
    exact hload'

/-- Witness of C21: the right-angle bend `(0,0,0)`, `(1,0,0)`, `(1,1,0)` in single
precision gives three values. -/
theorem load_factors_curvature_count_witness :
    (∃ tangents step_sizes repaired sd smoothed r,
      raw_tangents binary32 [vertex 0 0 0, vertex 1 0 0, vertex 1 1 0] =
        .ok (tangents, step_sizes) ∧
      repair_tangents binary32 [vertex 0 0 0, vertex 1 0 0, vertex 1 1 0].length tangents =
        .ok repaired ∧
      spline_distances binary32 [vertex 0 0 0, vertex 1 0 0, vertex 1 1 0].length step_sizes =
        .ok sd ∧
      smooth_tangents binary32 (mapper_bare .CURVATURE .T_MEAN).fwhm
        [vertex 0 0 0, vertex 1 0 0, vertex 1 1 0].length repaired sd = .ok smoothed ∧
      curvature_factors binary32 [vertex 0 0 0, vertex 1 0 0, vertex 1 1 0].length smoothed sd
        [] = .ok r ∧
      load_factors binary32 { mapper_bare .CURVATURE .T_MEAN with factors := [] }
        [vertex 0 0 0, vertex 1 0 0, vertex 1 1 0] = .ok r ∧
      r.length = [vertex 0 0 0, vertex 1 0 0, vertex 1 1 0].length ∧
      (∀ i, i < [vertex 0 0 0, vertex 1 0 0, vertex 1 1 0].length →
        r[i]? = some (curvature_value binary32
          [vertex 0 0 0, vertex 1 0 0, vertex 1 1 0].length smoothed sd i)) ∧
      (∀ i, i < [vertex 0 0 0, vertex 1 0 0, vertex 1 1 0].length →
        smoothed[i]? = some (smoothed_tangent binary32 (mapper_bare .CURVATURE .T_MEAN).fwhm
          repaired sd i)) ∧
      ∀ pre, load_factors binary32 { mapper_bare .CURVATURE .T_MEAN with factors := pre }
        [vertex 0 0 0, vertex 1 0 0, vertex 1 1 0] = .ok (pre ++ r)) ∧
    load_factors binary32 { mapper_bare .CURVATURE .T_MEAN with factors := [] }
        [vertex 0 0 0, vertex 1 0 0, vertex 1 1 0] =
      .ok [fin (4306653 / 134217728), fin (8613043 / 268435456), fin (4306653 / 134217728)] :=
  ⟨load_factors_curvature_count binary32 (mapper_bare .CURVATURE .T_MEAN)
      [vertex 0 0 0, vertex 1 0 0, vertex 1 1 0] rfl (by decide), by decide!⟩

end MR.DWI.Tractography.Mapping
